import Mathlib

/-!
# Verification of the pass-trail ledger core

A shallow embedding, in Lean 4, of the consensus-critical parts of the
pass-trail repository (Go package `focalpoint`), together with theorems
settling the frozen claims C1..C10 about it.

Modelling conventions, shared by the whole file:

* Go `int64`/`int32`/`int` values are modelled as `Int` (overflow is never
  reached by the checked code paths: every consensus value is bounded by
  `MAX_NUMBER = 2^53 - 1` well below the `int64` range).
* Go byte slices (`[]byte`, public keys, 32-byte ids) are modelled as
  `List Nat`, each element standing for one byte.
* Go truncated integer division and remainder (`/`, `%`) are written
  `Int.tdiv` and `Int.tmod`, which use the same T-rounding convention.
* SHA3-256 and the canonical-JSON id computations are cryptographic
  primitives; they enter the embedding as explicit function parameters
  (an "oracle") wherever a checked function consumes them.  No theorem in
  this file depends on any property of the hash beyond it being a
  function.
* Go `map` values read through `ok`-patterns are modelled either as
  association lists (`List (κ × ν)`, when iteration over the entries
  matters) or as functions into `Option` (when only lookup matters).
-/

namespace Focalpoint

/-- Consensus constants from `src/constants.go`. -/
def VIEWPOINT_MATURITY : Int := 100

def MAX_FUTURE_SECONDS : Int := 2 * 60 * 60

def RETARGET_INTERVAL : Int := 2016

def RETARGET_TIME : Int := 1209600

def NUM_VIEWS_FOR_MEDIAN_TMESTAMP : Nat := 11

def INITIAL_MAX_CONSIDERATIONS_PER_VIEW : Int := 10000

def VIEWS_UNTIL_CONSIDERATIONS_PER_VIEW_DOUBLING : Int := 105000

def MAX_CONSIDERATIONS_PER_VIEW : Int := 2 ^ 31 - 1

def MAX_CONSIDERATIONS_PER_VIEW_EXCEEDED_AT_HEIGHT : Int := 1852032

def VIEWS_UNTIL_NEW_SERIES : Int := 1008

def MAX_MEMO_LENGTH : Nat := 150

def MAX_NUMBER : Int := 2 ^ 53 - 1

def BITCOIN_CASH_RETARGET_ALGORITHM_HEIGHT : Int := 28861

/-- A public key: 32 bytes (`ed25519.PublicKey`), modelled as a byte list. -/
abbrev PubKey := List Nat

/-- A 32-byte view id (`ViewID` in `src/view.go`), modelled as a byte list. -/
abbrev ViewID := List Nat

/-- A 32-byte consideration id (`ConsiderationID`), modelled as a byte list. -/
abbrev ConsiderationID := List Nat

/-- `Consideration` from `src/unnamed/part_004`.  `By = none` models a nil
`by` key (a viewpoint).  `Memo` is a Lean `String`, which is always valid
UTF-8, exactly like the Go values that pass `utf8.ValidString`. -/
structure Consideration where
  Time : Int
  Nonce : Int
  By : Option PubKey
  For : PubKey
  Memo : String
  Matures : Int
  Expires : Int
  Series : Int
  Signature : List Nat
  deriving DecidableEq, Repr

namespace Consideration

/-- `Consideration.IsViewpoint` from `src/unnamed/part_004`:
a viewpoint is a consideration whose `by` key is nil. -/
def IsViewpoint (cn : Consideration) : Bool :=
  cn.By = none

/-- `Consideration.IsMature` from `src/unnamed/part_004` lines 96-101,
verbatim: true when `Matures == 0`, otherwise when `Matures >= height`. -/
def IsMature (cn : Consideration) (height : Int) : Bool :=
  if cn.Matures = 0 then true
  else cn.Matures ≥ height

/-- `Consideration.IsExpired` from `src/unnamed/part_004` lines 103-109:
true when `Expires` is nonzero and `Expires < height`. -/
def IsExpired (cn : Consideration) (height : Int) : Bool :=
  if cn.Expires = 0 then false
  else cn.Expires < height

end Consideration

/-- `computeConsiderationSeries` from `src/unnamed/part_004`. -/
def computeConsiderationSeries (isViewpoint : Bool) (height : Int) : Int :=
  if isViewpoint then
    Int.tdiv height VIEWS_UNTIL_NEW_SERIES + 1
  else
    Int.tdiv (height - 100) VIEWS_UNTIL_NEW_SERIES + 1

/-- `checkConsiderationSeries` from `src/unnamed/part_001` lines 341-355. -/
def checkConsiderationSeries (cn : Consideration) (height : Int) : Bool :=
  if cn.IsViewpoint then
    cn.Series = Int.tdiv height VIEWS_UNTIL_NEW_SERIES + 1
  else
    let high := Int.tdiv height VIEWS_UNTIL_NEW_SERIES + 1
    let low := high - 1
    let low := if low = 0 then 1 else low
    decide (low ≤ cn.Series) && decide (cn.Series ≤ high)

/-- `ViewID.GetBigInt` from `src/view.go`: the big-endian big-integer value
of a 32-byte id (`big.Int.SetBytes`). -/
def GetBigInt (id : List Nat) : Nat :=
  id.foldl (fun acc b => acc * 256 + b) 0

/-- `ViewHeader` from `src/view.go` (the unexported `hasher` field is a
rendering cache and carries no data). -/
structure ViewHeader where
  Previous : ViewID
  HashListRoot : ConsiderationID
  Time : Int
  Target : ViewID
  PointWork : ViewID
  Nonce : Int
  Height : Int
  ConsiderationCount : Int
  deriving DecidableEq, Repr

/-- `View` from `src/view.go`: a header plus the ordered consideration
list (the unexported `hasher` field is a rendering cache). -/
structure View where
  Header : ViewHeader
  Considerations : List Consideration
  deriving DecidableEq, Repr

/-- `ViewHeader.Compare` from `src/view.go` lines 185-215.  `idOf` is the
oracle for `ViewHeader.ID()` read as a big integer (SHA3-256 of the
canonical JSON, `GetBigInt`-decoded); the code only compares the two ids. -/
def ViewHeader.Compare (idOf : ViewHeader → Nat) (header theirHeader : ViewHeader)
    (thisWhen theirWhen : Int) : Bool :=
  let thisWorkInt := GetBigInt header.PointWork
  let theirWorkInt := GetBigInt theirHeader.PointWork
  if thisWorkInt > theirWorkInt then true
  else if thisWorkInt < theirWorkInt then false
  else if thisWhen < theirWhen then true
  else if thisWhen > theirWhen then false
  else idOf header < idOf theirHeader

/-! ## Association lists

Used to model the Go `map` values whose entries are iterated
(`ImbalanceCache.cache`, the imbalance table of the ledger database). -/

/-- Lookup in an association list (Go `v, ok := m[k]`). -/
def alGet {κ ν : Type} [DecidableEq κ] (l : List (κ × ν)) (k : κ) : Option ν :=
  match l with
  | [] => none
  | (k₀, v₀) :: rest => if k₀ = k then some v₀ else alGet rest k

/-- Store in an association list (Go `m[k] = v`): replaces the first
binding of `k`, or appends a new one. -/
def alSet {κ ν : Type} [DecidableEq κ] (l : List (κ × ν)) (k : κ) (v : ν) :
    List (κ × ν) :=
  match l with
  | [] => [(k, v)]
  | (k₀, v₀) :: rest => if k₀ = k then (k, v) :: rest else (k₀, v₀) :: alSet rest k v

/-! ## ImbalanceCache (`src/constants.go` lines 70-168)

The cache is the Go map `cache map[[32]byte]int64`, modelled as an
association list.  `ledger` stands for `Ledger.GetPublicKeyImbalance`,
which in `LedgerDisk` returns 0 for an absent key and only errors on a
storage fault; storage faults are outside the model, so the read is a
total function. -/

/-- The delta map of an `ImbalanceCache`. -/
abbrev ImbCache := List (PubKey × Int)

/-- `ImbalanceCache.Apply` from `src/constants.go` lines 93-127.  Returns
the Go pair `(ok, cache after the call)`. -/
def ImbalanceCache.Apply (ledger : PubKey → Int) (cache : ImbCache)
    (cn : Consideration) : Bool × ImbCache :=
  match cn.By with
  | some fpk =>
    -- check and debit sender imbalance
    let senderImbalance := (alGet cache fpk).getD (ledger fpk)
    if senderImbalance < 1 then (false, cache)
    else
      let cache := alSet cache fpk (senderImbalance - 1)
      -- credit recipient imbalance
      let recipientImbalance := (alGet cache cn.For).getD (ledger cn.For)
      (true, alSet cache cn.For (recipientImbalance + 1))
  | none =>
    -- viewpoint: credit recipient imbalance only
    let recipientImbalance := (alGet cache cn.For).getD (ledger cn.For)
    (true, alSet cache cn.For (recipientImbalance + 1))

/-- `ImbalanceCache.Undo` from `src/constants.go` lines 130-163.  The Go
code panics when the recipient imbalance would go negative; the panic is
modelled as `none`. -/
def ImbalanceCache.Undo (ledger : PubKey → Int) (cache : ImbCache)
    (cn : Consideration) : Option ImbCache :=
  let cache :=
    match cn.By with
    | some fpk =>
      -- credit imbalance for sender
      let senderImbalance := (alGet cache fpk).getD (ledger fpk)
      alSet cache fpk (senderImbalance + 1)
    | none => cache
  -- debit recipient imbalance
  let recipientImbalance := (alGet cache cn.For).getD (ledger cn.For)
  if recipientImbalance < 1 then none
  else some (alSet cache cn.For (recipientImbalance - 1))

/-! ## Graph (`src/consideration_graph.go`)

Only the fields that `IsParentDescendant` consults are carried:
`index` is the `map[string]uint32` from node key to node index,
`nodeCount` its size (`len(graph.index)`), and `edges n` the key set of
the adjacency map `graph.edges[n]` (the `float64` edge weights play no
role in the traversal).  The Go DFS terminates because `visited` grows;
the model passes a fuel of `nodeCount + 1`, which bounds the recursion
depth in the same way. -/

structure Graph where
  index : String → Option Nat
  nodeCount : Nat
  edges : Nat → List Nat

/-- `Graph.dfs` from `src/consideration_graph.go` lines 162-182, with the
mutated `visited` map threaded explicitly.  After a neighbour reports
success the remaining neighbours leave the accumulator unchanged, which
matches the Go early return. -/
def Graph.dfs (g : Graph) (target : Nat) : Nat → Nat → List Nat → Bool × List Nat :=
  fun fuel => Nat.rec (motive := fun _ => Nat → List Nat → Bool × List Nat)
    (fun _ visited => (false, visited))
    (fun _ ih current visited =>
      if current = target then (true, visited)
      else
        (g.edges current).foldl
          (fun acc e =>
            if acc.1 then acc
            else if e = 0 then acc -- Skip the root node
            else if acc.2.contains e then acc
            else ih e acc.2)
          (false, current :: visited))
    fuel

/-- `Graph.IsParentDescendant` from `src/consideration_graph.go` lines
146-160. -/
def Graph.IsParentDescendant (g : Graph) (parent descendant : String) : Bool :=
  match g.index parent, g.index descendant with
  | some parentIndex, some descendantIndex =>
    if parentIndex = 0 ∨ descendantIndex = 0 then false
    else (g.dfs descendantIndex (g.nodeCount + 1) parentIndex []).1
  | _, _ => false

/-! ## Context-free view validation (`src/unnamed/part_001`)

`checkConsideration`, `computeMaxConsiderationsPerView`, `CheckPOW`,
`computeHashListRoot` and `checkView`.  The SHA3-256 digest and the
canonical-JSON consideration id enter as oracles `H` (digest of a byte
list) and `cnIdOf` (id of a consideration). -/

/-- `checkConsideration` from `src/unnamed/part_001` lines 266-338,
modelled as a boolean (the Go function returns a descriptive error).
Lean strings are always valid UTF-8, so the `utf8.ValidString` test is
identically true in the model; `len(cn.Memo)` is the byte length.  The Go
`bytes.Equal(cn.By, cn.For)` treats a nil `By` as the empty byte slice. -/
def checkConsideration (cn : Consideration) : Bool :=
  if cn.Time < 0 ∨ cn.Time > MAX_NUMBER then false
  else if cn.Nonce < 0 then false
  else if cn.IsViewpoint ∧ cn.Matures > 0 then false
  else if cn.IsViewpoint ∧ cn.Expires > 0 then false
  else if cn.IsViewpoint ∧ cn.Signature.length ≠ 0 then false
  else if ¬cn.IsViewpoint ∧ (cn.By.getD []).length ≠ 32 then false
  else if ¬cn.IsViewpoint ∧ cn.Signature.length ≠ 64 then false
  else if cn.For.length ≠ 32 then false
  else if cn.By.getD [] = cn.For then false
  else if cn.Memo.utf8ByteSize > MAX_MEMO_LENGTH then false
  else if cn.Matures < 0 ∨ cn.Matures > MAX_NUMBER then false
  else if cn.Expires < 0 ∨ cn.Expires > MAX_NUMBER then false
  else if cn.Series ≤ 0 ∨ cn.Series > MAX_NUMBER then false
  else true

/-- `computeMaxConsiderationsPerView` from `src/unnamed/part_001` lines
507-523.  The Go `1 << doublings` overflow guard (`doublings >= 64`
panics) is unreachable below the cap height and is not modelled. -/
def computeMaxConsiderationsPerView (height : Int) : Int :=
  if height ≥ MAX_CONSIDERATIONS_PER_VIEW_EXCEEDED_AT_HEIGHT then
    MAX_CONSIDERATIONS_PER_VIEW
  else
    let doublings := Int.tdiv height VIEWS_UNTIL_CONSIDERATIONS_PER_VIEW_DOUBLING
    let remainder := Int.tmod height VIEWS_UNTIL_CONSIDERATIONS_PER_VIEW_DOUBLING
    let factor : Int := 2 ^ doublings.toNat
    let interpolate := Int.tdiv
      (INITIAL_MAX_CONSIDERATIONS_PER_VIEW * factor * remainder)
      VIEWS_UNTIL_CONSIDERATIONS_PER_VIEW_DOUBLING
    INITIAL_MAX_CONSIDERATIONS_PER_VIEW * factor + interpolate

/-- `View.CheckPOW` from `src/view.go`: the id's big-integer value must
not exceed the declared target's. -/
def View.CheckPOW (v : View) (id : ViewID) : Bool :=
  GetBigInt id ≤ GetBigInt v.Header.Target

/-- `computeHashListRoot` (together with `addViewpointToHashListRoot`)
from `src/view.go` lines 101-141: the ids of the non-viewpoint
considerations are streamed into one digest, and the root is the digest
of the viewpoint id followed by that inner digest.  Only called with a
non-empty list (`checkView` rejects empty views first); the empty case
is unreachable. -/
def computeHashListRoot (H : List Nat → List Nat)
    (cnIdOf : Consideration → ConsiderationID) :
    List Consideration → ConsiderationID
  | [] => []
  | viewpoint :: rest =>
    let inner := H (rest.foldl (fun acc cn => acc ++ cnIdOf cn) [])
    H (cnIdOf viewpoint ++ inner)

/-- Modelled from the spec: `CheckpointCheck` is called by `checkView`
("check against known checkpoints", spec §4.7 step 2 "checkpoint match
(if any)") but its definition is not part of the source snapshot.  The
checkpoint table maps a height to the required view id; a view fails the
check only when a checkpoint exists at its height with a different id. -/
def CheckpointCheck (checkpoints : Int → Option ViewID) (id : ViewID)
    (height : Int) : Bool :=
  match checkpoints height with
  | none => true
  | some cpid => cpid = id

/-- `checkView` from `src/unnamed/part_001` lines 405-504, modelled as a
boolean with the checks in source order. -/
def checkView (H : List Nat → List Nat)
    (cnIdOf : Consideration → ConsiderationID)
    (checkpoints : Int → Option ViewID)
    (id : ViewID) (view : View) (now : Int) : Bool :=
  if view.Header.Time < 0 ∨ view.Header.Time > MAX_NUMBER then false
  else if view.Header.Time > now + MAX_FUTURE_SECONDS then false
  else if ¬(view.CheckPOW id) then false
  else if view.Header.Nonce < 0 ∨ view.Header.Nonce > MAX_NUMBER then false
  else if view.Header.Height < 0 ∨ view.Header.Height > MAX_NUMBER then false
  else if ¬(CheckpointCheck checkpoints id view.Header.Height) then false
  else if view.Header.ConsiderationCount < 0 then false
  else if view.Header.ConsiderationCount ≠ (view.Considerations.length : Int) then false
  else
    match view.Considerations with
    | [] => false
    | viewpoint :: rest =>
      if ¬viewpoint.IsViewpoint then false
      else if (view.Considerations.length : Int) >
          computeMaxConsiderationsPerView view.Header.Height then false
      else if rest.any Consideration.IsViewpoint then false
      else if ¬(view.Considerations.all checkConsideration) then false
      else if (view.Considerations.map cnIdOf).dedup.length ≠
          view.Considerations.length then false
      else if computeHashListRoot H cnIdOf view.Considerations ≠
          view.Header.HashListRoot then false
      else true

/-! ## LedgerDisk (`src/unnamed/part_008`)

The LevelDB key space of `LedgerDisk` (schema comment at the bottom of
the file) has six disjoint key groups distinguished by their one-byte
tag, each with fixed-width payloads: the point tip `T`, branch types
`B{bid}`, the height index `h{height}`, consideration indices `t{cnid}`,
public-key consideration indices `k{pk}{height}{index}`, and imbalances
`b{pk}`.  The encoding is injective, so the store is modelled as a record
with one map per group.  The imbalance table is an association list
because `Imbalance()` iterates its entries; all other groups are modelled
as functions into `Option` (lookup only).

A `leveldb.Batch` is an ordered list of put/delete operations applied
atomically at the end of `ConnectView`/`DisconnectView`; reads performed
while the batch is being built see the unmodified store, exactly as in
the Go code.  Failures (including the `Undo` panic) are `none`.  The
returned `cnIDs` slice is only forwarded to the queue and is not part of
the persistent state, so the model returns the new store alone. -/

/-- `BranchType` from `src/ledger.go`. -/
inductive BranchType where
  | MAIN
  | SIDE
  | ORPHAN
  | UNKNOWN
  deriving DecidableEq, Repr

/-- The persistent ledger key-value image, one component per key group. -/
structure LedgerDB where
  pointTip : Option (ViewID × Int)
  branchType : ViewID → Option BranchType
  viewHeightIndex : Int → Option ViewID
  considerationIndex : ConsiderationID → Option (Int × Int)
  pubKeyConsiderationIndex : PubKey × Int × Int → Option Unit
  pubKeyImbalance : List (PubKey × Int)

/-- The empty store (a freshly created database). -/
def emptyDB : LedgerDB :=
  { pointTip := none, branchType := fun _ => none,
    viewHeightIndex := fun _ => none, considerationIndex := fun _ => none,
    pubKeyConsiderationIndex := fun _ => none, pubKeyImbalance := [] }

/-- Delete from an association list (Go `batch.Delete` on a map key). -/
def alErase {κ ν : Type} [DecidableEq κ] (l : List (κ × ν)) (k : κ) :
    List (κ × ν) :=
  match l with
  | [] => []
  | (k₀, v₀) :: rest => if k₀ = k then alErase rest k else (k₀, v₀) :: alErase rest k

/-- One `leveldb.Batch` entry, tagged by key group. -/
inductive BatchOp where
  | putConsIdx (k : ConsiderationID) (v : Int × Int)
  | delConsIdx (k : ConsiderationID)
  | putPkIdx (k : PubKey × Int × Int)
  | delPkIdx (k : PubKey × Int × Int)
  | putImb (pk : PubKey) (v : Int)
  | delImb (pk : PubKey)
  | putHeightIdx (h : Int) (id : ViewID)
  | delHeightIdx (h : Int)
  | putBranch (id : ViewID) (b : BranchType)
  | putTip (id : ViewID) (h : Int)
  deriving DecidableEq, Repr

/-- Replay one batch entry against the store. -/
def applyOp (db : LedgerDB) : BatchOp → LedgerDB
  | .putConsIdx k v =>
    { db with considerationIndex := fun k' => if k' = k then some v
        else db.considerationIndex k' }
  | .delConsIdx k =>
    { db with considerationIndex := fun k' => if k' = k then none
        else db.considerationIndex k' }
  | .putPkIdx k =>
    { db with pubKeyConsiderationIndex := fun k' => if k' = k then some ()
        else db.pubKeyConsiderationIndex k' }
  | .delPkIdx k =>
    { db with pubKeyConsiderationIndex := fun k' => if k' = k then none
        else db.pubKeyConsiderationIndex k' }
  | .putImb pk v => { db with pubKeyImbalance := alSet db.pubKeyImbalance pk v }
  | .delImb pk => { db with pubKeyImbalance := alErase db.pubKeyImbalance pk }
  | .putHeightIdx h id =>
    { db with viewHeightIndex := fun h' => if h' = h then some id
        else db.viewHeightIndex h' }
  | .delHeightIdx h =>
    { db with viewHeightIndex := fun h' => if h' = h then none
        else db.viewHeightIndex h' }
  | .putBranch id b =>
    { db with branchType := fun id' => if id' = id then some b
        else db.branchType id' }
  | .putTip id h => { db with pointTip := some (id, h) }

/-- Atomically commit a batch: replay its entries in order
(`l.db.Write(batch, ...)`). -/
def applyBatch (db : LedgerDB) (ops : List BatchOp) : LedgerDB :=
  ops.foldl applyOp db

/-- `Ledger.GetPublicKeyImbalance` against the store: 0 for an absent
key. -/
def dbImbRead (db : LedgerDB) (pk : PubKey) : Int :=
  (alGet db.pubKeyImbalance pk).getD 0

/-- The `LedgerDisk` receiver context minus the store itself: the
consideration-id oracle (`cn.ID()`), the view store
(`GetConsideration`/`GetView`), the graph ancestry test
`conGraph.IsParentDescendant(pubKeyToString(c.For), pubKeyToString(c.By))`
folded into one boolean per consideration, and the pruning flag. -/
structure LedgerEnv where
  idOf : Consideration → ConsiderationID
  getCons : ViewID → Int → Option Consideration
  getView : ViewID → Option View
  ancestryBlocked : Consideration → Bool
  prune : Bool

/-- The viewpoint-maturity deferral of `ConnectView`/`DisconnectView`:
which consideration (if any) is applied to the imbalance cache for `cn`
in a view at `height`.  A non-viewpoint is applied itself; a viewpoint is
replaced by the viewpoint of the view `VIEWPOINT_MATURITY` heights back
(applied only when `height - VIEWPOINT_MATURITY ≥ 0`); the outer `none`
is the error when that lookup fails. -/
def resolveApply (env : LedgerEnv) (db : LedgerDB) (height : Int)
    (cn : Consideration) : Option (Option Consideration) :=
  if cn.IsViewpoint then
    if height - VIEWPOINT_MATURITY ≥ 0 then
      match db.viewHeightIndex (height - VIEWPOINT_MATURITY) with
      | none => none
      | some oldID =>
        match env.getCons oldID 0 with
        | none => none
        | some oldTx => some (some oldTx)
    else some none
  else some (some cn)

/-- The two `computePubKeyConsiderationIndexKey` writes of one loop
iteration of `ConnectView` ("associate this consideration with both
parties"): the sender key is skipped for viewpoints. -/
def pkIdxPuts (cn : Consideration) (height i : Int) : List BatchOp :=
  (if cn.IsViewpoint then [] else [BatchOp.putPkIdx (cn.By.getD [], height, i)]) ++
    [BatchOp.putPkIdx (cn.For, height, i)]

/-- The matching deletes of one loop iteration of `DisconnectView`. -/
def pkIdxDels (cn : Consideration) (height i : Int) : List BatchOp :=
  (if cn.IsViewpoint then [] else [BatchOp.delPkIdx (cn.By.getD [], height, i)]) ++
    [BatchOp.delPkIdx (cn.For, height, i)]

/-- The consideration loop of `ConnectView` (`src/unnamed/part_008` lines
141-233): for the `i`-th consideration, fail if its index entry already
exists (read against the store), record the index write, resolve the
viewpoint deferral, apply the result to the imbalance cache (failing on
insufficient imbalance or a blocked ancestry), and record the
public-key index writes. -/
def connectLoop (env : LedgerEnv) (db : LedgerDB) (height : Int) :
    Int → List Consideration → List BatchOp → ImbCache →
    Option (List BatchOp × ImbCache)
  | _, [], batch, cache => some (batch, cache)
  | i, cn :: rest, batch, cache =>
    if (db.considerationIndex (env.idOf cn)).isSome then none
    else
      let batch := batch ++ [BatchOp.putConsIdx (env.idOf cn) (height, i)]
      match resolveApply env db height cn with
      | none => none
      | some cnToApply =>
        let cacheNext : Option ImbCache :=
          match cnToApply with
          | none => some cache
          | some c =>
            match ImbalanceCache.Apply (dbImbRead db) cache c with
            | (false, _) => none
            | (true, cacheAfter) =>
              if env.ancestryBlocked c then none else some cacheAfter
        match cacheNext with
        | none => none
        | some cacheAfter =>
          connectLoop env db height (i + 1) rest
            (batch ++ pkIdxPuts cn height i) cacheAfter

/-- The reverse consideration loop of `DisconnectView`
(`src/unnamed/part_008` lines 317-382): the caller passes the
considerations reversed with `i` counting down from `len - 1`. -/
def disconnectLoop (env : LedgerEnv) (db : LedgerDB) (height : Int) :
    Int → List Consideration → List BatchOp → ImbCache →
    Option (List BatchOp × ImbCache)
  | _, [], batch, cache => some (batch, cache)
  | i, cn :: rest, batch, cache =>
    let batch := batch ++ [BatchOp.delConsIdx (env.idOf cn)]
    match resolveApply env db height cn with
    | none => none
    | some cnToUndo =>
      let cacheNext : Option ImbCache :=
        match cnToUndo with
        | none => some cache
        | some c => ImbalanceCache.Undo (dbImbRead db) cache c
      match cacheNext with
      | none => none
      | some cacheAfter =>
        disconnectLoop env db height (i - 1) rest
          (batch ++ pkIdxDels cn height i) cacheAfter

/-- "update recorded imbalances": flush the cache entries to the
imbalance table, deleting entries that reach zero. -/
def flushOps (cache : ImbCache) : List BatchOp :=
  cache.map fun e => if e.2 = 0 then BatchOp.delImb e.1 else BatchOp.putImb e.1 e.2

/-- The per-consideration deletes of `pruneIndices` over the pruned
view's considerations (indexed from 0, keys at that view's height). -/
def pruneList (env : LedgerEnv) (height : Int) :
    Int → List Consideration → List BatchOp
  | _, [] => []
  | i, cn :: rest =>
    [BatchOp.delConsIdx (env.idOf cn)] ++ pkIdxDels cn height i ++
      pruneList env height (i + 1) rest

/-- The per-consideration writes of `restoreIndices`. -/
def restoreList (env : LedgerEnv) (height : Int) :
    Int → List Consideration → List BatchOp
  | _, [] => []
  | i, cn :: rest =>
    [BatchOp.putConsIdx (env.idOf cn) (height, i)] ++ pkIdxPuts cn height i ++
      restoreList env height (i + 1) rest

/-- `pruneIndices` from `src/unnamed/part_008` lines 444-492: resolve the
view at the pruned height through the store and delete its
consideration and public-key indices. -/
def pruneOps (env : LedgerEnv) (db : LedgerDB) (pruneHeight : Int) :
    Option (List BatchOp) :=
  match db.viewHeightIndex pruneHeight with
  | none => none
  | some pid =>
    match env.getView pid with
    | none => none
    | some w => some (pruneList env w.Header.Height 0 w.Considerations)

/-- `restoreIndices` from `src/unnamed/part_008` lines 495-547. -/
def restoreOps (env : LedgerEnv) (db : LedgerDB) (pruneHeight : Int) :
    Option (List BatchOp) :=
  match db.viewHeightIndex pruneHeight with
  | none => none
  | some pid =>
    match env.getView pid with
    | none => none
    | some w => some (restoreList env w.Header.Height 0 w.Considerations)

/-- `LedgerDisk.ConnectView` from `src/unnamed/part_008` lines 124-292:
tip precondition, consideration loop, imbalance flush, height index,
branch type `MAIN`, new tip, optional pruning, atomic commit. -/
def ConnectView (env : LedgerEnv) (db : LedgerDB) (id : ViewID)
    (view : View) : Option LedgerDB :=
  let tipOK :=
    match db.pointTip with
    | none => true
    | some (tid, _) => tid = view.Header.Previous
  if tipOK = false then none
  else
    match connectLoop env db view.Header.Height 0 view.Considerations [] [] with
    | none => none
    | some (batch, cache) =>
      let batch := batch ++ flushOps cache
      let batch := batch ++
        [BatchOp.putHeightIdx view.Header.Height id,
         BatchOp.putBranch id BranchType.MAIN,
         BatchOp.putTip id view.Header.Height]
      if env.prune ∧ view.Header.Height ≥ 2 * VIEWS_UNTIL_NEW_SERIES then
        match pruneOps env db (view.Header.Height - 2 * VIEWS_UNTIL_NEW_SERIES) with
        | none => none
        | some ops => some (applyBatch db (batch ++ ops))
      else some (applyBatch db batch)

/-- `LedgerDisk.DisconnectView` from `src/unnamed/part_008` lines
295-441: tip precondition, reverse consideration loop with `Undo`,
imbalance flush, height index delete, branch type `SIDE`, tip moved to
the parent, optional index restore, atomic commit. -/
def DisconnectView (env : LedgerEnv) (db : LedgerDB) (id : ViewID)
    (view : View) : Option LedgerDB :=
  match db.pointTip with
  | none => none
  | some (tid, _) =>
    if tid ≠ id then none
    else
      match disconnectLoop env db view.Header.Height
          ((view.Considerations.length : Int) - 1) view.Considerations.reverse
          [] [] with
      | none => none
      | some (batch, cache) =>
        let batch := batch ++ flushOps cache
        let batch := batch ++
          [BatchOp.delHeightIdx view.Header.Height,
           BatchOp.putBranch id BranchType.SIDE,
           BatchOp.putTip view.Header.Previous (view.Header.Height - 1)]
        if env.prune ∧ view.Header.Height ≥ 2 * VIEWS_UNTIL_NEW_SERIES then
          match restoreOps env db (view.Header.Height - 2 * VIEWS_UNTIL_NEW_SERIES) with
          | none => none
          | some ops => some (applyBatch db (batch ++ ops))
        else some (applyBatch db batch)

/-! ### Proof infrastructure for the ledger model

Everything in this subsection is specification/proof machinery (not a
translation of source code): per-key-group "effect" evaluators for batch
op lists, the op lists produced by the loops, the resolved apply list,
and delta bookkeeping for the imbalance cache. -/

/-- Effect of one batch entry on the consideration-index key `k`:
`some v` written, `some none` deleted, `none` untouched. -/
def consEffect (op : BatchOp) (k : ConsiderationID) : Option (Option (Int × Int)) :=
  match op with
  | .putConsIdx k₀ v => if k = k₀ then some (some v) else none
  | .delConsIdx k₀ => if k = k₀ then some none else none
  | _ => none

/-- Effect of one batch entry on the public-key consideration-index key
`k`. -/
def pkEffect (op : BatchOp) (k : PubKey × Int × Int) : Option (Option Unit) :=
  match op with
  | .putPkIdx k₀ => if k = k₀ then some (some ()) else none
  | .delPkIdx k₀ => if k = k₀ then some none else none
  | _ => none

/-- Effect of one batch entry on the imbalance-table key `pk`. -/
def imbEffect (op : BatchOp) (pk : PubKey) : Option (Option Int) :=
  match op with
  | .putImb pk₀ v => if pk = pk₀ then some (some v) else none
  | .delImb pk₀ => if pk = pk₀ then some none else none
  | _ => none

/-- Effect of one batch entry on the height-index key `h`. -/
def heightEffect (op : BatchOp) (h : Int) : Option (Option ViewID) :=
  match op with
  | .putHeightIdx h₀ id => if h = h₀ then some (some id) else none
  | .delHeightIdx h₀ => if h = h₀ then some none else none
  | _ => none

/-- Effect of one batch entry on the branch-type key `id`. -/
def branchEffect (op : BatchOp) (id : ViewID) : Option (Option BranchType) :=
  match op with
  | .putBranch id₀ b => if id = id₀ then some (some b) else none
  | _ => none

/-- Effect of one batch entry on the point tip. -/
def tipEffect (op : BatchOp) : Option (Option (ViewID × Int)) :=
  match op with
  | .putTip id h => some (some (id, h))
  | _ => none

/-- The effect of the LAST entry of `ops` that touches the key probed by
`f` (later entries override earlier ones, as in a replayed batch). -/
def lastEffect {α : Type} (f : BatchOp → Option α) (ops : List BatchOp) : Option α :=
  ops.foldl (fun acc op => (f op).or acc) none

/-- The batch entries emitted by the `ConnectView` loop for `cns`
starting at index `i` (one `putConsIdx` and the public-key puts per
consideration). -/
def connectOps (env : LedgerEnv) (height : Int) :
    Int → List Consideration → List BatchOp
  | _, [] => []
  | i, cn :: rest =>
    [BatchOp.putConsIdx (env.idOf cn) (height, i)] ++ pkIdxPuts cn height i ++
      connectOps env height (i + 1) rest

/-- The batch entries emitted by the `DisconnectView` loop (over the
reversed considerations, index counting down). -/
def disconnectOps (env : LedgerEnv) (height : Int) :
    Int → List Consideration → List BatchOp
  | _, [] => []
  | i, cn :: rest =>
    [BatchOp.delConsIdx (env.idOf cn)] ++ pkIdxDels cn height i ++
      disconnectOps env height (i - 1) rest

/-- The considerations actually applied to the imbalance cache, in
order: each consideration resolved through the viewpoint-maturity
deferral, skipped entries dropped; `none` if a deferral lookup fails. -/
def resolveList (env : LedgerEnv) (db : LedgerDB) (height : Int) :
    List Consideration → Option (List Consideration)
  | [] => some []
  | cn :: rest =>
    match resolveApply env db height cn with
    | none => none
    | some none => resolveList env db height rest
    | some (some c) => (resolveList env db height rest).map (fun l => c :: l)

/-- Fold `ImbalanceCache.Apply` over a list, failing on the first
insufficient-imbalance rejection. -/
def applyAll (read : PubKey → Int) : ImbCache → List Consideration → Option ImbCache
  | cache, [] => some cache
  | cache, c :: rest =>
    match ImbalanceCache.Apply read cache c with
    | (false, _) => none
    | (true, cacheAfter) => applyAll read cacheAfter rest

/-- Fold `ImbalanceCache.Undo` over a list, failing (panicking) when a
recipient imbalance would go negative. -/
def undoAll (read : PubKey → Int) : ImbCache → List Consideration → Option ImbCache
  | cache, [] => some cache
  | cache, c :: rest =>
    match ImbalanceCache.Undo read cache c with
    | none => none
    | some cacheAfter => undoAll read cacheAfter rest

/-- Whether consideration `c` touches the imbalance of `pk` (as sender
or recipient). -/
def touches (c : Consideration) (pk : PubKey) : Bool :=
  c.For = pk || c.By = some pk

/-- Whether any consideration in `L` touches `pk`. -/
def touchedIn (L : List Consideration) (pk : PubKey) : Bool :=
  L.any (fun c => touches c pk)

/-- Net imbalance delta of the list `L` on `pk`: +1 per receipt, -1 per
send. -/
def deltaOf (L : List Consideration) (pk : PubKey) : Int :=
  (L.map (fun c =>
    (if c.For = pk then (1 : Int) else 0) - (if c.By = some pk then 1 else 0))).sum

/-- The abstract cache content after applying `L` on top of deltas `D`:
`D pk = some d` means the cache binds `pk` to `read pk + d`. -/
def extendD (D : PubKey → Option Int) (L : List Consideration) (pk : PubKey) :
    Option Int :=
  if touchedIn L pk then some ((D pk).getD 0 + deltaOf L pk) else D pk

/-- The abstract cache content after undoing `L` on top of deltas `D`. -/
def shrinkD (D : PubKey → Option Int) (L : List Consideration) (pk : PubKey) :
    Option Int :=
  if touchedIn L pk then some ((D pk).getD 0 - deltaOf L pk) else D pk

/-- Sum of all recorded imbalances (`LedgerDisk.Imbalance`). -/
def ImbSum (db : LedgerDB) : Int :=
  (db.pubKeyImbalance.map Prod.snd).sum

/-- The view shape that `checkView` guarantees before a view ever
reaches the ledger: at least one consideration, the first a viewpoint,
the rest not. -/
def viewWF (v : View) : Prop :=
  ∃ vp rest, v.Considerations = vp :: rest ∧ vp.IsViewpoint = true ∧
    ∀ c ∈ rest, c.IsViewpoint = false

/-- The view-store well-formedness the processor maintains: the
consideration at index 0 of every stored view is its viewpoint. -/
def envStoreWF (env : LedgerEnv) : Prop :=
  ∀ vid cn, env.getCons vid 0 = some cn → cn.IsViewpoint = true

/-- Ledger states reached by connecting views from genesis along the
MAIN chain, including states reached after disconnections during
reorgs.  The side conditions are the facts the processor establishes
before calling the ledger: views are `checkView`-shaped, a connected
view sits at `tipHeight + 1` (`acceptView`; height 0 for the genesis
connect), and a disconnected view is the stored tip view. -/
inductive ReachableDB (env : LedgerEnv) : LedgerDB → Prop where
  | init : ReachableDB env emptyDB
  | connect {db db' : LedgerDB} {id : ViewID} {view : View} :
      ReachableDB env db → viewWF view →
      (match db.pointTip with
       | none => view.Header.Height = 0
       | some (_, th) => view.Header.Height = th + 1) →
      ConnectView env db id view = some db' → ReachableDB env db'
  | disconnect {db db' : LedgerDB} {id : ViewID} {view : View} :
      ReachableDB env db → viewWF view →
      (∃ th, db.pointTip = some (id, th) ∧ view.Header.Height = th) →
      DisconnectView env db id view = some db' → ReachableDB env db'

/-- The consistency a roundtrip needs of the pruning horizon when
pruning is active: the height index resolves the pruned height to a
stored view at that height whose consideration and public-key index
entries are present with exactly the values `restoreIndices` would
write. -/
def pruneRoundtripSafe (env : LedgerEnv) (db : LedgerDB) (height : Int) : Prop :=
  ∃ pid w, db.viewHeightIndex (height - 2 * VIEWS_UNTIL_NEW_SERIES) = some pid ∧
    env.getView pid = some w ∧
    w.Header.Height = height - 2 * VIEWS_UNTIL_NEW_SERIES ∧
    (∀ k e, lastEffect (fun op => consEffect op k)
        (restoreList env w.Header.Height 0 w.Considerations) = some e →
      db.considerationIndex k = e) ∧
    (∀ k e, lastEffect (fun op => pkEffect op k)
        (restoreList env w.Header.Height 0 w.Considerations) = some e →
      db.pubKeyConsiderationIndex k = e)

/-- Whether the ascending-index enumeration of `cns` starting at `i`
(as in `ConnectView`, `pruneIndices` and `restoreIndices`) generates the
public-key consideration-index key `k`. -/
def pkHit (h : Int) : Int → List Consideration → PubKey × Int × Int → Bool
  | _, [], _ => false
  | i, cn :: rest, k =>
    decide (k = (cn.For, h, i)) ||
      (!cn.IsViewpoint && decide (k = (cn.By.getD [], h, i))) ||
      pkHit h (i + 1) rest k

/-- Same with descending indices (as in `DisconnectView`). -/
def pkHitDesc (h : Int) : Int → List Consideration → PubKey × Int × Int → Bool
  | _, [], _ => false
  | i, cn :: rest, k =>
    decide (k = (cn.For, h, i)) ||
      (!cn.IsViewpoint && decide (k = (cn.By.getD [], h, i))) ||
      pkHitDesc h (i - 1) rest k

/-- Whether some consideration in `cns` has id `k`. -/
def idHit (idOf : Consideration → ConsiderationID) (cns : List Consideration)
    (k : ConsiderationID) : Bool :=
  cns.any fun cn => decide (k = idOf cn)

/-! ### Concrete inputs for the connect/disconnect roundtrip -/

/-- A ledger context with no pruning and an empty store behind it. -/
def c1env : LedgerEnv :=
  { idOf := fun _ => [], getCons := fun _ _ => none, getView := fun _ => none,
    ancestryBlocked := fun _ => false, prune := false }

def c1id : ViewID := [1]

/-- A considerationless view at height 0 on parent `[5]`. -/
def c1view : View :=
  { Header := { Previous := [5], HashListRoot := [], Time := 0, Target := [],
                PointWork := [], Nonce := 0, Height := 0,
                ConsiderationCount := 0 },
    Considerations := [] }

/-- A store whose tip id is `[5]` at height `-1` (the parent of a height-0
view). -/
def c1db0 : LedgerDB := { emptyDB with pointTip := some ([5], -1) }

def c1db1 : LedgerDB := (ConnectView c1env c1db0 c1id c1view).getD emptyDB

def c1db2 : LedgerDB := (DisconnectView c1env c1db1 c1id c1view).getD emptyDB

/-- The same view placed at height 1, against a store whose tip record is
`([5], 7)`: the stored tip id matches the view's parent (all
`ConnectView` checks), but the stored tip height is unrelated to the
view's height. -/
def c1xview : View :=
  { Header := { Previous := [5], HashListRoot := [], Time := 0, Target := [],
                PointWork := [], Nonce := 0, Height := 1,
                ConsiderationCount := 0 },
    Considerations := [] }

def c1xdb0 : LedgerDB := { emptyDB with pointTip := some ([5], 7) }

def c1xdb1 : LedgerDB := (ConnectView c1env c1xdb0 c1id c1xview).getD emptyDB

def c1xdb2 : LedgerDB := (DisconnectView c1env c1xdb1 c1id c1xview).getD emptyDB

/-- The imbalance table after replaying the flush writes of a cache
(`batch.Delete` for a zero imbalance, `batch.Put` otherwise), entry by
entry. -/
def flushTable (cache : ImbCache) (l : List (PubKey × Int)) : List (PubKey × Int) :=
  cache.foldl (fun t e => if e.2 = 0 then alErase t e.1 else alSet t e.1 e.2) l

/-- Net imbalance created by a resolved consideration list: viewpoints
(nil `by`) mint one point each, everything else conserves the sum. -/
def netVP (L : List Consideration) : Int :=
  (L.map (fun c => if c.By = none then (1 : Int) else 0)).sum

/-- A single viewpoint consideration for the imbalance-sum witness. -/
def c7cn : Consideration :=
  { Time := 0, Nonce := 0, By := none, For := [7], Memo := "", Matures := 0,
    Expires := 0, Series := 1, Signature := [] }

/-- The genesis-shaped view for the imbalance-sum witness: exactly one
viewpoint at height 0. -/
def c7view : View :=
  { Header := { Previous := [], HashListRoot := [], Time := 0, Target := [],
                PointWork := [], Nonce := 0, Height := 0,
                ConsiderationCount := 1 },
    Considerations := [c7cn] }

def c7env : LedgerEnv :=
  { idOf := fun _ => [], getCons := fun _ _ => none, getView := fun _ => none,
    ancestryBlocked := fun _ => false, prune := false }

def c7db1 : LedgerDB := (ConnectView c7env emptyDB [1] c7view).getD emptyDB

/-! ## Incremental header hasher (`src/view_header_hasher.go`)

Bytes are `Nat` ASCII codes.  `hex.Encode` is `hexEncode`,
`strconv.AppendInt(_, v, 10)` renders `decRender v`, and the
JSON serialization `json.Marshal(header)` — struct fields in declaration
order, `ViewID`/`ConsiderationID` rendered by their `MarshalJSON` as
quoted lowercase hex — is `marshal`.  Buffer writes at an offset
(`copy`, `hex.Encode` into a sub-slice, and `strconv.AppendInt` on
`h.buffer[:bufLen]`, which under the allocated capacity writes in place)
are `writeAt`.  Offsets and lengths are `Nat`; the running shift
`offset`, which can be negative, is `Int` exactly as in Go.  The model
assumes every write lands inside the allocated buffer, which Go
guarantees only for field values in their checked ranges
(`headerOK`). -/

def strBytes (s : String) : List Nat := s.toList.map Char.toNat

def hexDigit (n : Nat) : Nat := if n < 10 then 48 + n else 87 + n

/-- `hex.Encode`: two lowercase hex digits per byte. -/
def hexEncode (bs : List Nat) : List Nat :=
  bs.flatMap fun b => [hexDigit (b / 16), hexDigit (b % 16)]

/-- Decimal digits of a natural number, ASCII. -/
def natDec (n : Nat) : List Nat :=
  if h : n < 10 then [48 + n]
  else natDec (n / 10) ++ [48 + n % 10]
decreasing_by exact Nat.div_lt_self (by omega) (by omega)

/-- `strconv.AppendInt(_, v, 10)`. -/
def decRender (v : Int) : List Nat :=
  if v < 0 then 45 :: natDec v.natAbs else natDec v.toNat

def hdrPrevious : List Nat := strBytes "\x7b\"previous\":\""
def hdrHashListRoot : List Nat := strBytes "\",\"hash_list_root\":\""
def hdrTime : List Nat := strBytes "\",\"time\":"
def hdrTarget : List Nat := strBytes ",\"target\":\""
def hdrPointWork : List Nat := strBytes "\",\"point_work\":\""
def hdrNonce : List Nat := strBytes "\",\"nonce\":"
def hdrHeight : List Nat := strBytes ",\"height\":"
def hdrConsiderationCount : List Nat := strBytes ",\"consideration_count\":"
def hdrEnd : List Nat := strBytes "\x7d"

/-- `json.Marshal(header)` for a `ViewHeader` (`ViewHeader.ID`,
`src/view.go` lines 165-172): fields in declaration order, ids as quoted
hex. -/
def marshal (hdr : ViewHeader) : List Nat :=
  hdrPrevious ++ hexEncode hdr.Previous ++
  hdrHashListRoot ++ hexEncode hdr.HashListRoot ++
  hdrTime ++ decRender hdr.Time ++
  hdrTarget ++ hexEncode hdr.Target ++
  hdrPointWork ++ hexEncode hdr.PointWork ++
  hdrNonce ++ decRender hdr.Nonce ++
  hdrHeight ++ decRender hdr.Height ++
  hdrConsiderationCount ++ decRender hdr.ConsiderationCount ++
  hdrEnd

/-- `ViewHeader.ID` read as a big integer (`sha3.Sum256(json.Marshal(..))`,
then `GetBigInt` for comparisons); `H` is the SHA3-256 oracle. -/
def ViewHeaderID (H : List Nat → List Nat) (hdr : ViewHeader) : Nat :=
  GetBigInt (H (marshal hdr))

/-- The maximum buffer length computed by `NewViewHeaderHasher`. -/
def BUFCAP : Nat :=
  hdrPrevious.length + hdrHashListRoot.length + hdrTime.length +
    hdrTarget.length + hdrPointWork.length + hdrNonce.length +
    hdrHeight.length + hdrConsiderationCount.length +
    hdrEnd.length + 4 * 64 + 3 * 19 + 10

/-- In-place write of `data` into `buf` at `off`. -/
def writeAt (buf : List Nat) (off : Nat) (data : List Nat) : List Nat :=
  buf.take off ++ data ++ buf.drop (off + data.length)

/-- `ViewHeaderHasher` state (`src/view_header_hasher.go` lines 13-39). -/
structure ViewHeaderHasher where
  previousHashListRoot : ConsiderationID
  previousTime : Int
  previousNonce : Int
  previousConsiderationCount : Int
  hashListRootOffset : Nat
  timeOffset : Nat
  nonceOffset : Nat
  considerationCountOffset : Nat
  timeLen : Nat
  nonceLen : Nat
  cnCountLen : Nat
  initialized : Bool
  bufLen : Nat
  buffer : List Nat
  hashesPerAttempt : Int

/-- `NewViewHeaderHasher`. -/
def NewViewHeaderHasher : ViewHeaderHasher :=
  { previousHashListRoot := [], previousTime := 0, previousNonce := 0,
    previousConsiderationCount := 0, hashListRootOffset := 0, timeOffset := 0,
    nonceOffset := 0, considerationCountOffset := 0, timeLen := 0,
    nonceLen := 0, cnCountLen := 0, initialized := false, bufLen := 0,
    buffer := List.replicate BUFCAP 0, hashesPerAttempt := 1 }

/-- `initBuffer` (lines 78-145): sequential writes at a running
offset. -/
def ViewHeaderHasher.initBuffer (h : ViewHeaderHasher) (hdr : ViewHeader) :
    ViewHeaderHasher :=
  let buffer := writeAt h.buffer 0 hdrPrevious
  let bufLen := hdrPrevious.length
  let buffer := writeAt buffer bufLen (hexEncode hdr.Previous)
  let bufLen := bufLen + (hexEncode hdr.Previous).length
  let buffer := writeAt buffer bufLen hdrHashListRoot
  let bufLen := bufLen + hdrHashListRoot.length
  let hashListRootOffset := bufLen
  let buffer := writeAt buffer bufLen (hexEncode hdr.HashListRoot)
  let bufLen := bufLen + (hexEncode hdr.HashListRoot).length
  let buffer := writeAt buffer bufLen hdrTime
  let bufLen := bufLen + hdrTime.length
  let timeOffset := bufLen
  let buffer := writeAt buffer bufLen (decRender hdr.Time)
  let timeLen := (decRender hdr.Time).length
  let bufLen := bufLen + timeLen
  let buffer := writeAt buffer bufLen hdrTarget
  let bufLen := bufLen + hdrTarget.length
  let buffer := writeAt buffer bufLen (hexEncode hdr.Target)
  let bufLen := bufLen + (hexEncode hdr.Target).length
  let buffer := writeAt buffer bufLen hdrPointWork
  let bufLen := bufLen + hdrPointWork.length
  let buffer := writeAt buffer bufLen (hexEncode hdr.PointWork)
  let bufLen := bufLen + (hexEncode hdr.PointWork).length
  let buffer := writeAt buffer bufLen hdrNonce
  let bufLen := bufLen + hdrNonce.length
  let nonceOffset := bufLen
  let buffer := writeAt buffer bufLen (decRender hdr.Nonce)
  let nonceLen := (decRender hdr.Nonce).length
  let bufLen := bufLen + nonceLen
  let buffer := writeAt buffer bufLen hdrHeight
  let bufLen := bufLen + hdrHeight.length
  let buffer := writeAt buffer bufLen (decRender hdr.Height)
  let bufLen := bufLen + (decRender hdr.Height).length
  let buffer := writeAt buffer bufLen hdrConsiderationCount
  let bufLen := bufLen + hdrConsiderationCount.length
  let considerationCountOffset := bufLen
  let buffer := writeAt buffer bufLen (decRender hdr.ConsiderationCount)
  let cnCountLen := (decRender hdr.ConsiderationCount).length
  let bufLen := bufLen + cnCountLen
  let buffer := writeAt buffer bufLen hdrEnd
  let bufLen := bufLen + hdrEnd.length
  { h with
    previousHashListRoot := hdr.HashListRoot, previousTime := hdr.Time,
    previousNonce := hdr.Nonce,
    previousConsiderationCount := hdr.ConsiderationCount,
    hashListRootOffset := hashListRootOffset, timeOffset := timeOffset,
    nonceOffset := nonceOffset,
    considerationCountOffset := considerationCountOffset,
    timeLen := timeLen, nonceLen := nonceLen, cnCountLen := cnCountLen,
    initialized := true, bufLen := bufLen, buffer := buffer }

/-- The `hash_list_root` step of `Update` (lines 156-162). -/
def updHLR (h : ViewHeaderHasher) (hdr : ViewHeader) : ViewHeaderHasher :=
  if h.previousHashListRoot ≠ hdr.HashListRoot then
    { h with previousHashListRoot := hdr.HashListRoot,
             buffer := writeAt h.buffer h.hashListRootOffset
               (hexEncode hdr.HashListRoot) }
  else h

/-- The `time` step of `Update` (lines 166-199); returns the running
`offset`. -/
def updTime (h : ViewHeaderHasher) (hdr : ViewHeader) : ViewHeaderHasher × Int :=
  if h.previousTime ≠ hdr.Time then
    let bufLen := h.timeOffset
    let buffer := writeAt h.buffer bufLen (decRender hdr.Time)
    let timeLen := (decRender hdr.Time).length
    let bufLen := bufLen + timeLen
    let offset : Int := (timeLen : Int) - (h.timeLen : Int)
    if offset ≠ 0 then
      let buffer := writeAt buffer bufLen hdrTarget
      let bufLen := bufLen + hdrTarget.length
      let buffer := writeAt buffer bufLen (hexEncode hdr.Target)
      let bufLen := bufLen + (hexEncode hdr.Target).length
      let buffer := writeAt buffer bufLen hdrPointWork
      let bufLen := bufLen + hdrPointWork.length
      let buffer := writeAt buffer bufLen (hexEncode hdr.PointWork)
      let bufLen := bufLen + (hexEncode hdr.PointWork).length
      let buffer := writeAt buffer bufLen hdrNonce
      ({ h with previousTime := hdr.Time, timeLen := timeLen,
                buffer := buffer }, offset)
    else
      ({ h with previousTime := hdr.Time, timeLen := timeLen,
                buffer := buffer }, offset)
  else (h, 0)

/-- The `nonce` step of `Update` (lines 202-226); `deviceRendering` is
the constant `false` of line 149. -/
def updNonce (h : ViewHeaderHasher) (hdr : ViewHeader) (offset : Int) :
    ViewHeaderHasher × Int :=
  if offset ≠ 0 ∨ h.previousNonce ≠ hdr.Nonce then
    let nonceOffset := ((h.nonceOffset : Int) + offset).toNat
    let bufLen := nonceOffset
    let buffer := writeAt h.buffer bufLen (decRender hdr.Nonce)
    let nonceLen := (decRender hdr.Nonce).length
    let offset := offset + ((nonceLen : Int) - (h.nonceLen : Int))
    if offset ≠ 0 then
      let bufLen := bufLen + nonceLen
      let buffer := writeAt buffer bufLen hdrHeight
      let bufLen := bufLen + hdrHeight.length
      let buffer := writeAt buffer bufLen (decRender hdr.Height)
      let bufLen := bufLen + (decRender hdr.Height).length
      let buffer := writeAt buffer bufLen hdrConsiderationCount
      ({ h with previousNonce := hdr.Nonce, nonceOffset := nonceOffset,
                nonceLen := nonceLen, buffer := buffer }, offset)
    else
      ({ h with previousNonce := hdr.Nonce, nonceOffset := nonceOffset,
                nonceLen := nonceLen, buffer := buffer }, offset)
  else (h, offset)

/-- The `consideration_count` step of `Update` (lines 229-247). -/
def updCC (h : ViewHeaderHasher) (hdr : ViewHeader) (offset : Int) :
    ViewHeaderHasher × Int :=
  if offset ≠ 0 ∨ h.previousConsiderationCount ≠ hdr.ConsiderationCount then
    let considerationCountOffset :=
      ((h.considerationCountOffset : Int) + offset).toNat
    let bufLen := considerationCountOffset
    let buffer := writeAt h.buffer bufLen (decRender hdr.ConsiderationCount)
    let cnCountLen := (decRender hdr.ConsiderationCount).length
    let offset := offset + ((cnCountLen : Int) - (h.cnCountLen : Int))
    if offset ≠ 0 then
      let bufLen := bufLen + cnCountLen
      let buffer := writeAt buffer bufLen hdrEnd
      ({ h with previousConsiderationCount := hdr.ConsiderationCount,
                considerationCountOffset := considerationCountOffset,
                cnCountLen := cnCountLen, buffer := buffer }, offset)
    else
      ({ h with previousConsiderationCount := hdr.ConsiderationCount,
                considerationCountOffset := considerationCountOffset,
                cnCountLen := cnCountLen, buffer := buffer }, offset)
  else (h, offset)

/-- `ViewHeaderHasher.Update` (lines 148-282): returns the new state,
the hash of the live buffer read as a big integer
(`h.result.SetBytes(h.resultBuf[:])`), and `hashesPerAttempt`. -/
def ViewHeaderHasher.Update (H : List Nat → List Nat) (h : ViewHeaderHasher)
    (hdr : ViewHeader) : ViewHeaderHasher × Nat × Int :=
  let h :=
    if h.initialized = false then h.initBuffer hdr
    else
      let h1 := updHLR h hdr
      let (h2, off1) := updTime h1 hdr
      let (h3, off2) := updNonce h2 hdr off1
      let (h4, off3) := updCC h3 hdr off2
      { h4 with bufLen := ((h4.bufLen : Int) + off3).toNat }
  (h, GetBigInt (H (h.buffer.take h.bufLen)), h.hashesPerAttempt)

/-- Fold `Update` over a mutation sequence, collecting the returned
(id, hashesPerAttempt) pairs. -/
def runUpdates (H : List Nat → List Nat) :
    ViewHeaderHasher → List ViewHeader → List (Nat × Int)
  | _, [] => []
  | h, hdr :: rest =>
    let r := ViewHeaderHasher.Update H h hdr
    (r.2.1, r.2.2) :: runUpdates H r.1 rest

/-- The field ranges under which the Go buffer capacity (and the
in-place behaviour of `append` on `h.buffer[:bufLen]`) is guaranteed:
32-byte ids, the numeric consensus ranges enforced by `checkView`. -/
def headerOK (hdr : ViewHeader) : Prop :=
  hdr.Previous.length = 32 ∧ hdr.HashListRoot.length = 32 ∧
  hdr.Target.length = 32 ∧ hdr.PointWork.length = 32 ∧
  0 ≤ hdr.Time ∧ hdr.Time ≤ MAX_NUMBER ∧
  0 ≤ hdr.Nonce ∧ hdr.Nonce ≤ MAX_NUMBER ∧
  0 ≤ hdr.Height ∧ hdr.Height ≤ MAX_NUMBER ∧
  0 ≤ hdr.ConsiderationCount ∧ hdr.ConsiderationCount ≤ 2 ^ 31 - 1

/-- A mutation step touches only `hash_list_root`, `time`, `nonce` and
`consideration_count`. -/
def immutableOK (a b : ViewHeader) : Prop :=
  b.Previous = a.Previous ∧ b.Target = a.Target ∧
  b.PointWork = a.PointWork ∧ b.Height = a.Height

/-- A whole mutation sequence of such steps. -/
def chainImm : ViewHeader → List ViewHeader → Prop
  | _, [] => True
  | a, b :: rest => immutableOK a b ∧ chainImm b rest

/-- The serialized segment before the time digits (through the
`","time":` literal). -/
def preTime (hdr : ViewHeader) : List Nat :=
  hdrPrevious ++ hexEncode hdr.Previous ++ hdrHashListRoot ++
    hexEncode hdr.HashListRoot ++ hdrTime

/-- The serialized segment between the time and nonce digits. -/
def midSeg (hdr : ViewHeader) : List Nat :=
  hdrTarget ++ hexEncode hdr.Target ++ hdrPointWork ++
    hexEncode hdr.PointWork ++ hdrNonce

/-- The serialized segment between the nonce and count digits. -/
def tailSeg (hdr : ViewHeader) : List Nat :=
  hdrHeight ++ decRender hdr.Height ++ hdrConsiderationCount

/-- The hasher state is synchronized with `hdr`: tracked fields, offsets
and lengths match, and the live buffer prefix is exactly the JSON
serialization. -/
def goodState (h : ViewHeaderHasher) (hdr : ViewHeader) : Prop :=
  h.initialized = true ∧
  h.previousHashListRoot = hdr.HashListRoot ∧
  h.previousTime = hdr.Time ∧
  h.previousNonce = hdr.Nonce ∧
  h.previousConsiderationCount = hdr.ConsiderationCount ∧
  h.hashListRootOffset =
    hdrPrevious.length + (hexEncode hdr.Previous).length +
      hdrHashListRoot.length ∧
  h.timeOffset = h.hashListRootOffset + (hexEncode hdr.HashListRoot).length +
    hdrTime.length ∧
  h.timeLen = (decRender hdr.Time).length ∧
  h.nonceOffset = h.timeOffset + h.timeLen + hdrTarget.length +
    (hexEncode hdr.Target).length + hdrPointWork.length +
    (hexEncode hdr.PointWork).length + hdrNonce.length ∧
  h.nonceLen = (decRender hdr.Nonce).length ∧
  h.considerationCountOffset = h.nonceOffset + h.nonceLen +
    hdrHeight.length + (decRender hdr.Height).length +
    hdrConsiderationCount.length ∧
  h.cnCountLen = (decRender hdr.ConsiderationCount).length ∧
  h.bufLen = (marshal hdr).length ∧
  (∃ junk, h.buffer = marshal hdr ++ junk) ∧
  h.hashesPerAttempt = 1

/-! ## Difficulty retarget (`src/unnamed/part_001` lines 630-740)

`viewStore` stands for `ViewStorage.GetViewHeader` restricted to the
header component (the store timestamp is unused by the retarget walk).
All big-integer arithmetic is on natural numbers: every operand is
non-negative (`actualTimespan` is clamped to at least `RETARGET_TIME/4`
before it is used). -/

/-- Minimal big-endian byte representation of a natural number
(`big.Int.Bytes`): empty for zero. -/
def natBytes (n : Nat) : List Nat :=
  if h : n = 0 then []
  else natBytes (n / 256) ++ [n % 256]
decreasing_by exact Nat.div_lt_self (Nat.pos_of_ne_zero h) (by omega)

/-- `ViewID.SetBigInt` from `src/view.go`: write a big integer into a
32-byte id, big-endian, left-padded with zeros. -/
def SetBigInt (n : Nat) : ViewID :=
  List.replicate (32 - (natBytes n).length) 0 ++ natBytes n

/-- The bytes of `INITIAL_TARGET =
"00000000ffff0000000000000000000000000000000000000000000000000000"`
(`src/constants.go`), hex-decoded. -/
def initialTargetBytes : List Nat :=
  [0, 0, 0, 0, 255, 255] ++ List.replicate 26 0

/-- The walk `for i := 0; i < viewsToGoBack; i++ { firstHeader =
GetViewHeader(firstHeader.Previous) }` from `computeTargetBitcoin`:
follow `Previous` links `n` times, failing if a header is missing. -/
def walkBack (viewStore : ViewID → Option ViewHeader) :
    ViewHeader → Nat → Option ViewHeader
  | header, 0 => some header
  | header, n + 1 =>
    match viewStore header.Previous with
    | none => none
    | some prev => walkBack viewStore prev n

/-- `computeTargetBitcoin` from `src/unnamed/part_001` lines 638-693. -/
def computeTargetBitcoin (viewStore : ViewID → Option ViewHeader)
    (prevHeader : ViewHeader) : Option ViewID :=
  if Int.tmod (prevHeader.Height + 1) RETARGET_INTERVAL ≠ 0 then
    -- not 2016th view, use previous view's value
    some prevHeader.Target
  else
    -- defend against time warp attack
    let viewsToGoBack : Nat :=
      if prevHeader.Height + 1 ≠ RETARGET_INTERVAL then 2016 else 2015
    -- walk back to the first view of the interval
    match walkBack viewStore prevHeader viewsToGoBack with
    | none => none
    | some firstHeader =>
      let actualTimespan := prevHeader.Time - firstHeader.Time
      let minTimespan := Int.tdiv RETARGET_TIME 4
      let maxTimespan := RETARGET_TIME * 4
      let actualTimespan :=
        if actualTimespan < minTimespan then minTimespan else actualTimespan
      let actualTimespan :=
        if actualTimespan > maxTimespan then maxTimespan else actualTimespan
      let maxTargetInt := GetBigInt initialTargetBytes
      let prevTargetInt := GetBigInt prevHeader.Target
      let newTargetInt := prevTargetInt * actualTimespan.toNat / RETARGET_TIME.toNat
      some (if newTargetInt > maxTargetInt then SetBigInt maxTargetInt
            else SetBigInt newTargetInt)

/-- `computeTarget` from `src/unnamed/part_001` lines 630-635: headers at
or above `BITCOIN_CASH_RETARGET_ALGORITHM_HEIGHT` use
`computeTargetBitcoinCash` (not exercised by any claim, abstracted as the
parameter `bitcoinCashArm`); all lower heights use the legacy
`computeTargetBitcoin`. -/
def computeTarget (bitcoinCashArm : ViewHeader → Option ViewID)
    (viewStore : ViewID → Option ViewHeader) (prevHeader : ViewHeader) :
    Option ViewID :=
  if prevHeader.Height ≥ BITCOIN_CASH_RETARGET_ALGORITHM_HEIGHT then
    bitcoinCashArm prevHeader
  else computeTargetBitcoin viewStore prevHeader

/-- `padTo44Characters` from `src/utils.go`. -/
def padTo44Characters (input : String) : String :=
  if input.length ≥ 44 then input
  else input ++ String.mk (List.replicate (44 - input.length - 1) '0') ++ "="

/-! ## Concrete inputs used by counterexamples and witnesses -/

/-- A fixed non-viewpoint consideration with `Matures = 10`, used as the
failing input of C2. -/
def cnMaturesTen : Consideration :=
  { Time := 0, Nonce := 0, By := some (List.replicate 32 1),
    For := List.replicate 32 2, Memo := "", Matures := 10, Expires := 0,
    Series := 1, Signature := List.replicate 64 0 }

/-- The admission window exactly as claim C6 words it: `high` computed
from `tipHeight` itself (not from the height of the next view), a
non-viewpoint accepted iff its series lies in `[high-1, high]` with the
lower bound clamped to 1, a viewpoint iff its series equals `high`. -/
def seriesWindowClaimed (tipHeight : Int) (cn : Consideration) : Bool :=
  let high := Int.tdiv tipHeight VIEWS_UNTIL_NEW_SERIES + 1
  if cn.IsViewpoint then cn.Series = high
  else decide (max 1 (high - 1) ≤ cn.Series) && decide (cn.Series ≤ high)

/-- A non-viewpoint consideration with series 2, the C6 counterexample
input. -/
def cnSeriesTwo : Consideration :=
  { Time := 0, Nonce := 0, By := some (List.replicate 32 1),
    For := List.replicate 32 2, Memo := "", Matures := 0, Expires := 0,
    Series := 2, Signature := List.replicate 64 0 }

/-- The constant all-zero digest, an instance of the hash oracle. -/
def hashZero : List Nat → List Nat := fun _ => List.replicate 32 0

/-- The constant all-zero consideration id, an instance of the id oracle. -/
def cnIdZero : Consideration → ConsiderationID := fun _ => List.replicate 32 0

/-- A well-formed lone viewpoint consideration. -/
def viewpointOnly : Consideration :=
  { Time := 0, Nonce := 0, By := none, For := List.replicate 32 2,
    Memo := "", Matures := 0, Expires := 0, Series := 1, Signature := [] }

/-- A view whose header time sits exactly at `now + MAX_FUTURE_SECONDS`
for `now = 0`, with an all-ones target (any id satisfies the
proof-of-work) and the hash-list root matching the `hashZero` oracle. -/
def viewAtTimeLimit : View :=
  { Header :=
      { Previous := List.replicate 32 0, HashListRoot := List.replicate 32 0,
        Time := 7200, Target := List.replicate 32 255,
        PointWork := List.replicate 32 0, Nonce := 0, Height := 0,
        ConsiderationCount := 1 },
    Considerations := [viewpointOnly] }

/-- Witness chain for C4: the MAIN view at height `h` has id `[h]`. -/
def c4id (h : Int) : ViewID := [h.toNat]

/-- Witness chain for C4: the header at height `h` (spaced exactly
`TARGET_SPACING` apart, all at the initial target). -/
def c4hdr (h : Int) : ViewHeader :=
  { Previous := [(h - 1).toNat], HashListRoot := [], Time := 600 * h,
    Target := initialTargetBytes, PointWork := [], Nonce := 0, Height := h,
    ConsiderationCount := 1 }

/-- Witness chain for C4: the header store resolving `[n]` to the header
at height `n`. -/
def c4store : ViewID → Option ViewHeader :=
  fun id =>
    match id with
    | [n] => some (c4hdr n)
    | _ => none

/-- SHA3 oracle for the C3 witness run. -/
def c3H : List Nat → List Nat := fun l => [l.length % 256]

/-- Witness header for C3: 32-byte ids, as in every real header. -/
def c3hdr0 : ViewHeader :=
  { Previous := List.replicate 32 0, HashListRoot := List.replicate 32 1,
    Time := 100, Target := List.replicate 32 2,
    PointWork := List.replicate 32 3, Nonce := 5, Height := 1,
    ConsiderationCount := 1 }

/-- Witness mutation for C3: a rendering step changing `time` and
`nonce` (digit widths shift, exercising the re-render paths). -/
def c3hdr1 : ViewHeader :=
  { c3hdr0 with Time := 1234, Nonce := 987654 }

end Focalpoint

/-! ## Theorems -/

namespace Focalpoint

/-! ### Association-list and batch-effect lemmas -/

theorem alGet_alSet {κ ν : Type} [DecidableEq κ] (l : List (κ × ν)) (k : κ)
    (v : ν) (k' : κ) :
    alGet (alSet l k v) k' = if k = k' then some v else alGet l k' := by
  induction l with
  | nil => simp [alSet, alGet]
  | cons hd tl ih =>
    obtain ⟨k₀, v₀⟩ := hd
    by_cases h0 : k₀ = k
    · subst h0
      simp only [alSet, if_pos rfl, alGet]
      split_ifs <;> simp_all [alGet]
    · simp only [alSet, if_neg h0, alGet]
      rw [ih]
      split_ifs <;> simp_all

theorem alGet_alErase {κ ν : Type} [DecidableEq κ] (l : List (κ × ν)) (k k' : κ) :
    alGet (alErase l k) k' = if k = k' then none else alGet l k' := by
  induction l with
  | nil => simp [alErase, alGet]
  | cons hd tl ih =>
    obtain ⟨k₀, v₀⟩ := hd
    show alGet (if k₀ = k then alErase tl k else (k₀, v₀) :: alErase tl k) k' = _
    have hget : ∀ (rest : List (κ × ν)),
        alGet ((k₀, v₀) :: rest) k' = if k₀ = k' then some v₀ else alGet rest k' :=
      fun rest => rfl
    by_cases h0 : k₀ = k
    · rw [if_pos h0, ih, hget tl]
      split_ifs <;> simp_all
    · rw [if_neg h0, hget (alErase tl k), ih, hget tl]
      split_ifs <;> simp_all

theorem mem_keys_alSet {κ ν : Type} [DecidableEq κ] (l : List (κ × ν))
    (k : κ) (v : ν) (x : κ) (hx : x ∈ (alSet l k v).map Prod.fst) :
    x = k ∨ x ∈ l.map Prod.fst := by
  induction l with
  | nil =>
    left
    simpa [alSet] using hx
  | cons hd tl ih =>
    obtain ⟨k₀, v₀⟩ := hd
    rw [show alSet ((k₀, v₀) :: tl) k v =
      if k₀ = k then (k, v) :: tl else (k₀, v₀) :: alSet tl k v from rfl] at hx
    by_cases h0 : k₀ = k
    · rw [if_pos h0] at hx
      rw [List.map_cons, List.mem_cons] at hx
      rcases hx with hx | hx
      · exact Or.inl hx
      · exact Or.inr (List.mem_cons.mpr (Or.inr hx))
    · rw [if_neg h0] at hx
      rw [List.map_cons, List.mem_cons] at hx
      rcases hx with hx | hx
      · exact Or.inr (List.mem_cons.mpr (Or.inl hx))
      · rcases ih hx with h | h
        · exact Or.inl h
        · exact Or.inr (List.mem_cons.mpr (Or.inr h))

theorem mem_keys_alErase {κ ν : Type} [DecidableEq κ] (l : List (κ × ν))
    (k : κ) (x : κ) (hx : x ∈ (alErase l k).map Prod.fst) :
    x ∈ l.map Prod.fst := by
  induction l with
  | nil => simpa [alErase] using hx
  | cons hd tl ih =>
    obtain ⟨k₀, v₀⟩ := hd
    rw [show alErase ((k₀, v₀) :: tl) k =
      if k₀ = k then alErase tl k else (k₀, v₀) :: alErase tl k from rfl] at hx
    by_cases h0 : k₀ = k
    · rw [if_pos h0] at hx
      exact List.mem_cons.mpr (Or.inr (ih hx))
    · rw [if_neg h0, List.map_cons, List.mem_cons] at hx
      rcases hx with hx | hx
      · exact List.mem_cons.mpr (Or.inl hx)
      · exact List.mem_cons.mpr (Or.inr (ih hx))

theorem nodup_alSet {κ ν : Type} [DecidableEq κ] (l : List (κ × ν)) (k : κ)
    (v : ν) (h : (l.map Prod.fst).Nodup) :
    ((alSet l k v).map Prod.fst).Nodup := by
  induction l with
  | nil => simp [alSet]
  | cons hd tl ih =>
    obtain ⟨k₀, v₀⟩ := hd
    rw [List.map_cons, List.nodup_cons] at h
    rw [show alSet ((k₀, v₀) :: tl) k v =
      if k₀ = k then (k, v) :: tl else (k₀, v₀) :: alSet tl k v from rfl]
    by_cases h0 : k₀ = k
    · rw [if_pos h0, List.map_cons, List.nodup_cons]
      exact ⟨h0 ▸ h.1, h.2⟩
    · rw [if_neg h0, List.map_cons, List.nodup_cons]
      refine ⟨fun hmem => ?_, ih h.2⟩
      rcases mem_keys_alSet tl k v k₀ hmem with h1 | h1
      · exact h0 h1
      · exact h.1 h1

theorem nodup_alErase {κ ν : Type} [DecidableEq κ] (l : List (κ × ν)) (k : κ)
    (h : (l.map Prod.fst).Nodup) :
    ((alErase l k).map Prod.fst).Nodup := by
  induction l with
  | nil => simp [alErase]
  | cons hd tl ih =>
    obtain ⟨k₀, v₀⟩ := hd
    rw [List.map_cons, List.nodup_cons] at h
    rw [show alErase ((k₀, v₀) :: tl) k =
      if k₀ = k then alErase tl k else (k₀, v₀) :: alErase tl k from rfl]
    by_cases h0 : k₀ = k
    · rw [if_pos h0]
      exact ih h.2
    · rw [if_neg h0, List.map_cons, List.nodup_cons]
      exact ⟨fun hmem => h.1 (mem_keys_alErase tl k k₀ hmem), ih h.2⟩

theorem alGet_of_mem {κ ν : Type} [DecidableEq κ] (l : List (κ × ν))
    (k : κ) (v : ν) (hnd : (l.map Prod.fst).Nodup) (hmem : (k, v) ∈ l) :
    alGet l k = some v := by
  induction l with
  | nil => simp at hmem
  | cons hd tl ih =>
    obtain ⟨k₀, v₀⟩ := hd
    rw [List.map_cons, List.nodup_cons] at hnd
    show (if k₀ = k then some v₀ else alGet tl k) = some v
    rcases List.mem_cons.mp hmem with hx | hx
    · have h1 : k₀ = k := (Prod.mk.injEq .. ▸ hx.symm).1
      have h2 : v₀ = v := (Prod.mk.injEq .. ▸ hx.symm).2
      rw [if_pos h1, h2]
    · have hk : k₀ ≠ k := by
        intro hkk
        subst hkk
        exact hnd.1 (by simpa using List.mem_map_of_mem Prod.fst hx)
      rw [if_neg hk]
      exact ih hnd.2 hx

theorem alErase_of_not_mem {κ ν : Type} [DecidableEq κ] (l : List (κ × ν))
    (k : κ) (h : k ∉ l.map Prod.fst) : alErase l k = l := by
  induction l with
  | nil => rfl
  | cons hd tl ih =>
    obtain ⟨k₀, v₀⟩ := hd
    rw [List.map_cons, List.mem_cons] at h
    push_neg at h
    show (if k₀ = k then alErase tl k else (k₀, v₀) :: alErase tl k) = _
    rw [if_neg (fun he => h.1 he.symm), ih h.2]

theorem sum_alSet {κ : Type} [DecidableEq κ] (l : List (κ × Int)) (k : κ)
    (v : Int) :
    ((alSet l k v).map Prod.snd).sum =
      (l.map Prod.snd).sum + v - (alGet l k).getD 0 := by
  induction l with
  | nil => simp [alSet, alGet]
  | cons hd tl ih =>
    obtain ⟨k₀, v₀⟩ := hd
    rw [show alSet ((k₀, v₀) :: tl) k v =
      if k₀ = k then (k, v) :: tl else (k₀, v₀) :: alSet tl k v from rfl,
      show alGet ((k₀, v₀) :: tl) k = if k₀ = k then some v₀ else alGet tl k from rfl]
    by_cases h0 : k₀ = k
    · rw [if_pos h0, if_pos h0]
      simp only [List.map_cons, List.sum_cons, Option.getD_some]
      ring
    · rw [if_neg h0, if_neg h0]
      simp only [List.map_cons, List.sum_cons]
      rw [ih]
      ring

theorem sum_alErase {κ : Type} [DecidableEq κ] (l : List (κ × Int)) (k : κ)
    (hnd : (l.map Prod.fst).Nodup) :
    ((alErase l k).map Prod.snd).sum = (l.map Prod.snd).sum - (alGet l k).getD 0 := by
  induction l with
  | nil => simp [alErase, alGet]
  | cons hd tl ih =>
    obtain ⟨k₀, v₀⟩ := hd
    rw [List.map_cons, List.nodup_cons] at hnd
    rw [show alErase ((k₀, v₀) :: tl) k =
      if k₀ = k then alErase tl k else (k₀, v₀) :: alErase tl k from rfl,
      show alGet ((k₀, v₀) :: tl) k = if k₀ = k then some v₀ else alGet tl k from rfl]
    by_cases h0 : k₀ = k
    · rw [if_pos h0, if_pos h0, alErase_of_not_mem tl k (h0 ▸ hnd.1)]
      simp only [List.map_cons, List.sum_cons, Option.getD_some]
      ring
    · rw [if_neg h0, if_neg h0]
      simp only [List.map_cons, List.sum_cons]
      rw [ih hnd.2]
      ring

theorem lastEffect_aux {α : Type} (f : BatchOp → Option α) (ops : List BatchOp)
    (init : Option α) :
    ops.foldl (fun acc op => (f op).or acc) init = (lastEffect f ops).or init := by
  induction ops generalizing init with
  | nil => simp [lastEffect]
  | cons op rest ih =>
    show List.foldl _ ((f op).or init) rest = _
    rw [ih]
    have : lastEffect f (op :: rest) = (lastEffect f rest).or (f op) := by
      show List.foldl _ ((f op).or none) rest = _
      rw [ih]
      simp
    rw [this, Option.or_assoc]

theorem lastEffect_cons {α : Type} (f : BatchOp → Option α) (op : BatchOp)
    (rest : List BatchOp) :
    lastEffect f (op :: rest) = (lastEffect f rest).or (f op) := by
  show List.foldl _ ((f op).or none) rest = _
  rw [lastEffect_aux]
  simp

theorem lastEffect_append {α : Type} (f : BatchOp → Option α) (a b : List BatchOp) :
    lastEffect f (a ++ b) = (lastEffect f b).or (lastEffect f a) := by
  unfold lastEffect
  rw [List.foldl_append]
  exact lastEffect_aux f b _

theorem applyBatch_consIdx (db : LedgerDB) (ops : List BatchOp) (k : ConsiderationID) :
    (applyBatch db ops).considerationIndex k =
      (lastEffect (fun op => consEffect op k) ops).getD (db.considerationIndex k) := by
  induction ops generalizing db with
  | nil => simp [applyBatch, lastEffect]
  | cons op rest ih =>
    show (applyBatch (applyOp db op) rest).considerationIndex k = _
    rw [ih, lastEffect_cons]
    cases hop : lastEffect (fun op => consEffect op k) rest with
    | some e => simp
    | none =>
      simp only [Option.none_or, Option.getD_none]
      cases op <;> simp [applyOp, consEffect] <;> split_ifs <;> simp_all

theorem applyBatch_pkIdx (db : LedgerDB) (ops : List BatchOp) (k : PubKey × Int × Int) :
    (applyBatch db ops).pubKeyConsiderationIndex k =
      (lastEffect (fun op => pkEffect op k) ops).getD (db.pubKeyConsiderationIndex k) := by
  induction ops generalizing db with
  | nil => simp [applyBatch, lastEffect]
  | cons op rest ih =>
    show (applyBatch (applyOp db op) rest).pubKeyConsiderationIndex k = _
    rw [ih, lastEffect_cons]
    cases hop : lastEffect (fun op => pkEffect op k) rest with
    | some e => simp
    | none =>
      simp only [Option.none_or, Option.getD_none]
      cases op <;> simp [applyOp, pkEffect] <;> split_ifs <;> simp_all

theorem applyBatch_imb (db : LedgerDB) (ops : List BatchOp) (pk : PubKey) :
    alGet (applyBatch db ops).pubKeyImbalance pk =
      (lastEffect (fun op => imbEffect op pk) ops).getD
        (alGet db.pubKeyImbalance pk) := by
  induction ops generalizing db with
  | nil => simp [applyBatch, lastEffect]
  | cons op rest ih =>
    show alGet (applyBatch (applyOp db op) rest).pubKeyImbalance pk = _
    rw [ih, lastEffect_cons]
    cases hop : lastEffect (fun op => imbEffect op pk) rest with
    | some e => simp
    | none =>
      simp only [Option.none_or, Option.getD_none]
      cases op <;>
        simp [applyOp, imbEffect, alGet_alSet, alGet_alErase] <;>
        split_ifs <;> (try rfl) <;> simp_all

theorem applyBatch_heightIdx (db : LedgerDB) (ops : List BatchOp) (h : Int) :
    (applyBatch db ops).viewHeightIndex h =
      (lastEffect (fun op => heightEffect op h) ops).getD (db.viewHeightIndex h) := by
  induction ops generalizing db with
  | nil => simp [applyBatch, lastEffect]
  | cons op rest ih =>
    show (applyBatch (applyOp db op) rest).viewHeightIndex h = _
    rw [ih, lastEffect_cons]
    cases hop : lastEffect (fun op => heightEffect op h) rest with
    | some e => simp
    | none =>
      simp only [Option.none_or, Option.getD_none]
      cases op <;> simp [applyOp, heightEffect] <;> split_ifs <;> simp_all

theorem applyBatch_branch (db : LedgerDB) (ops : List BatchOp) (id : ViewID) :
    (applyBatch db ops).branchType id =
      (lastEffect (fun op => branchEffect op id) ops).getD (db.branchType id) := by
  induction ops generalizing db with
  | nil => simp [applyBatch, lastEffect]
  | cons op rest ih =>
    show (applyBatch (applyOp db op) rest).branchType id = _
    rw [ih, lastEffect_cons]
    cases hop : lastEffect (fun op => branchEffect op id) rest with
    | some e => simp
    | none =>
      simp only [Option.none_or, Option.getD_none]
      cases op <;> simp [applyOp, branchEffect] <;> split_ifs <;> simp_all

theorem applyBatch_tip (db : LedgerDB) (ops : List BatchOp) :
    (applyBatch db ops).pointTip =
      (lastEffect tipEffect ops).getD db.pointTip := by
  induction ops generalizing db with
  | nil => simp [applyBatch, lastEffect]
  | cons op rest ih =>
    show (applyBatch (applyOp db op) rest).pointTip = _
    rw [ih, lastEffect_cons]
    cases hop : lastEffect tipEffect rest with
    | some e => simp
    | none =>
      simp only [Option.none_or, Option.getD_none]
      cases op <;> simp [applyOp, tipEffect]

/-- The imbalance table is untouched by op lists without imbalance
entries. -/
theorem applyBatch_imbTable (db : LedgerDB) (ops : List BatchOp)
    (h : ∀ op ∈ ops, (match op with
      | BatchOp.putImb _ _ => False
      | BatchOp.delImb _ => False
      | _ => True)) :
    (applyBatch db ops).pubKeyImbalance = db.pubKeyImbalance := by
  induction ops generalizing db with
  | nil => rfl
  | cons op rest ih =>
    show (applyBatch (applyOp db op) rest).pubKeyImbalance = _
    rw [ih _ (fun o ho => h o (List.mem_cons.mpr (Or.inr ho)))]
    have hop := h op (List.mem_cons.mpr (Or.inl rfl))
    cases op <;> simp_all [applyOp]

/-! ### Imbalance-cache characterisation -/

theorem deltaOf_nil (pk : PubKey) : deltaOf [] pk = 0 := rfl

theorem deltaOf_cons (c : Consideration) (rest : List Consideration) (pk : PubKey) :
    deltaOf (c :: rest) pk =
      ((if c.For = pk then (1 : Int) else 0) - (if c.By = some pk then 1 else 0)) +
        deltaOf rest pk := by
  simp [deltaOf]

theorem deltaOf_zero_of_not_touched (L : List Consideration) (pk : PubKey)
    (h : touchedIn L pk = false) : deltaOf L pk = 0 := by
  induction L with
  | nil => rfl
  | cons c rest ih =>
    simp only [touchedIn, List.any_cons, Bool.or_eq_false_iff] at h
    rw [deltaOf_cons, ih (by simp [touchedIn, h.2])]
    have hc := h.1
    simp only [touches, Bool.or_eq_false_iff, decide_eq_false_iff_not] at hc
    rw [if_neg hc.1, if_neg hc.2]
    ring

theorem touchedIn_cons (c : Consideration) (rest : List Consideration) (pk : PubKey) :
    touchedIn (c :: rest) pk = (touches c pk || touchedIn rest pk) := by
  simp [touchedIn]

theorem touchedIn_reverse (L : List Consideration) (pk : PubKey) :
    touchedIn L.reverse pk = touchedIn L pk := by
  simp [touchedIn, List.any_reverse]

theorem deltaOf_reverse (L : List Consideration) (pk : PubKey) :
    deltaOf L.reverse pk = deltaOf L pk := by
  simp [deltaOf, List.map_reverse, List.sum_reverse]

theorem extendD_single (D : PubKey → Option Int) (c : Consideration) (pk : PubKey) :
    extendD D [c] pk =
      if touches c pk then
        some ((D pk).getD 0 +
          ((if c.For = pk then (1 : Int) else 0) - (if c.By = some pk then 1 else 0)))
      else D pk := by
  unfold extendD
  rw [show touchedIn [c] pk = touches c pk from by simp [touchedIn]]
  rw [show deltaOf [c] pk =
    (if c.For = pk then (1 : Int) else 0) - (if c.By = some pk then 1 else 0) from by
      simp [deltaOf]]

theorem extendD_cons (D : PubKey → Option Int) (c : Consideration)
    (rest : List Consideration) (pk : PubKey) :
    extendD (extendD D [c]) rest pk = extendD D (c :: rest) pk := by
  unfold extendD
  rw [show touchedIn [c] pk = touches c pk from by simp [touchedIn],
    show deltaOf [c] pk = (if c.For = pk then (1 : Int) else 0) -
      (if c.By = some pk then 1 else 0) from by simp [deltaOf],
    touchedIn_cons, deltaOf_cons]
  by_cases hc : touches c pk = true
  · by_cases hr : touchedIn rest pk = true
    · have hor : (touches c pk || touchedIn rest pk) = true := by simp [hc]
      rw [if_pos hr, if_pos hc, if_pos hor]
      simp only [Option.getD_some]
      congr 1
      ring
    · have hor : (touches c pk || touchedIn rest pk) = true := by simp [hc]
      rw [if_neg hr, if_pos hc, if_pos hor]
      rw [deltaOf_zero_of_not_touched rest pk
        (by simpa using hr)]
      congr 1
      ring
  · have hδ0 : (if c.For = pk then (1 : Int) else 0) -
        (if c.By = some pk then 1 else 0) = 0 := by
      simp only [touches, Bool.or_eq_true, decide_eq_true_eq] at hc
      push_neg at hc
      rw [if_neg hc.1, if_neg hc.2]
      ring
    by_cases hr : touchedIn rest pk = true
    · have hor : (touches c pk || touchedIn rest pk) = true := by simp [hr]
      rw [if_pos hr, if_neg hc, if_pos hor, hδ0]
      congr 1
      ring
    · have hor : ¬((touches c pk || touchedIn rest pk) = true) := by
        simp only [Bool.or_eq_true]
        push_neg
        exact ⟨hc, hr⟩
      rw [if_neg hr, if_neg hc, if_neg hor]

theorem shrinkD_single (D : PubKey → Option Int) (c : Consideration) (pk : PubKey) :
    shrinkD D [c] pk =
      if touches c pk then
        some ((D pk).getD 0 -
          ((if c.For = pk then (1 : Int) else 0) - (if c.By = some pk then 1 else 0)))
      else D pk := by
  unfold shrinkD
  rw [show touchedIn [c] pk = touches c pk from by simp [touchedIn]]
  rw [show deltaOf [c] pk =
    (if c.For = pk then (1 : Int) else 0) - (if c.By = some pk then 1 else 0) from by
      simp [deltaOf]]

theorem shrinkD_cons (D : PubKey → Option Int) (c : Consideration)
    (rest : List Consideration) (pk : PubKey) :
    shrinkD (shrinkD D [c]) rest pk = shrinkD D (c :: rest) pk := by
  unfold shrinkD
  rw [show touchedIn [c] pk = touches c pk from by simp [touchedIn],
    show deltaOf [c] pk = (if c.For = pk then (1 : Int) else 0) -
      (if c.By = some pk then 1 else 0) from by simp [deltaOf],
    touchedIn_cons, deltaOf_cons]
  by_cases hc : touches c pk = true
  · by_cases hr : touchedIn rest pk = true
    · have hor : (touches c pk || touchedIn rest pk) = true := by simp [hc]
      rw [if_pos hr, if_pos hc, if_pos hor]
      simp only [Option.getD_some]
      congr 1
      ring
    · have hor : (touches c pk || touchedIn rest pk) = true := by simp [hc]
      rw [if_neg hr, if_pos hc, if_pos hor]
      rw [deltaOf_zero_of_not_touched rest pk
        (by simpa using hr)]
      congr 1
      ring
  · have hδ0 : (if c.For = pk then (1 : Int) else 0) -
        (if c.By = some pk then 1 else 0) = 0 := by
      simp only [touches, Bool.or_eq_true, decide_eq_true_eq] at hc
      push_neg at hc
      rw [if_neg hc.1, if_neg hc.2]
      ring
    by_cases hr : touchedIn rest pk = true
    · have hor : (touches c pk || touchedIn rest pk) = true := by simp [hr]
      rw [if_pos hr, if_neg hc, if_pos hor, hδ0]
      congr 1
      ring
    · have hor : ¬((touches c pk || touchedIn rest pk) = true) := by
        simp only [Bool.or_eq_true]
        push_neg
        exact ⟨hc, hr⟩
      rw [if_neg hr, if_neg hc, if_neg hor]

/-- A successful `Apply` moves the cache from abstract deltas `D` to
`extendD D [c]`: the recipient gains one, the sender (when present)
loses one, untouched keys keep their bindings. -/
theorem Apply_char (read : PubKey → Int) (cache : ImbCache) (c : Consideration)
    (cacheAfter : ImbCache) (D : PubKey → Option Int)
    (hD : ∀ pk, alGet cache pk = (D pk).map (fun d => read pk + d))
    (happ : ImbalanceCache.Apply read cache c = (true, cacheAfter)) :
    ∀ pk, alGet cacheAfter pk = (extendD D [c] pk).map (fun d => read pk + d) := by
  intro pk
  rw [extendD_single]
  unfold ImbalanceCache.Apply at happ
  cases hby : c.By with
  | none =>
    rw [hby] at happ
    dsimp only at happ
    have hc : cacheAfter =
        alSet cache c.For (((alGet cache c.For).getD (read c.For)) + 1) :=
      ((Prod.mk.injEq .. ▸ happ).2).symm
    subst hc
    rw [alGet_alSet]
    by_cases hfor : c.For = pk
    · subst hfor
      rw [if_pos rfl, if_pos (by simp [touches]), hD c.For]
      cases hDpk : D c.For <;> simp [hDpk] <;> ring
    · rw [if_neg hfor, if_neg (by simp [touches, hfor, hby])]
      exact hD pk
  | some fpk =>
    rw [hby] at happ
    dsimp only at happ
    split at happ
    · exact absurd (Prod.mk.injEq .. ▸ happ).1 (by simp)
    · next hslt =>
      have hc : cacheAfter =
          alSet (alSet cache fpk (((alGet cache fpk).getD (read fpk)) - 1)) c.For
            (((alGet (alSet cache fpk (((alGet cache fpk).getD (read fpk)) - 1))
               c.For).getD (read c.For)) + 1) :=
        ((Prod.mk.injEq .. ▸ happ).2).symm
      subst hc
      rw [alGet_alSet]
      by_cases hfor : c.For = pk
      · subst hfor
        rw [if_pos rfl, if_pos (by simp [touches]), alGet_alSet]
        by_cases hsnd : fpk = c.For
        · subst hsnd
          rw [if_pos rfl, if_pos (by rfl), hD c.For]
          cases hDpk : D c.For <;> simp [hDpk] <;> ring
        · have hne : ¬(some fpk = some (c.For)) :=
            fun he => hsnd (Option.some_inj.mp he)
          rw [if_neg hsnd, if_neg hne, hD c.For]
          cases hDpk : D c.For <;> simp [hDpk] <;> ring
      · rw [if_neg hfor, alGet_alSet]
        by_cases hsnd : fpk = pk
        · subst hsnd
          rw [if_pos rfl, if_pos (by simp [touches, hby]), if_neg hfor,
            if_pos rfl, hD fpk]
          cases hDpk : D fpk <;> simp [hDpk] <;> ring
        · rw [if_neg hsnd, if_neg (by simp [touches, hfor, hby, hsnd])]
          exact hD pk

/-- A successful `Undo` moves the cache from abstract deltas `D` to
`shrinkD D [c]`. -/
theorem Undo_char (read : PubKey → Int) (cache : ImbCache) (c : Consideration)
    (cacheAfter : ImbCache) (D : PubKey → Option Int)
    (hD : ∀ pk, alGet cache pk = (D pk).map (fun d => read pk + d))
    (hund : ImbalanceCache.Undo read cache c = some cacheAfter) :
    ∀ pk, alGet cacheAfter pk = (shrinkD D [c] pk).map (fun d => read pk + d) := by
  intro pk
  rw [shrinkD_single]
  unfold ImbalanceCache.Undo at hund
  cases hby : c.By with
  | none =>
    rw [hby] at hund
    dsimp only at hund
    split at hund
    · exact absurd hund (by simp)
    · have hc : cacheAfter =
          alSet cache c.For (((alGet cache c.For).getD (read c.For)) - 1) :=
        (Option.some_inj.mp hund).symm
      subst hc
      rw [alGet_alSet]
      by_cases hfor : c.For = pk
      · subst hfor
        rw [if_pos rfl, if_pos (by simp [touches]), hD c.For]
        cases hDpk : D c.For <;> simp [hDpk] <;> ring
      · rw [if_neg hfor, if_neg (by simp [touches, hfor, hby])]
        exact hD pk
  | some fpk =>
    rw [hby] at hund
    dsimp only at hund
    split at hund
    · exact absurd hund (by simp)
    · have hc : cacheAfter =
          alSet (alSet cache fpk (((alGet cache fpk).getD (read fpk)) + 1)) c.For
            (((alGet (alSet cache fpk (((alGet cache fpk).getD (read fpk)) + 1))
               c.For).getD (read c.For)) - 1) :=
        (Option.some_inj.mp hund).symm
      subst hc
      rw [alGet_alSet]
      by_cases hfor : c.For = pk
      · subst hfor
        rw [if_pos rfl, if_pos (by simp [touches]), alGet_alSet]
        by_cases hsnd : fpk = c.For
        · subst hsnd
          rw [if_pos rfl, if_pos (by rfl), hD c.For]
          cases hDpk : D c.For <;> simp [hDpk] <;> ring
        · have hne : ¬(some fpk = some (c.For)) :=
            fun he => hsnd (Option.some_inj.mp he)
          rw [if_neg hsnd, if_neg hne, hD c.For]
          cases hDpk : D c.For <;> simp [hDpk] <;> ring
      · rw [if_neg hfor, alGet_alSet]
        by_cases hsnd : fpk = pk
        · subst hsnd
          rw [if_pos rfl, if_pos (by simp [touches, hby]), if_neg hfor,
            if_pos rfl, hD fpk]
          cases hDpk : D fpk <;> simp [hDpk] <;> ring
        · rw [if_neg hsnd, if_neg (by simp [touches, hfor, hby, hsnd])]
          exact hD pk

theorem applyAll_char (read : PubKey → Int) :
    ∀ (L : List Consideration) (cache cc : ImbCache) (D : PubKey → Option Int),
    (∀ pk, alGet cache pk = (D pk).map (fun d => read pk + d)) →
    applyAll read cache L = some cc →
    ∀ pk, alGet cc pk = (extendD D L pk).map (fun d => read pk + d) := by
  intro L
  induction L with
  | nil =>
    intro cache cc D hD h pk
    rw [applyAll] at h
    have : cache = cc := Option.some_inj.mp h
    subst this
    rw [show extendD D [] pk = D pk from by simp [extendD, touchedIn]]
    exact hD pk
  | cons c rest ih =>
    intro cache cc D hD h pk
    rw [applyAll] at h
    cases happ : ImbalanceCache.Apply read cache c with
    | mk ok ca =>
      rw [happ] at h
      cases ok with
      | false => simp at h
      | true =>
        have hstep := Apply_char read cache c ca D hD happ
        have := ih ca cc (extendD D [c]) hstep h pk
        rw [this, extendD_cons]

theorem undoAll_char (read : PubKey → Int) :
    ∀ (L : List Consideration) (cache cc : ImbCache) (D : PubKey → Option Int),
    (∀ pk, alGet cache pk = (D pk).map (fun d => read pk + d)) →
    undoAll read cache L = some cc →
    ∀ pk, alGet cc pk = (shrinkD D L pk).map (fun d => read pk + d) := by
  intro L
  induction L with
  | nil =>
    intro cache cc D hD h pk
    rw [undoAll] at h
    have : cache = cc := Option.some_inj.mp h
    subst this
    rw [show shrinkD D [] pk = D pk from by simp [shrinkD, touchedIn]]
    exact hD pk
  | cons c rest ih =>
    intro cache cc D hD h pk
    rw [undoAll] at h
    cases hund : ImbalanceCache.Undo read cache c with
    | none => rw [hund] at h; simp at h
    | some ca =>
      rw [hund] at h
      have hstep := Undo_char read cache c ca D hD hund
      have := ih ca cc (shrinkD D [c]) hstep h pk
      rw [this, shrinkD_cons]

theorem Apply_nodup (read : PubKey → Int) (cache : ImbCache) (c : Consideration)
    (ca : ImbCache) (h : ImbalanceCache.Apply read cache c = (true, ca))
    (hnd : (cache.map Prod.fst).Nodup) : (ca.map Prod.fst).Nodup := by
  unfold ImbalanceCache.Apply at h
  cases hby : c.By with
  | none =>
    rw [hby] at h
    dsimp only at h
    injection h with h1 h2
    rw [← h2]
    exact nodup_alSet _ _ _ hnd
  | some fpk =>
    rw [hby] at h
    dsimp only at h
    split at h
    · exact absurd (Prod.mk.injEq .. ▸ h).1 (by simp)
    · injection h with h1 h2
      rw [← h2]
      exact nodup_alSet _ _ _ (nodup_alSet _ _ _ hnd)

theorem Undo_nodup (read : PubKey → Int) (cache : ImbCache) (c : Consideration)
    (ca : ImbCache) (h : ImbalanceCache.Undo read cache c = some ca)
    (hnd : (cache.map Prod.fst).Nodup) : (ca.map Prod.fst).Nodup := by
  unfold ImbalanceCache.Undo at h
  cases hby : c.By with
  | none =>
    rw [hby] at h
    dsimp only at h
    split at h
    · exact absurd h (by simp)
    · rw [← Option.some_inj.mp h]
      exact nodup_alSet _ _ _ hnd
  | some fpk =>
    rw [hby] at h
    dsimp only at h
    split at h
    · exact absurd h (by simp)
    · rw [← Option.some_inj.mp h]
      exact nodup_alSet _ _ _ (nodup_alSet _ _ _ hnd)

theorem applyAll_nodup (read : PubKey → Int) :
    ∀ (L : List Consideration) (cache cc : ImbCache),
    (cache.map Prod.fst).Nodup → applyAll read cache L = some cc →
    (cc.map Prod.fst).Nodup := by
  intro L
  induction L with
  | nil =>
    intro cache cc hnd h
    rw [applyAll] at h
    rw [← Option.some_inj.mp h]
    exact hnd
  | cons c rest ih =>
    intro cache cc hnd h
    rw [applyAll] at h
    cases happ : ImbalanceCache.Apply read cache c with
    | mk ok ca =>
      rw [happ] at h
      cases ok with
      | false => simp at h
      | true => exact ih ca cc (Apply_nodup read cache c ca happ hnd) h

theorem undoAll_nodup (read : PubKey → Int) :
    ∀ (L : List Consideration) (cache cc : ImbCache),
    (cache.map Prod.fst).Nodup → undoAll read cache L = some cc →
    (cc.map Prod.fst).Nodup := by
  intro L
  induction L with
  | nil =>
    intro cache cc hnd h
    rw [undoAll] at h
    rw [← Option.some_inj.mp h]
    exact hnd
  | cons c rest ih =>
    intro cache cc hnd h
    rw [undoAll] at h
    cases hund : ImbalanceCache.Undo read cache c with
    | none => rw [hund] at h; simp at h
    | some ca =>
      rw [hund] at h
      exact ih ca cc (Undo_nodup read cache c ca hund hnd) h

theorem alGet_eq_none_of_not_mem {κ ν : Type} [DecidableEq κ]
    (l : List (κ × ν)) (k : κ) (h : k ∉ l.map Prod.fst) : alGet l k = none := by
  induction l with
  | nil => rfl
  | cons hd tl ih =>
    obtain ⟨k₀, v₀⟩ := hd
    rw [List.map_cons, List.mem_cons] at h
    push_neg at h
    show (if k₀ = k then some v₀ else alGet tl k) = none
    rw [if_neg (fun he => h.1 he.symm)]
    exact ih h.2

/-- The imbalance effect of a flush: the single op per cached key
overwrites the table entry (deleting zeros). -/
theorem lastEffect_flushOps (cache : ImbCache) (pk : PubKey)
    (hnd : (cache.map Prod.fst).Nodup) :
    lastEffect (fun op => imbEffect op pk) (flushOps cache) =
      match alGet cache pk with
      | none => none
      | some v => some (if v = 0 then none else some v) := by
  induction cache with
  | nil => rfl
  | cons hd rest ih =>
    obtain ⟨k, v⟩ := hd
    rw [List.map_cons, List.nodup_cons] at hnd
    rw [show flushOps ((k, v) :: rest) =
      (if v = 0 then BatchOp.delImb k else BatchOp.putImb k v) :: flushOps rest
      from rfl, lastEffect_cons, ih hnd.2]
    show _ = match (if k = pk then some v else alGet rest pk) with
      | none => none
      | some v => some (if v = 0 then none else some v)
    by_cases hk : k = pk
    · subst hk
      rw [if_pos rfl, alGet_eq_none_of_not_mem rest k hnd.1]
      dsimp only
      by_cases hv : v = 0
      · rw [if_pos hv]
        simp [imbEffect, hv]
      · rw [if_neg hv]
        simp [imbEffect, hv]
    · rw [if_neg hk]
      have hnone : imbEffect (if v = 0 then BatchOp.delImb k else BatchOp.putImb k v) pk
          = none := by
        have hne : ¬(pk = k) := fun he => hk he.symm
        split_ifs <;> simp [imbEffect, hne]
      rw [hnone]
      cases alGet rest pk <;> simp

theorem lastEffect_none {α : Type} (f : BatchOp → Option α) (ops : List BatchOp)
    (h : ∀ op ∈ ops, f op = none) : lastEffect f ops = none := by
  induction ops with
  | nil => rfl
  | cons op rest ih =>
    rw [lastEffect_cons, h op (List.mem_cons.mpr (Or.inl rfl)),
      ih (fun o ho => h o (List.mem_cons.mpr (Or.inr ho)))]
    rfl

/-! ### Loop decomposition and op-list structure -/

theorem connectLoop_spec (env : LedgerEnv) (db : LedgerDB) (height : Int) :
    ∀ (cns : List Consideration) (i : Int) (batch : List BatchOp)
      (cache : ImbCache) (bc : List BatchOp) (cc : ImbCache),
    connectLoop env db height i cns batch cache = some (bc, cc) →
    bc = batch ++ connectOps env height i cns ∧
    (∀ cn ∈ cns, db.considerationIndex (env.idOf cn) = none) ∧
    ∃ rl, resolveList env db height cns = some rl ∧
      applyAll (dbImbRead db) cache rl = some cc := by
  intro cns
  induction cns with
  | nil =>
    intro i batch cache bc cc h
    rw [connectLoop] at h
    obtain ⟨h1, h2⟩ := Prod.mk.injEq .. ▸ Option.some_inj.mp h
    refine ⟨by simp [← h1, connectOps], by simp, [], rfl, ?_⟩
    rw [applyAll, h2]
  | cons cn rest ih =>
    intro i batch cache bc cc h
    rw [connectLoop] at h
    split at h
    · exact absurd h (by simp)
    · next hidx =>
      cases hres : resolveApply env db height cn with
      | none => rw [hres] at h; exact absurd h (by simp)
      | some cnToApply =>
        rw [hres] at h
        have hnone : db.considerationIndex (env.idOf cn) = none :=
          Option.not_isSome_iff_eq_none.mp hidx
        cases cnToApply with
        | none =>
          dsimp only at h
          obtain ⟨h1, h2, rl, h3, h4⟩ := ih (i + 1) _ cache bc cc h
          refine ⟨by rw [h1]; simp [connectOps], ?_, rl, ?_, h4⟩
          · intro c hc
            rcases List.mem_cons.mp hc with hc | hc
            · exact hc ▸ hnone
            · exact h2 c hc
          · rw [resolveList, hres, h3]
        | some c =>
          dsimp only at h
          cases happ : ImbalanceCache.Apply (dbImbRead db) cache c with
          | mk ok ca =>
            rw [happ] at h
            cases ok with
            | false => simp at h
            | true =>
              dsimp only at h
              by_cases hanc : env.ancestryBlocked c = true
              · rw [if_pos hanc] at h
                simp at h
              · rw [if_neg hanc] at h
                dsimp only at h
                obtain ⟨h1, h2, rl, h3, h4⟩ := ih (i + 1) _ ca bc cc h
                refine ⟨by rw [h1]; simp [connectOps], ?_, c :: rl, ?_, ?_⟩
                · intro c' hc
                  rcases List.mem_cons.mp hc with hc | hc
                  · exact hc ▸ hnone
                  · exact h2 c' hc
                · rw [resolveList, hres, h3]
                  rfl
                · rw [applyAll, happ]
                  exact h4

theorem disconnectLoop_spec (env : LedgerEnv) (db : LedgerDB) (height : Int) :
    ∀ (cns : List Consideration) (i : Int) (batch : List BatchOp)
      (cache : ImbCache) (bd : List BatchOp) (cd : ImbCache),
    disconnectLoop env db height i cns batch cache = some (bd, cd) →
    bd = batch ++ disconnectOps env height i cns ∧
    ∃ rl, resolveList env db height cns = some rl ∧
      undoAll (dbImbRead db) cache rl = some cd := by
  intro cns
  induction cns with
  | nil =>
    intro i batch cache bd cd h
    rw [disconnectLoop] at h
    obtain ⟨h1, h2⟩ := Prod.mk.injEq .. ▸ Option.some_inj.mp h
    refine ⟨by simp [← h1, disconnectOps], [], rfl, ?_⟩
    rw [undoAll, h2]
  | cons cn rest ih =>
    intro i batch cache bd cd h
    rw [disconnectLoop] at h
    cases hres : resolveApply env db height cn with
    | none => rw [hres] at h; exact absurd h (by simp)
    | some cnToUndo =>
      rw [hres] at h
      cases cnToUndo with
      | none =>
        dsimp only at h
        obtain ⟨h1, rl, h3, h4⟩ := ih (i - 1) _ cache bd cd h
        refine ⟨by rw [h1]; simp [disconnectOps], rl, ?_, h4⟩
        rw [resolveList, hres, h3]
      | some c =>
        dsimp only at h
        cases hund : ImbalanceCache.Undo (dbImbRead db) cache c with
        | none => rw [hund] at h; simp at h
        | some ca =>
          rw [hund] at h
          dsimp only at h
          obtain ⟨h1, rl, h3, h4⟩ := ih (i - 1) _ ca bd cd h
          refine ⟨by rw [h1]; simp [disconnectOps], c :: rl, ?_, ?_⟩
          · rw [resolveList, hres, h3]
            rfl
          · rw [undoAll, hund]
            exact h4

theorem resolveApply_congr (env : LedgerEnv) (db db' : LedgerDB) (height : Int)
    (cn : Consideration)
    (hh : db'.viewHeightIndex (height - VIEWPOINT_MATURITY) =
      db.viewHeightIndex (height - VIEWPOINT_MATURITY)) :
    resolveApply env db' height cn = resolveApply env db height cn := by
  unfold resolveApply
  rw [hh]

theorem resolveList_congr (env : LedgerEnv) (db db' : LedgerDB) (height : Int)
    (hh : db'.viewHeightIndex (height - VIEWPOINT_MATURITY) =
      db.viewHeightIndex (height - VIEWPOINT_MATURITY)) :
    ∀ cns, resolveList env db' height cns = resolveList env db height cns := by
  intro cns
  induction cns with
  | nil => rfl
  | cons cn rest ih =>
    rw [resolveList, resolveList, resolveApply_congr env db db' height cn hh, ih]

theorem resolveList_append (env : LedgerEnv) (db : LedgerDB) (height : Int) :
    ∀ a b : List Consideration,
    resolveList env db height (a ++ b) =
      match resolveList env db height a, resolveList env db height b with
      | some ra, some rb => some (ra ++ rb)
      | _, _ => none := by
  intro a b
  induction a with
  | nil =>
    show resolveList env db height b = _
    cases hb : resolveList env db height b <;> simp [resolveList]
  | cons c rest ih =>
    show resolveList env db height (c :: (rest ++ b)) = _
    rw [resolveList, resolveList]
    cases hres : resolveApply env db height c with
    | none => rfl
    | some x =>
      cases x with
      | none => exact ih
      | some y =>
        rw [ih]
        cases ha : resolveList env db height rest <;>
          cases hb : resolveList env db height b <;> simp

theorem resolveList_reverse (env : LedgerEnv) (db : LedgerDB) (height : Int) :
    ∀ cns, resolveList env db height cns.reverse =
      (resolveList env db height cns).map List.reverse := by
  intro cns
  induction cns with
  | nil => rfl
  | cons c rest ih =>
    rw [List.reverse_cons, resolveList_append, ih, resolveList]
    cases hres : resolveApply env db height c with
    | none =>
      cases ha : resolveList env db height rest <;> simp [resolveList, hres, ha]
    | some x =>
      cases x with
      | none =>
        cases ha : resolveList env db height rest <;> simp [resolveList, hres, ha]
      | some y =>
        cases ha : resolveList env db height rest <;> simp [resolveList, hres, ha]

/-! ### Op shapes and per-table effects of the loop op lists -/

theorem mem_pkIdxPuts (cn : Consideration) (height i : Int) (op : BatchOp)
    (hop : op ∈ pkIdxPuts cn height i) : ∃ kk, op = BatchOp.putPkIdx kk := by
  unfold pkIdxPuts at hop
  rcases List.mem_append.mp hop with h | h
  · split at h
    · simp at h
    · exact ⟨_, List.mem_singleton.mp h⟩
  · exact ⟨_, List.mem_singleton.mp h⟩

theorem mem_pkIdxDels (cn : Consideration) (height i : Int) (op : BatchOp)
    (hop : op ∈ pkIdxDels cn height i) : ∃ kk, op = BatchOp.delPkIdx kk := by
  unfold pkIdxDels at hop
  rcases List.mem_append.mp hop with h | h
  · split at h
    · simp at h
    · exact ⟨_, List.mem_singleton.mp h⟩
  · exact ⟨_, List.mem_singleton.mp h⟩

theorem mem_connectOps (env : LedgerEnv) (height : Int) :
    ∀ (cns : List Consideration) (i : Int) (op : BatchOp),
    op ∈ connectOps env height i cns →
    (∃ k v, op = BatchOp.putConsIdx k v) ∨ (∃ kk, op = BatchOp.putPkIdx kk) := by
  intro cns
  induction cns with
  | nil => intro i op hop; simp [connectOps] at hop
  | cons cn rest ih =>
    intro i op hop
    rw [connectOps] at hop
    rcases List.mem_append.mp hop with h | h
    · rcases List.mem_append.mp h with h | h
      · simp at h
        exact Or.inl ⟨_, _, h⟩
      · exact Or.inr (mem_pkIdxPuts cn height i op h)
    · exact ih (i + 1) op h

theorem mem_disconnectOps (env : LedgerEnv) (height : Int) :
    ∀ (cns : List Consideration) (i : Int) (op : BatchOp),
    op ∈ disconnectOps env height i cns →
    (∃ k, op = BatchOp.delConsIdx k) ∨ (∃ kk, op = BatchOp.delPkIdx kk) := by
  intro cns
  induction cns with
  | nil => intro i op hop; simp [disconnectOps] at hop
  | cons cn rest ih =>
    intro i op hop
    rw [disconnectOps] at hop
    rcases List.mem_append.mp hop with h | h
    · rcases List.mem_append.mp h with h | h
      · simp at h
        exact Or.inl ⟨_, h⟩
      · exact Or.inr (mem_pkIdxDels cn height i op h)
    · exact ih (i - 1) op h

theorem mem_pruneList (env : LedgerEnv) (height : Int) :
    ∀ (cns : List Consideration) (i : Int) (op : BatchOp),
    op ∈ pruneList env height i cns →
    (∃ k, op = BatchOp.delConsIdx k) ∨ (∃ kk, op = BatchOp.delPkIdx kk) := by
  intro cns
  induction cns with
  | nil => intro i op hop; simp [pruneList] at hop
  | cons cn rest ih =>
    intro i op hop
    rw [pruneList] at hop
    rcases List.mem_append.mp hop with h | h
    · rcases List.mem_append.mp h with h | h
      · simp at h
        exact Or.inl ⟨_, h⟩
      · exact Or.inr (mem_pkIdxDels cn height i op h)
    · exact ih (i + 1) op h

theorem mem_flushOps (cache : ImbCache) (op : BatchOp)
    (hop : op ∈ flushOps cache) :
    (∃ pk v, op = BatchOp.putImb pk v) ∨ (∃ pk, op = BatchOp.delImb pk) := by
  unfold flushOps at hop
  rcases List.mem_map.mp hop with ⟨e, _, he⟩
  by_cases hz : e.2 = 0
  · rw [if_pos hz] at he
    exact Or.inr ⟨_, he.symm⟩
  · rw [if_neg hz] at he
    exact Or.inl ⟨_, _, he.symm⟩

theorem restoreList_eq_connectOps (env : LedgerEnv) (height : Int) :
    ∀ (cns : List Consideration) (i : Int),
    restoreList env height i cns = connectOps env height i cns := by
  intro cns
  induction cns with
  | nil => intro i; rfl
  | cons cn rest ih =>
    intro i
    rw [restoreList, connectOps, ih]

theorem option_or_eq_none {α : Type} (a b : Option α) :
    a.or b = none ↔ a = none ∧ b = none := by
  cases a <;> cases b <;> simp [Option.or]

theorem lastEffect_pk_pkIdxPuts (cn : Consideration) (height i : Int)
    (k : PubKey × Int × Int) :
    lastEffect (fun op => pkEffect op k) (pkIdxPuts cn height i) =
      if (decide (k = (cn.For, height, i)) ||
          (!cn.IsViewpoint && decide (k = (cn.By.getD [], height, i)))) = true
      then some (some ()) else none := by
  cases hvp : cn.IsViewpoint with
  | true =>
    rw [show pkIdxPuts cn height i = [BatchOp.putPkIdx (cn.For, height, i)] from by
      simp [pkIdxPuts, hvp]]
    by_cases hf : k = (cn.For, height, i) <;>
      simp [lastEffect, List.foldl, pkEffect, hf, hvp]
  | false =>
    rw [show pkIdxPuts cn height i =
        [BatchOp.putPkIdx (cn.By.getD [], height, i),
         BatchOp.putPkIdx (cn.For, height, i)] from by
      simp [pkIdxPuts, hvp]]
    by_cases hf : k = (cn.For, height, i) <;>
      by_cases hb : k = (cn.By.getD [], height, i) <;>
        simp [lastEffect, List.foldl, pkEffect, hf, hb, hvp, Option.or] <;>
          (try (split_ifs <;> rfl))

theorem lastEffect_pk_pkIdxDels (cn : Consideration) (height i : Int)
    (k : PubKey × Int × Int) :
    lastEffect (fun op => pkEffect op k) (pkIdxDels cn height i) =
      if (decide (k = (cn.For, height, i)) ||
          (!cn.IsViewpoint && decide (k = (cn.By.getD [], height, i)))) = true
      then some none else none := by
  cases hvp : cn.IsViewpoint with
  | true =>
    rw [show pkIdxDels cn height i = [BatchOp.delPkIdx (cn.For, height, i)] from by
      simp [pkIdxDels, hvp]]
    by_cases hf : k = (cn.For, height, i) <;>
      simp [lastEffect, List.foldl, pkEffect, hf, hvp]
  | false =>
    rw [show pkIdxDels cn height i =
        [BatchOp.delPkIdx (cn.By.getD [], height, i),
         BatchOp.delPkIdx (cn.For, height, i)] from by
      simp [pkIdxDels, hvp]]
    by_cases hf : k = (cn.For, height, i) <;>
      by_cases hb : k = (cn.By.getD [], height, i) <;>
        simp [lastEffect, List.foldl, pkEffect, hf, hb, hvp, Option.or] <;>
          (try (split_ifs <;> rfl))

theorem lastEffect_pk_connectOps (env : LedgerEnv) (height : Int)
    (k : PubKey × Int × Int) :
    ∀ (cns : List Consideration) (i : Int),
    lastEffect (fun op => pkEffect op k) (connectOps env height i cns) =
      if pkHit height i cns k = true then some (some ()) else none := by
  intro cns
  induction cns with
  | nil => intro i; simp [connectOps, lastEffect, List.foldl, pkHit]
  | cons cn rest ih =>
    intro i
    rw [connectOps, lastEffect_append, lastEffect_append, ih (i + 1),
      lastEffect_pk_pkIdxPuts]
    rw [show lastEffect (fun op => pkEffect op k)
        [BatchOp.putConsIdx (env.idOf cn) (height, i)] = none from by
      simp [lastEffect, List.foldl, pkEffect]]
    rw [pkHit]
    cases hblk : (decide (k = (cn.For, height, i)) ||
        (!cn.IsViewpoint && decide (k = (cn.By.getD [], height, i)))) <;>
      cases hrec : pkHit height (i + 1) rest k <;>
        simp [hblk, hrec, Option.or]

theorem lastEffect_pk_disconnectOps (env : LedgerEnv) (height : Int)
    (k : PubKey × Int × Int) :
    ∀ (cns : List Consideration) (i : Int),
    lastEffect (fun op => pkEffect op k) (disconnectOps env height i cns) =
      if pkHitDesc height i cns k = true then some none else none := by
  intro cns
  induction cns with
  | nil => intro i; simp [disconnectOps, lastEffect, List.foldl, pkHitDesc]
  | cons cn rest ih =>
    intro i
    rw [disconnectOps, lastEffect_append, lastEffect_append, ih (i - 1),
      lastEffect_pk_pkIdxDels]
    rw [show lastEffect (fun op => pkEffect op k)
        [BatchOp.delConsIdx (env.idOf cn)] = none from by
      simp [lastEffect, List.foldl, pkEffect]]
    rw [pkHitDesc]
    cases hblk : (decide (k = (cn.For, height, i)) ||
        (!cn.IsViewpoint && decide (k = (cn.By.getD [], height, i)))) <;>
      cases hrec : pkHitDesc height (i - 1) rest k <;>
        simp [hblk, hrec, Option.or]

theorem lastEffect_pk_pruneList (env : LedgerEnv) (height : Int)
    (k : PubKey × Int × Int) :
    ∀ (cns : List Consideration) (i : Int),
    lastEffect (fun op => pkEffect op k) (pruneList env height i cns) =
      if pkHit height i cns k = true then some none else none := by
  intro cns
  induction cns with
  | nil => intro i; simp [pruneList, lastEffect, List.foldl, pkHit]
  | cons cn rest ih =>
    intro i
    rw [pruneList, lastEffect_append, lastEffect_append, ih (i + 1),
      lastEffect_pk_pkIdxDels]
    rw [show lastEffect (fun op => pkEffect op k)
        [BatchOp.delConsIdx (env.idOf cn)] = none from by
      simp [lastEffect, List.foldl, pkEffect]]
    rw [pkHit]
    cases hblk : (decide (k = (cn.For, height, i)) ||
        (!cn.IsViewpoint && decide (k = (cn.By.getD [], height, i)))) <;>
      cases hrec : pkHit height (i + 1) rest k <;>
        simp [hblk, hrec, Option.or]

theorem pkHitDesc_append (height : Int) (k : PubKey × Int × Int) :
    ∀ (a b : List Consideration) (j : Int),
    pkHitDesc height j (a ++ b) k =
      (pkHitDesc height j a k || pkHitDesc height (j - (a.length : Int)) b k) := by
  intro a
  induction a with
  | nil => intro b j; simp [pkHitDesc]
  | cons c rest ih =>
    intro b j
    rw [List.cons_append, pkHitDesc, pkHitDesc, ih b (j - 1)]
    rw [show j - 1 - (rest.length : Int) = j - ((c :: rest).length : Int) from by
      rw [List.length_cons]; push_cast; ring]
    simp [Bool.or_assoc]

theorem pkHitDesc_reverse (height : Int) (k : PubKey × Int × Int) :
    ∀ (cns : List Consideration) (i : Int),
    pkHitDesc height (i + (cns.length : Int) - 1) cns.reverse k =
      pkHit height i cns k := by
  intro cns
  induction cns with
  | nil => intro i; simp [pkHitDesc, pkHit]
  | cons c rest ih =>
    intro i
    rw [List.reverse_cons, pkHitDesc_append]
    rw [show i + ((c :: rest).length : Int) - 1 - (rest.reverse.length : Int) = i from by
      rw [List.length_cons, List.length_reverse]; push_cast; ring]
    rw [show i + ((c :: rest).length : Int) - 1 = (i + 1) + (rest.length : Int) - 1 from by
      rw [List.length_cons]; push_cast; ring]
    rw [ih (i + 1), pkHit]
    simp [pkHitDesc, Bool.or_comm]

theorem pkHit_height (height : Int) (k : PubKey × Int × Int) :
    ∀ (cns : List Consideration) (i : Int),
    pkHit height i cns k = true → k.2.1 = height := by
  intro cns
  induction cns with
  | nil => intro i h; simp [pkHit] at h
  | cons c rest ih =>
    intro i h
    rw [pkHit] at h
    rcases Bool.or_eq_true_iff.mp h with h | h
    · rcases Bool.or_eq_true_iff.mp h with h | h
      · rw [of_decide_eq_true h]
      · rw [of_decide_eq_true (Bool.and_eq_true_iff.mp h).2]
    · exact ih (i + 1) h

theorem lastEffect_cons_connectOps_none_iff (env : LedgerEnv) (height : Int)
    (k : ConsiderationID) :
    ∀ (cns : List Consideration) (i : Int),
    lastEffect (fun op => consEffect op k) (connectOps env height i cns) = none ↔
      idHit env.idOf cns k = false := by
  intro cns
  induction cns with
  | nil => intro i; simp [connectOps, lastEffect, List.foldl, idHit]
  | cons cn rest ih =>
    intro i
    have hpk0 : lastEffect (fun op => consEffect op k) (pkIdxPuts cn height i) = none :=
      lastEffect_none _ _ (fun op hop => by
        obtain ⟨kk, rfl⟩ := mem_pkIdxPuts cn height i op hop; rfl)
    rw [connectOps, lastEffect_append, lastEffect_append, hpk0]
    rw [show lastEffect (fun op => consEffect op k)
        [BatchOp.putConsIdx (env.idOf cn) (height, i)] =
          if k = env.idOf cn then some (some (height, i)) else none from by
      by_cases hk : k = env.idOf cn <;> simp [lastEffect, List.foldl, consEffect, hk]]
    rw [show idHit env.idOf (cn :: rest) k =
        (decide (k = env.idOf cn) || idHit env.idOf rest k) from by simp [idHit]]
    rw [option_or_eq_none, option_or_eq_none, ih (i + 1)]
    by_cases hk : k = env.idOf cn <;> simp [hk]

theorem lastEffect_cons_disconnectOps (env : LedgerEnv) (height : Int)
    (k : ConsiderationID) :
    ∀ (cns : List Consideration) (i : Int),
    lastEffect (fun op => consEffect op k) (disconnectOps env height i cns) =
      if idHit env.idOf cns k = true then some none else none := by
  intro cns
  induction cns with
  | nil => intro i; simp [disconnectOps, lastEffect, List.foldl, idHit]
  | cons cn rest ih =>
    intro i
    have hpk0 : lastEffect (fun op => consEffect op k) (pkIdxDels cn height i) = none :=
      lastEffect_none _ _ (fun op hop => by
        obtain ⟨kk, rfl⟩ := mem_pkIdxDels cn height i op hop; rfl)
    rw [disconnectOps, lastEffect_append, lastEffect_append, hpk0, ih (i - 1)]
    rw [show lastEffect (fun op => consEffect op k)
        [BatchOp.delConsIdx (env.idOf cn)] =
          if k = env.idOf cn then some none else none from by
      by_cases hk : k = env.idOf cn <;> simp [lastEffect, List.foldl, consEffect, hk]]
    rw [show idHit env.idOf (cn :: rest) k =
        (decide (k = env.idOf cn) || idHit env.idOf rest k) from by simp [idHit]]
    by_cases hk : k = env.idOf cn <;>
      cases hrec : idHit env.idOf rest k <;> simp [hk, hrec, Option.or]

theorem lastEffect_cons_pruneList (env : LedgerEnv) (height : Int)
    (k : ConsiderationID) :
    ∀ (cns : List Consideration) (i : Int),
    lastEffect (fun op => consEffect op k) (pruneList env height i cns) =
      if idHit env.idOf cns k = true then some none else none := by
  intro cns
  induction cns with
  | nil => intro i; simp [pruneList, lastEffect, List.foldl, idHit]
  | cons cn rest ih =>
    intro i
    have hpk0 : lastEffect (fun op => consEffect op k) (pkIdxDels cn height i) = none :=
      lastEffect_none _ _ (fun op hop => by
        obtain ⟨kk, rfl⟩ := mem_pkIdxDels cn height i op hop; rfl)
    rw [pruneList, lastEffect_append, lastEffect_append, hpk0, ih (i + 1)]
    rw [show lastEffect (fun op => consEffect op k)
        [BatchOp.delConsIdx (env.idOf cn)] =
          if k = env.idOf cn then some none else none from by
      by_cases hk : k = env.idOf cn <;> simp [lastEffect, List.foldl, consEffect, hk]]
    rw [show idHit env.idOf (cn :: rest) k =
        (decide (k = env.idOf cn) || idHit env.idOf rest k) from by simp [idHit]]
    by_cases hk : k = env.idOf cn <;>
      cases hrec : idHit env.idOf rest k <;> simp [hk, hrec, Option.or]

theorem idHit_reverse (idOf : Consideration → ConsiderationID)
    (cns : List Consideration) (k : ConsiderationID) :
    idHit idOf cns.reverse k = idHit idOf cns k := by
  simp [idHit, List.any_reverse]

theorem ConnectView_shape (env : LedgerEnv) (db : LedgerDB) (id : ViewID)
    (view : View) (db1 : LedgerDB)
    (h : ConnectView env db id view = some db1) :
    ∃ rl cache1 tailOps,
      resolveList env db view.Header.Height view.Considerations = some rl ∧
      applyAll (dbImbRead db) [] rl = some cache1 ∧
      (∀ cn ∈ view.Considerations, db.considerationIndex (env.idOf cn) = none) ∧
      ((¬(env.prune = true ∧ view.Header.Height ≥ 2 * VIEWS_UNTIL_NEW_SERIES) ∧
          tailOps = []) ∨
        ((env.prune = true ∧ view.Header.Height ≥ 2 * VIEWS_UNTIL_NEW_SERIES) ∧
          pruneOps env db (view.Header.Height - 2 * VIEWS_UNTIL_NEW_SERIES) =
            some tailOps)) ∧
      db1 = applyBatch db
        (connectOps env view.Header.Height 0 view.Considerations ++
          flushOps cache1 ++
          [BatchOp.putHeightIdx view.Header.Height id,
           BatchOp.putBranch id BranchType.MAIN,
           BatchOp.putTip id view.Header.Height] ++ tailOps) := by
  rw [ConnectView] at h
  dsimp only at h
  split at h
  · exact absurd h (by simp)
  · cases hloop : connectLoop env db view.Header.Height 0 view.Considerations [] [] with
    | none => rw [hloop] at h; exact absurd h (by simp)
    | some bc =>
      obtain ⟨batchC, cache1⟩ := bc
      rw [hloop] at h
      dsimp only at h
      obtain ⟨hbc, hhas, rl, hrl, happ⟩ :=
        connectLoop_spec env db view.Header.Height view.Considerations 0 [] []
          batchC cache1 hloop
      split at h
      · next hcond =>
        cases hpr : pruneOps env db (view.Header.Height - 2 * VIEWS_UNTIL_NEW_SERIES) with
        | none => rw [hpr] at h; exact absurd h (by simp)
        | some ops =>
          rw [hpr] at h
          dsimp only at h
          refine ⟨rl, cache1, ops, hrl, happ, hhas, Or.inr ⟨hcond, rfl⟩, ?_⟩
          have hdb1 := (Option.some_inj.mp h).symm
          rw [hbc] at hdb1
          simpa only [List.nil_append] using hdb1
      · next hcond =>
        refine ⟨rl, cache1, [], hrl, happ, hhas, Or.inl ⟨hcond, rfl⟩, ?_⟩
        have hdb1 := (Option.some_inj.mp h).symm
        rw [hbc] at hdb1
        simpa only [List.nil_append, List.append_nil] using hdb1

theorem DisconnectView_shape (env : LedgerEnv) (db : LedgerDB) (id : ViewID)
    (view : View) (db2 : LedgerDB)
    (h : DisconnectView env db id view = some db2) :
    ∃ th, db.pointTip = some (id, th) ∧
    ∃ rl cache2 tailOps,
      resolveList env db view.Header.Height view.Considerations.reverse = some rl ∧
      undoAll (dbImbRead db) [] rl = some cache2 ∧
      ((¬(env.prune = true ∧ view.Header.Height ≥ 2 * VIEWS_UNTIL_NEW_SERIES) ∧
          tailOps = []) ∨
        ((env.prune = true ∧ view.Header.Height ≥ 2 * VIEWS_UNTIL_NEW_SERIES) ∧
          restoreOps env db (view.Header.Height - 2 * VIEWS_UNTIL_NEW_SERIES) =
            some tailOps)) ∧
      db2 = applyBatch db
        (disconnectOps env view.Header.Height
            ((view.Considerations.length : Int) - 1) view.Considerations.reverse ++
          flushOps cache2 ++
          [BatchOp.delHeightIdx view.Header.Height,
           BatchOp.putBranch id BranchType.SIDE,
           BatchOp.putTip view.Header.Previous (view.Header.Height - 1)] ++
          tailOps) := by
  rw [DisconnectView] at h
  cases htip : db.pointTip with
  | none => rw [htip] at h; exact absurd h (by simp)
  | some tp =>
    obtain ⟨tid, th⟩ := tp
    rw [htip] at h
    dsimp only at h
    split at h
    · exact absurd h (by simp)
    · next hne =>
      have htid : tid = id := not_not.mp hne
      subst htid
      cases hloop : disconnectLoop env db view.Header.Height
          ((view.Considerations.length : Int) - 1) view.Considerations.reverse [] [] with
      | none => rw [hloop] at h; exact absurd h (by simp)
      | some bc =>
        obtain ⟨batchD, cache2⟩ := bc
        rw [hloop] at h
        dsimp only at h
        obtain ⟨hbd, rl, hrl, hund⟩ :=
          disconnectLoop_spec env db view.Header.Height view.Considerations.reverse
            ((view.Considerations.length : Int) - 1) [] [] batchD cache2 hloop
        refine ⟨th, rfl, ?_⟩
        split at h
        · next hcond =>
          cases hre : restoreOps env db (view.Header.Height - 2 * VIEWS_UNTIL_NEW_SERIES) with
          | none => rw [hre] at h; exact absurd h (by simp)
          | some ops =>
            rw [hre] at h
            dsimp only at h
            refine ⟨rl, cache2, ops, hrl, hund, Or.inr ⟨hcond, rfl⟩, ?_⟩
            have hdb2 := (Option.some_inj.mp h).symm
            rw [hbd] at hdb2
            simpa only [List.nil_append] using hdb2
        · next hcond =>
          refine ⟨rl, cache2, [], hrl, hund, Or.inl ⟨hcond, rfl⟩, ?_⟩
          have hdb2 := (Option.some_inj.mp h).symm
          rw [hbd] at hdb2
          simpa only [List.nil_append, List.append_nil] using hdb2

theorem idHit_exists (idOf : Consideration → ConsiderationID)
    (cns : List Consideration) (k : ConsiderationID)
    (h : idHit idOf cns k = true) : ∃ cn ∈ cns, k = idOf cn := by
  simpa [idHit, List.any_eq_true, decide_eq_true_eq] using h

/-- The table-by-table content of the connect/disconnect roundtrip,
stated over the decomposed batches.  `tail1`/`tail2` are the pruning and
restoring op lists (empty when pruning is off); the four bridge
hypotheses say that the restore writes reproduce the pre-connect image
and cover the prune deletes. -/
theorem roundtrip_core (env : LedgerEnv) (db0 db1 db2 : LedgerDB) (id : ViewID)
    (view : View) (tail1 tail2 : List BatchOp) (rl0 rl1 : List Consideration)
    (cache1 cache2 : ImbCache)
    (hrl0 : resolveList env db0 view.Header.Height view.Considerations = some rl0)
    (happ1 : applyAll (dbImbRead db0) [] rl0 = some cache1)
    (hhas : ∀ cn ∈ view.Considerations, db0.considerationIndex (env.idOf cn) = none)
    (hdb1 : db1 = applyBatch db0
      (connectOps env view.Header.Height 0 view.Considerations ++
        flushOps cache1 ++
        [BatchOp.putHeightIdx view.Header.Height id,
         BatchOp.putBranch id BranchType.MAIN,
         BatchOp.putTip id view.Header.Height] ++ tail1))
    (hrl1 : resolveList env db1 view.Header.Height view.Considerations.reverse =
      some rl1)
    (hund2 : undoAll (dbImbRead db1) [] rl1 = some cache2)
    (hdb2 : db2 = applyBatch db1
      (disconnectOps env view.Header.Height
          ((view.Considerations.length : Int) - 1) view.Considerations.reverse ++
        flushOps cache2 ++
        [BatchOp.delHeightIdx view.Header.Height,
         BatchOp.putBranch id BranchType.SIDE,
         BatchOp.putTip view.Header.Previous (view.Header.Height - 1)] ++ tail2))
    (htail1shape : ∀ op ∈ tail1,
      (∃ k, op = BatchOp.delConsIdx k) ∨ ∃ kk, op = BatchOp.delPkIdx kk)
    (htail2shape : ∀ op ∈ tail2,
      (∃ k v, op = BatchOp.putConsIdx k v) ∨ ∃ kk, op = BatchOp.putPkIdx kk)
    (hconsSome : ∀ k e, lastEffect (fun op => consEffect op k) tail2 = some e →
      db0.considerationIndex k = e)
    (hconsNone : ∀ k, lastEffect (fun op => consEffect op k) tail2 = none →
      lastEffect (fun op => consEffect op k) tail1 = none)
    (hpkSome : ∀ k e, lastEffect (fun op => pkEffect op k) tail2 = some e →
      db0.pubKeyConsiderationIndex k = e)
    (hpkNone : ∀ k, lastEffect (fun op => pkEffect op k) tail2 = none →
      lastEffect (fun op => pkEffect op k) tail1 = none)
    (htip : db0.pointTip = some (view.Header.Previous, view.Header.Height - 1))
    (hh0 : db0.viewHeightIndex view.Header.Height = none)
    (hpk : ∀ pk i, db0.pubKeyConsiderationIndex (pk, view.Header.Height, i) = none)
    (himb0 : ∀ pk v, alGet db0.pubKeyImbalance pk = some v → v ≠ 0) :
    (∀ k, db2.considerationIndex k = db0.considerationIndex k) ∧
    (∀ k, db2.pubKeyConsiderationIndex k = db0.pubKeyConsiderationIndex k) ∧
    (∀ pk, alGet db2.pubKeyImbalance pk = alGet db0.pubKeyImbalance pk) ∧
    (∀ q, db2.viewHeightIndex q = db0.viewHeightIndex q) ∧
    db2.pointTip = db0.pointTip ∧
    db2.branchType id = some BranchType.SIDE ∧
    (∀ id2, id2 ≠ id → db2.branchType id2 = db0.branchType id2) := by
  have hCOn : ∀ {α : Type} (f : BatchOp → Option α),
      (∀ k v, f (BatchOp.putConsIdx k v) = none) →
      (∀ kk, f (BatchOp.putPkIdx kk) = none) →
      lastEffect f (connectOps env view.Header.Height 0 view.Considerations) =
        none := by
    intro α f h1 h2
    refine lastEffect_none f _ (fun op hop => ?_)
    rcases mem_connectOps env view.Header.Height view.Considerations 0 op hop with
      ⟨a, b, rfl⟩ | ⟨kk, rfl⟩
    exacts [h1 a b, h2 kk]
  have hDOn : ∀ {α : Type} (f : BatchOp → Option α),
      (∀ k, f (BatchOp.delConsIdx k) = none) →
      (∀ kk, f (BatchOp.delPkIdx kk) = none) →
      lastEffect f (disconnectOps env view.Header.Height
        ((view.Considerations.length : Int) - 1) view.Considerations.reverse) =
        none := by
    intro α f h1 h2
    refine lastEffect_none f _ (fun op hop => ?_)
    rcases mem_disconnectOps env view.Header.Height view.Considerations.reverse
        ((view.Considerations.length : Int) - 1) op hop with ⟨a, rfl⟩ | ⟨kk, rfl⟩
    exacts [h1 a, h2 kk]
  have hT1n : ∀ {α : Type} (f : BatchOp → Option α),
      (∀ k, f (BatchOp.delConsIdx k) = none) →
      (∀ kk, f (BatchOp.delPkIdx kk) = none) →
      lastEffect f tail1 = none := by
    intro α f h1 h2
    refine lastEffect_none f _ (fun op hop => ?_)
    rcases htail1shape op hop with ⟨a, rfl⟩ | ⟨kk, rfl⟩
    exacts [h1 a, h2 kk]
  have hT2n : ∀ {α : Type} (f : BatchOp → Option α),
      (∀ k v, f (BatchOp.putConsIdx k v) = none) →
      (∀ kk, f (BatchOp.putPkIdx kk) = none) →
      lastEffect f tail2 = none := by
    intro α f h1 h2
    refine lastEffect_none f _ (fun op hop => ?_)
    rcases htail2shape op hop with ⟨a, b, rfl⟩ | ⟨kk, rfl⟩
    exacts [h1 a b, h2 kk]
  have hFn : ∀ {α : Type} (cache : ImbCache) (f : BatchOp → Option α),
      (∀ pk v, f (BatchOp.putImb pk v) = none) →
      (∀ pk, f (BatchOp.delImb pk) = none) →
      lastEffect f (flushOps cache) = none := by
    intro α cache f h1 h2
    refine lastEffect_none f _ (fun op hop => ?_)
    rcases mem_flushOps cache op hop with ⟨a, b, rfl⟩ | ⟨a, rfl⟩
    exacts [h1 a b, h2 a]
  -- db1's height index differs from db0's only at the connected height.
  have hhidx1 : ∀ q, q ≠ view.Header.Height →
      db1.viewHeightIndex q = db0.viewHeightIndex q := by
    intro q hq
    rw [hdb1, applyBatch_heightIdx, lastEffect_append, lastEffect_append,
      lastEffect_append]
    rw [hT1n (fun op => heightEffect op q) (fun _ => rfl) (fun _ => rfl)]
    rw [show lastEffect (fun op => heightEffect op q)
        [BatchOp.putHeightIdx view.Header.Height id,
         BatchOp.putBranch id BranchType.MAIN,
         BatchOp.putTip id view.Header.Height] = none from by
      simp [lastEffect, List.foldl_cons, List.foldl_nil, heightEffect, hq]]
    rw [hFn cache1 (fun op => heightEffect op q) (fun _ _ => rfl) (fun _ => rfl)]
    rw [hCOn (fun op => heightEffect op q) (fun _ _ => rfl) (fun _ => rfl)]
    rfl
  -- branch types away from `id` are untouched by the connect batch.
  have hbr1 : ∀ b, b ≠ id → db1.branchType b = db0.branchType b := by
    intro b hb
    rw [hdb1, applyBatch_branch, lastEffect_append, lastEffect_append,
      lastEffect_append]
    rw [hT1n (fun op => branchEffect op b) (fun _ => rfl) (fun _ => rfl)]
    rw [show lastEffect (fun op => branchEffect op b)
        [BatchOp.putHeightIdx view.Header.Height id,
         BatchOp.putBranch id BranchType.MAIN,
         BatchOp.putTip id view.Header.Height] = none from by
      simp [lastEffect, List.foldl_cons, List.foldl_nil, branchEffect, hb]]
    rw [hFn cache1 (fun op => branchEffect op b) (fun _ _ => rfl) (fun _ => rfl)]
    rw [hCOn (fun op => branchEffect op b) (fun _ _ => rfl) (fun _ => rfl)]
    rfl
  -- the imbalance table after connect, per key, via the flush of cache1.
  have hnd1 : (cache1.map Prod.fst).Nodup :=
    applyAll_nodup (dbImbRead db0) rl0 [] cache1 (by simp) happ1
  have hc1 : ∀ pk, alGet cache1 pk =
      (extendD (fun _ => none) rl0 pk).map (fun d => dbImbRead db0 pk + d) :=
    applyAll_char (dbImbRead db0) rl0 [] cache1 (fun _ => none) (fun _ => rfl) happ1
  have himb1 : ∀ pk, alGet db1.pubKeyImbalance pk =
      (lastEffect (fun op => imbEffect op pk) (flushOps cache1)).getD
        (alGet db0.pubKeyImbalance pk) := by
    intro pk
    rw [hdb1, applyBatch_imb, lastEffect_append, lastEffect_append, lastEffect_append]
    rw [hT1n (fun op => imbEffect op pk) (fun _ => rfl) (fun _ => rfl)]
    rw [show lastEffect (fun op => imbEffect op pk)
        [BatchOp.putHeightIdx view.Header.Height id,
         BatchOp.putBranch id BranchType.MAIN,
         BatchOp.putTip id view.Header.Height] = none from by
      simp [lastEffect, List.foldl_cons, List.foldl_nil, imbEffect]]
    rw [hCOn (fun op => imbEffect op pk) (fun _ _ => rfl) (fun _ => rfl)]
    cases hF : lastEffect (fun op => imbEffect op pk) (flushOps cache1) <;>
      simp [hF, Option.or]
  -- the resolved list of the disconnect is the reverse of the connect's.
  have hrl1v : rl1 = rl0.reverse := by
    have hcongr := resolveList_congr env db0 db1 view.Header.Height
      (hhidx1 (view.Header.Height - VIEWPOINT_MATURITY)
        (by unfold VIEWPOINT_MATURITY; omega)) view.Considerations.reverse
    rw [hcongr, resolveList_reverse, hrl0] at hrl1
    exact (Option.some_inj.mp hrl1).symm
  have hr1 : ∀ pk, touchedIn rl0 pk = true →
      dbImbRead db1 pk = dbImbRead db0 pk + deltaOf rl0 pk := by
    intro pk ht
    have h1 : alGet cache1 pk = some (dbImbRead db0 pk + deltaOf rl0 pk) := by
      rw [hc1 pk]
      simp [extendD, ht]
    rw [dbImbRead, himb1 pk, lastEffect_flushOps cache1 pk hnd1, h1]
    dsimp only
    by_cases hv : dbImbRead db0 pk + deltaOf rl0 pk = 0
    · rw [if_pos hv]
      simp [hv]
    · rw [if_neg hv]
      simp
  have hnd2 : (cache2.map Prod.fst).Nodup :=
    undoAll_nodup (dbImbRead db1) rl1 [] cache2 (by simp) hund2
  have hc2 : ∀ pk, alGet cache2 pk =
      (shrinkD (fun _ => none) rl1 pk).map (fun d => dbImbRead db1 pk + d) :=
    undoAll_char (dbImbRead db1) rl1 [] cache2 (fun _ => none) (fun _ => rfl) hund2
  have himb2 : ∀ pk, alGet db2.pubKeyImbalance pk =
      (lastEffect (fun op => imbEffect op pk) (flushOps cache2)).getD
        (alGet db1.pubKeyImbalance pk) := by
    intro pk
    rw [hdb2, applyBatch_imb, lastEffect_append, lastEffect_append, lastEffect_append]
    rw [hT2n (fun op => imbEffect op pk) (fun _ _ => rfl) (fun _ => rfl)]
    rw [show lastEffect (fun op => imbEffect op pk)
        [BatchOp.delHeightIdx view.Header.Height,
         BatchOp.putBranch id BranchType.SIDE,
         BatchOp.putTip view.Header.Previous (view.Header.Height - 1)] = none from by
      simp [lastEffect, List.foldl_cons, List.foldl_nil, imbEffect]]
    rw [hDOn (fun op => imbEffect op pk) (fun _ => rfl) (fun _ => rfl)]
    cases hF : lastEffect (fun op => imbEffect op pk) (flushOps cache2) <;>
      simp [hF, Option.or]
  refine ⟨?_, ?_, ?_, ?_, ?_, ?_, ?_⟩
  · -- consideration index
    intro k
    rw [hdb2, applyBatch_consIdx, lastEffect_append, lastEffect_append,
      lastEffect_append]
    rw [show lastEffect (fun op => consEffect op k)
        [BatchOp.delHeightIdx view.Header.Height,
         BatchOp.putBranch id BranchType.SIDE,
         BatchOp.putTip view.Header.Previous (view.Header.Height - 1)] = none from by
      simp [lastEffect, List.foldl_cons, List.foldl_nil, consEffect]]
    rw [hFn cache2 (fun op => consEffect op k) (fun _ _ => rfl) (fun _ => rfl)]
    cases hR : lastEffect (fun op => consEffect op k) tail2 with
    | some e =>
      exact (hconsSome k e hR).symm
    | none =>
      simp only [hR, Option.none_or]
      rw [lastEffect_cons_disconnectOps env view.Header.Height k
        view.Considerations.reverse ((view.Considerations.length : Int) - 1)]
      cases hidr : idHit env.idOf view.Considerations.reverse k with
      | true =>
        simp only [hidr, if_pos, Option.getD_some]
        obtain ⟨cn, hcn, rfl⟩ := idHit_exists env.idOf view.Considerations.reverse k hidr
        exact (hhas cn (List.mem_reverse.mp hcn)).symm
      | false =>
        simp only [hidr, Bool.false_eq_true, if_false, Option.getD_none]
        rw [hdb1, applyBatch_consIdx, lastEffect_append, lastEffect_append,
          lastEffect_append]
        rw [hconsNone k hR]
        rw [show lastEffect (fun op => consEffect op k)
            [BatchOp.putHeightIdx view.Header.Height id,
             BatchOp.putBranch id BranchType.MAIN,
             BatchOp.putTip id view.Header.Height] = none from by
          simp [lastEffect, List.foldl_cons, List.foldl_nil, consEffect]]
        rw [hFn cache1 (fun op => consEffect op k) (fun _ _ => rfl) (fun _ => rfl)]
        rw [(lastEffect_cons_connectOps_none_iff env view.Header.Height k
          view.Considerations 0).mpr (by rw [← idHit_reverse]; exact hidr)]
        rfl
  · -- public-key consideration index
    intro k
    rw [hdb2, applyBatch_pkIdx, lastEffect_append, lastEffect_append,
      lastEffect_append]
    rw [show lastEffect (fun op => pkEffect op k)
        [BatchOp.delHeightIdx view.Header.Height,
         BatchOp.putBranch id BranchType.SIDE,
         BatchOp.putTip view.Header.Previous (view.Header.Height - 1)] = none from by
      simp [lastEffect, List.foldl_cons, List.foldl_nil, pkEffect]]
    rw [hFn cache2 (fun op => pkEffect op k) (fun _ _ => rfl) (fun _ => rfl)]
    cases hR : lastEffect (fun op => pkEffect op k) tail2 with
    | some e =>
      exact (hpkSome k e hR).symm
    | none =>
      simp only [hR, Option.none_or]
      rw [lastEffect_pk_disconnectOps env view.Header.Height k
        view.Considerations.reverse ((view.Considerations.length : Int) - 1)]
      have hbr := pkHitDesc_reverse view.Header.Height k view.Considerations 0
      rw [show (0 : Int) + (view.Considerations.length : Int) - 1 =
        (view.Considerations.length : Int) - 1 from by ring] at hbr
      rw [hbr]
      cases hhit : pkHit view.Header.Height 0 view.Considerations k with
      | true =>
        simp only [hhit, if_pos, Option.getD_some]
        have hkh := pkHit_height view.Header.Height k view.Considerations 0 hhit
        obtain ⟨kpk, kh, ki⟩ := k
        dsimp at hkh
        subst hkh
        exact (hpk kpk ki).symm
      | false =>
        simp only [hhit, Bool.false_eq_true, if_false, Option.getD_none]
        rw [hdb1, applyBatch_pkIdx, lastEffect_append, lastEffect_append,
          lastEffect_append]
        rw [hpkNone k hR]
        rw [show lastEffect (fun op => pkEffect op k)
            [BatchOp.putHeightIdx view.Header.Height id,
             BatchOp.putBranch id BranchType.MAIN,
             BatchOp.putTip id view.Header.Height] = none from by
          simp [lastEffect, List.foldl_cons, List.foldl_nil, pkEffect]]
        rw [hFn cache1 (fun op => pkEffect op k) (fun _ _ => rfl) (fun _ => rfl)]
        rw [lastEffect_pk_connectOps env view.Header.Height k view.Considerations 0]
        simp only [hhit, Bool.false_eq_true, if_false, Option.none_or, Option.getD_none]
  · -- imbalances
    intro pk
    cases ht : touchedIn rl0 pk with
    | false =>
      have h1 : alGet cache1 pk = none := by
        rw [hc1 pk]; simp [extendD, ht]
      have h2 : alGet cache2 pk = none := by
        rw [hc2 pk, hrl1v]; simp [shrinkD, touchedIn_reverse, ht]
      rw [himb2 pk, lastEffect_flushOps cache2 pk hnd2, h2, himb1 pk,
        lastEffect_flushOps cache1 pk hnd1, h1]
      rfl
    | true =>
      have h2 : alGet cache2 pk = some (dbImbRead db0 pk) := by
        rw [hc2 pk, hrl1v]
        rw [show shrinkD (fun _ => none) rl0.reverse pk =
            some (0 - deltaOf rl0 pk) from by
          simp [shrinkD, touchedIn_reverse, deltaOf_reverse, ht]]
        rw [Option.map_some', hr1 pk ht]
        congr 1
        ring
      rw [himb2 pk, lastEffect_flushOps cache2 pk hnd2, h2]
      dsimp only
      by_cases hz : dbImbRead db0 pk = 0
      · rw [if_pos hz]
        cases hget : alGet db0.pubKeyImbalance pk with
        | none => rfl
        | some v =>
          exfalso
          apply himb0 pk v hget
          rw [dbImbRead, hget] at hz
          simpa using hz
      · rw [if_neg hz]
        cases hget : alGet db0.pubKeyImbalance pk with
        | none =>
          exfalso
          apply hz
          rw [dbImbRead, hget]
          rfl
        | some v =>
          rw [dbImbRead, hget]
          simp
  · -- height index
    intro q
    by_cases hq : q = view.Header.Height
    · rw [hdb2, applyBatch_heightIdx, lastEffect_append, lastEffect_append,
        lastEffect_append]
      rw [hT2n (fun op => heightEffect op q) (fun _ _ => rfl) (fun _ => rfl)]
      rw [show lastEffect (fun op => heightEffect op q)
          [BatchOp.delHeightIdx view.Header.Height,
           BatchOp.putBranch id BranchType.SIDE,
           BatchOp.putTip view.Header.Previous (view.Header.Height - 1)] =
            some none from by
        simp [lastEffect, List.foldl_cons, List.foldl_nil, heightEffect,
          branchEffect, tipEffect, Option.or, hq]]
      show none = db0.viewHeightIndex q
      rw [hq, hh0]
    · rw [hdb2, applyBatch_heightIdx, lastEffect_append, lastEffect_append,
        lastEffect_append]
      rw [hT2n (fun op => heightEffect op q) (fun _ _ => rfl) (fun _ => rfl)]
      rw [show lastEffect (fun op => heightEffect op q)
          [BatchOp.delHeightIdx view.Header.Height,
           BatchOp.putBranch id BranchType.SIDE,
           BatchOp.putTip view.Header.Previous (view.Header.Height - 1)] =
            none from by
        simp [lastEffect, List.foldl_cons, List.foldl_nil, heightEffect, hq]]
      rw [hFn cache2 (fun op => heightEffect op q) (fun _ _ => rfl) (fun _ => rfl)]
      rw [hDOn (fun op => heightEffect op q) (fun _ => rfl) (fun _ => rfl)]
      show db1.viewHeightIndex q = db0.viewHeightIndex q
      exact hhidx1 q hq
  · -- point tip
    rw [hdb2, applyBatch_tip, lastEffect_append, lastEffect_append, lastEffect_append]
    rw [hT2n tipEffect (fun _ _ => rfl) (fun _ => rfl)]
    rw [show lastEffect tipEffect
        [BatchOp.delHeightIdx view.Header.Height,
         BatchOp.putBranch id BranchType.SIDE,
         BatchOp.putTip view.Header.Previous (view.Header.Height - 1)] =
          some (some (view.Header.Previous, view.Header.Height - 1)) from by
      simp [lastEffect, List.foldl_cons, List.foldl_nil, tipEffect,
        branchEffect, heightEffect, Option.or]]
    rw [htip]
    rfl
  · -- the view's branch type flips to SIDE
    rw [hdb2, applyBatch_branch, lastEffect_append, lastEffect_append,
      lastEffect_append]
    rw [hT2n (fun op => branchEffect op id) (fun _ _ => rfl) (fun _ => rfl)]
    rw [show lastEffect (fun op => branchEffect op id)
        [BatchOp.delHeightIdx view.Header.Height,
         BatchOp.putBranch id BranchType.SIDE,
         BatchOp.putTip view.Header.Previous (view.Header.Height - 1)] =
          some (some BranchType.SIDE) from by
      simp [lastEffect, List.foldl_cons, List.foldl_nil, branchEffect,
        heightEffect, tipEffect, Option.or]]
    rfl
  · -- all other branch types are untouched
    intro id2 hid2
    rw [hdb2, applyBatch_branch, lastEffect_append, lastEffect_append,
      lastEffect_append]
    rw [hT2n (fun op => branchEffect op id2) (fun _ _ => rfl) (fun _ => rfl)]
    rw [show lastEffect (fun op => branchEffect op id2)
        [BatchOp.delHeightIdx view.Header.Height,
         BatchOp.putBranch id BranchType.SIDE,
         BatchOp.putTip view.Header.Previous (view.Header.Height - 1)] =
          none from by
      simp [lastEffect, List.foldl_cons, List.foldl_nil, branchEffect, hid2]]
    rw [hFn cache2 (fun op => branchEffect op id2) (fun _ _ => rfl) (fun _ => rfl)]
    rw [hDOn (fun op => branchEffect op id2) (fun _ => rfl) (fun _ => rfl)]
    show db1.branchType id2 = db0.branchType id2
    exact hbr1 id2 hid2

/-- C1 (counterexample to the claim as stated): `ConnectView` checks only
that the stored tip ID equals the view's `Previous`; it never compares
the stored tip height with the view's height.  Connecting a height-1
view on a store whose tip record is `([5], 7)` succeeds, and the
disconnect then rewrites the tip to `(Previous, height - 1) = ([5], 0)`:
the point-tip key-value after the roundtrip differs from its
pre-`ConnectView` value `([5], 7)`, refuting the universally quantified
claim. -/
theorem c1_roundtrip_tip_counterexample :
    ConnectView c1env c1xdb0 c1id c1xview = some c1xdb1 ∧
    DisconnectView c1env c1xdb1 c1id c1xview = some c1xdb2 ∧
    c1xdb2.pointTip = some ([5], 0) ∧
    c1xdb0.pointTip = some ([5], 7) := by
  exact ⟨rfl, rfl, rfl, rfl⟩

/-- C1 (amended): if the store is consistent with the connect — the
stored tip is `(view.Previous, view.Height - 1)`, nothing is stored at
the connecting height in the height index or the public-key
consideration index, no zero imbalance is stored, and (when pruning is
active) the restore writes at the pruning horizon reproduce the stored
image — then after `ConnectView(id, V)` followed by
`DisconnectView(id, V)` every persistent ledger key-value (public-key
imbalances, consideration indices, public-key consideration indices,
height-to-view index, and point tip) equals its pre-`ConnectView` value,
and V's branch type has become `SIDE` (other branch types unchanged).
Without the stored-tip-height hypothesis the point-tip clause fails,
because the code checks only the stored tip ID. -/
theorem c1_connect_disconnect_roundtrip (env : LedgerEnv)
    (db0 db1 db2 : LedgerDB) (id : ViewID) (view : View)
    (htip : db0.pointTip = some (view.Header.Previous, view.Header.Height - 1))
    (hh0 : db0.viewHeightIndex view.Header.Height = none)
    (hpk : ∀ pk i, db0.pubKeyConsiderationIndex (pk, view.Header.Height, i) = none)
    (himb0 : ∀ pk v, alGet db0.pubKeyImbalance pk = some v → v ≠ 0)
    (hprune : env.prune = true → view.Header.Height ≥ 2 * VIEWS_UNTIL_NEW_SERIES →
      pruneRoundtripSafe env db0 view.Header.Height)
    (hconn : ConnectView env db0 id view = some db1)
    (hdisc : DisconnectView env db1 id view = some db2) :
    (∀ k, db2.considerationIndex k = db0.considerationIndex k) ∧
    (∀ k, db2.pubKeyConsiderationIndex k = db0.pubKeyConsiderationIndex k) ∧
    (∀ pk, alGet db2.pubKeyImbalance pk = alGet db0.pubKeyImbalance pk) ∧
    (∀ q, db2.viewHeightIndex q = db0.viewHeightIndex q) ∧
    db2.pointTip = db0.pointTip ∧
    db2.branchType id = some BranchType.SIDE ∧
    (∀ id2, id2 ≠ id → db2.branchType id2 = db0.branchType id2) := by
  obtain ⟨rl0, cache1, tail1, hrl0, happ1, hhas, htail1, hdb1⟩ :=
    ConnectView_shape env db0 id view db1 hconn
  obtain ⟨th, htipd, rl1, cache2, tail2, hrl1, hund2, htail2, hdb2⟩ :=
    DisconnectView_shape env db1 id view db2 hdisc
  rcases htail1 with ⟨hnC, htl1⟩ | ⟨hC, hpr1⟩
  · rcases htail2 with ⟨_, htl2⟩ | ⟨hC2, _⟩
    · subst htl1
      subst htl2
      refine roundtrip_core env db0 db1 db2 id view [] [] rl0 rl1 cache1 cache2
        hrl0 happ1 hhas hdb1 hrl1 hund2 hdb2
        (fun op hop => absurd hop (List.not_mem_nil op))
        (fun op hop => absurd hop (List.not_mem_nil op))
        (fun k e he => by simp [lastEffect] at he)
        (fun k _ => rfl)
        (fun k e he => by simp [lastEffect] at he)
        (fun k _ => rfl)
        htip hh0 hpk himb0
    · exact absurd hC2 hnC
  · rcases htail2 with ⟨hnC2, _⟩ | ⟨_, hre2⟩
    · exact absurd hC hnC2
    · obtain ⟨pid, w, hvh0, hgw, hwh, hRTcons, hRTpk⟩ := hprune hC.1 hC.2
      unfold pruneOps at hpr1
      rw [hvh0] at hpr1
      dsimp only at hpr1
      rw [hgw] at hpr1
      dsimp only at hpr1
      have htl1 : tail1 = pruneList env w.Header.Height 0 w.Considerations :=
        (Option.some_inj.mp hpr1).symm
      have htail1shape : ∀ op ∈ tail1,
          (∃ k, op = BatchOp.delConsIdx k) ∨ ∃ kk, op = BatchOp.delPkIdx kk := by
        rw [htl1]
        exact fun op hop => mem_pruneList env w.Header.Height w.Considerations 0 op hop
      have hph : view.Header.Height - 2 * VIEWS_UNTIL_NEW_SERIES ≠
          view.Header.Height := by
        unfold VIEWS_UNTIL_NEW_SERIES
        omega
      have hhidx1 : db1.viewHeightIndex
            (view.Header.Height - 2 * VIEWS_UNTIL_NEW_SERIES) =
          db0.viewHeightIndex (view.Header.Height - 2 * VIEWS_UNTIL_NEW_SERIES) := by
        rw [hdb1, applyBatch_heightIdx, lastEffect_append, lastEffect_append,
          lastEffect_append]
        rw [lastEffect_none _ tail1 (fun op hop => by
          rcases htail1shape op hop with ⟨a, rfl⟩ | ⟨kk, rfl⟩ <;> rfl)]
        rw [show lastEffect
            (fun op => heightEffect op
              (view.Header.Height - 2 * VIEWS_UNTIL_NEW_SERIES))
            [BatchOp.putHeightIdx view.Header.Height id,
             BatchOp.putBranch id BranchType.MAIN,
             BatchOp.putTip id view.Header.Height] = none from by
          simp [lastEffect, List.foldl_cons, List.foldl_nil, heightEffect, hph]]
        rw [lastEffect_none _ (flushOps cache1) (fun op hop => by
          rcases mem_flushOps cache1 op hop with ⟨a, b, rfl⟩ | ⟨a, rfl⟩ <;> rfl)]
        rw [lastEffect_none _ _ (fun op hop => by
          rcases mem_connectOps env view.Header.Height view.Considerations 0 op hop
            with ⟨a, b, rfl⟩ | ⟨kk, rfl⟩ <;> rfl)]
        rfl
      unfold restoreOps at hre2
      rw [hhidx1, hvh0] at hre2
      dsimp only at hre2
      rw [hgw] at hre2
      dsimp only at hre2
      have htl2 : tail2 = restoreList env w.Header.Height 0 w.Considerations :=
        (Option.some_inj.mp hre2).symm
      have htail2shape : ∀ op ∈ tail2,
          (∃ k v, op = BatchOp.putConsIdx k v) ∨ ∃ kk, op = BatchOp.putPkIdx kk := by
        rw [htl2, restoreList_eq_connectOps]
        exact fun op hop => mem_connectOps env w.Header.Height w.Considerations 0 op hop
      refine roundtrip_core env db0 db1 db2 id view tail1 tail2 rl0 rl1 cache1 cache2
        hrl0 happ1 hhas hdb1 hrl1 hund2 hdb2 htail1shape htail2shape
        ?_ ?_ ?_ ?_ htip hh0 hpk himb0
      · intro k e he
        rw [htl2] at he
        exact hRTcons k e he
      · intro k hnone
        rw [htl2, restoreList_eq_connectOps] at hnone
        have hid := (lastEffect_cons_connectOps_none_iff env w.Header.Height k
          w.Considerations 0).mp hnone
        rw [htl1, lastEffect_cons_pruneList env w.Header.Height k w.Considerations 0]
        simp [hid]
      · intro k e he
        rw [htl2] at he
        exact hRTpk k e he
      · intro k hnone
        rw [htl2, restoreList_eq_connectOps,
          lastEffect_pk_connectOps env w.Header.Height k w.Considerations 0] at hnone
        have hhit : pkHit w.Header.Height 0 w.Considerations k = false := by
          cases hy : pkHit w.Header.Height 0 w.Considerations k
          · rfl
          · rw [hy] at hnone
            simp at hnone
        rw [htl1, lastEffect_pk_pruneList env w.Header.Height k w.Considerations 0]
        simp [hhit]

/-- C1 witness: the amended roundtrip theorem applied to a concrete
height-0 connect/disconnect pair on a consistent store. -/
theorem c1_connect_disconnect_roundtrip_witness :
    c1db2.pointTip = c1db0.pointTip ∧
    c1db2.branchType c1id = some BranchType.SIDE ∧
    c1db2.considerationIndex [9] = c1db0.considerationIndex [9] := by
  have h := c1_connect_disconnect_roundtrip c1env c1db0 c1db1 c1db2 c1id c1view
    (by decide) rfl (fun _ _ => rfl)
    (fun pk v hv => Option.noConfusion hv)
    (fun hp _ => Bool.noConfusion hp)
    rfl rfl
  exact ⟨h.2.2.2.2.1, h.2.2.2.2.2.1, h.1 [9]⟩

/-! ### Imbalance-sum accounting -/

theorem sum_map_add {α : Type} (K : List α) (f g : α → Int) :
    (K.map (fun x => f x + g x)).sum = (K.map f).sum + (K.map g).sum := by
  induction K with
  | nil => simp
  | cons a t ih =>
    simp only [List.map_cons, List.sum_cons, ih]
    ring

theorem sum_map_sub {α : Type} (K : List α) (f g : α → Int) :
    (K.map (fun x => f x - g x)).sum = (K.map f).sum - (K.map g).sum := by
  induction K with
  | nil => simp
  | cons a t ih =>
    simp only [List.map_cons, List.sum_cons, ih]
    ring

theorem sum_map_zero_sub {α : Type} (K : List α) (g : α → Int) :
    (K.map (fun x => 0 - g x)).sum = 0 - (K.map g).sum := by
  induction K with
  | nil => simp
  | cons a t ih =>
    simp only [List.map_cons, List.sum_cons, ih]
    ring

theorem sum_if_eq {α : Type} [DecidableEq α] (K : List α) (a : α) (hnd : K.Nodup) :
    (K.map (fun x => if a = x then (1 : Int) else 0)).sum =
      if a ∈ K then 1 else 0 := by
  induction K with
  | nil => simp
  | cons k t ih =>
    rw [List.nodup_cons] at hnd
    obtain ⟨hk, hnd2⟩ := hnd
    rw [List.map_cons, List.sum_cons, ih hnd2]
    by_cases hak : a = k
    · subst hak
      rw [if_pos rfl, if_neg hk, if_pos (List.mem_cons_self a t)]
      ring
    · rw [if_neg hak]
      by_cases hat : a ∈ t
      · rw [if_pos hat, if_pos (List.mem_cons_of_mem k hat)]
        ring
      · rw [if_neg hat, if_neg (by simp [hak, hat])]
        ring

theorem applyBatch_append (db : LedgerDB) (a b : List BatchOp) :
    applyBatch db (a ++ b) = applyBatch (applyBatch db a) b := by
  unfold applyBatch
  rw [List.foldl_append]

theorem applyBatch_flushOps_table :
    ∀ (cache : ImbCache) (db : LedgerDB),
    (applyBatch db (flushOps cache)).pubKeyImbalance =
      flushTable cache db.pubKeyImbalance := by
  intro cache
  induction cache with
  | nil => intro db; rfl
  | cons e rest ih =>
    intro db
    obtain ⟨pk, v⟩ := e
    rw [show flushOps ((pk, v) :: rest) =
      (if v = 0 then BatchOp.delImb pk else BatchOp.putImb pk v) :: flushOps rest
      from rfl]
    rw [show applyBatch db
        ((if v = 0 then BatchOp.delImb pk else BatchOp.putImb pk v) :: flushOps rest) =
      applyBatch (applyOp db (if v = 0 then BatchOp.delImb pk else BatchOp.putImb pk v))
        (flushOps rest) from rfl]
    rw [ih]
    rw [show flushTable ((pk, v) :: rest) db.pubKeyImbalance =
      flushTable rest
        (if v = 0 then alErase db.pubKeyImbalance pk
         else alSet db.pubKeyImbalance pk v) from rfl]
    by_cases hv : v = 0
    · rw [if_pos hv, if_pos hv]
      rfl
    · rw [if_neg hv, if_neg hv]
      rfl

theorem flushTable_nodup : ∀ (cache : ImbCache) (l : List (PubKey × Int)),
    (l.map Prod.fst).Nodup → ((flushTable cache l).map Prod.fst).Nodup := by
  intro cache
  induction cache with
  | nil => intro l h; exact h
  | cons e rest ih =>
    intro l h
    obtain ⟨pk, v⟩ := e
    rw [show flushTable ((pk, v) :: rest) l =
      flushTable rest (if v = 0 then alErase l pk else alSet l pk v) from rfl]
    by_cases hv : v = 0
    · rw [if_pos hv]
      exact ih _ (nodup_alErase l pk h)
    · rw [if_neg hv]
      exact ih _ (nodup_alSet l pk v h)

theorem flushTable_zero_free : ∀ (cache : ImbCache) (l : List (PubKey × Int)),
    (∀ pk v, alGet l pk = some v → v ≠ 0) →
    (∀ pk v, alGet (flushTable cache l) pk = some v → v ≠ 0) := by
  intro cache
  induction cache with
  | nil => intro l h; exact h
  | cons e rest ih =>
    intro l h
    obtain ⟨pk, v⟩ := e
    rw [show flushTable ((pk, v) :: rest) l =
      flushTable rest (if v = 0 then alErase l pk else alSet l pk v) from rfl]
    by_cases hv : v = 0
    · rw [if_pos hv]
      refine ih _ (fun pk2 v2 hg => ?_)
      rw [alGet_alErase] at hg
      split at hg
      · exact absurd hg (by simp)
      · exact h pk2 v2 hg
    · rw [if_neg hv]
      refine ih _ (fun pk2 v2 hg => ?_)
      rw [alGet_alSet] at hg
      split at hg
      · intro h0
        exact hv (by rw [Option.some_inj.mp hg, h0])
      · exact h pk2 v2 hg

theorem flushTable_sum : ∀ (cache : ImbCache) (l : List (PubKey × Int)),
    (cache.map Prod.fst).Nodup → (l.map Prod.fst).Nodup →
    ((flushTable cache l).map Prod.snd).sum =
      (l.map Prod.snd).sum +
        (cache.map (fun e => e.2 - (alGet l e.1).getD 0)).sum := by
  intro cache
  induction cache with
  | nil => intro l _ _; simp [flushTable]
  | cons e rest ih =>
    intro l hndc hndl
    obtain ⟨pk, v⟩ := e
    rw [List.map_cons, List.nodup_cons] at hndc
    obtain ⟨hpk, hndr⟩ := hndc
    rw [show flushTable ((pk, v) :: rest) l =
      flushTable rest (if v = 0 then alErase l pk else alSet l pk v) from rfl]
    rw [List.map_cons, List.sum_cons]
    by_cases hv : v = 0
    · rw [if_pos hv]
      rw [ih (alErase l pk) hndr (nodup_alErase l pk hndl)]
      rw [sum_alErase l pk hndl]
      have hcongr : rest.map (fun e => e.2 - (alGet (alErase l pk) e.1).getD 0) =
          rest.map (fun e => e.2 - (alGet l e.1).getD 0) := by
        refine List.map_congr_left (fun e he => ?_)
        have hne : pk ≠ e.1 := fun hEq => hpk (by
          rw [hEq]; exact List.mem_map.mpr ⟨e, he, rfl⟩)
        rw [alGet_alErase, if_neg hne]
      rw [hcongr, hv]
      ring
    · rw [if_neg hv]
      rw [ih (alSet l pk v) hndr (nodup_alSet l pk v hndl)]
      rw [sum_alSet l pk v]
      have hcongr : rest.map (fun e => e.2 - (alGet (alSet l pk v) e.1).getD 0) =
          rest.map (fun e => e.2 - (alGet l e.1).getD 0) := by
        refine List.map_congr_left (fun e he => ?_)
        have hne : pk ≠ e.1 := fun hEq => hpk (by
          rw [hEq]; exact List.mem_map.mpr ⟨e, he, rfl⟩)
        rw [alGet_alSet, if_neg hne]
      rw [hcongr]
      ring

theorem sum_deltaOf : ∀ (L : List Consideration) (K : List PubKey), K.Nodup →
    (∀ pk, touchedIn L pk = true → pk ∈ K) →
    (K.map (fun pk => deltaOf L pk)).sum = netVP L := by
  intro L
  induction L with
  | nil =>
    intro K _ _
    rw [show K.map (fun pk => deltaOf [] pk) = K.map (fun _ => (0 : Int)) from
      List.map_congr_left (fun pk _ => deltaOf_nil pk)]
    simp [netVP]
  | cons c rest ih =>
    intro K hnd hcov
    have hcovr : ∀ pk, touchedIn rest pk = true → pk ∈ K := fun pk hp =>
      hcov pk (by rw [touchedIn_cons, hp]; simp)
    rw [show K.map (fun pk => deltaOf (c :: rest) pk) =
      K.map (fun pk =>
        ((if c.For = pk then (1 : Int) else 0) -
          (if c.By = some pk then 1 else 0)) + deltaOf rest pk) from
      List.map_congr_left (fun pk _ => deltaOf_cons c rest pk)]
    rw [sum_map_add, ih K hnd hcovr, sum_map_sub]
    rw [show netVP (c :: rest) =
      (if c.By = none then (1 : Int) else 0) + netVP rest from by simp [netVP]]
    have hFor : c.For ∈ K := hcov c.For (by simp [touchedIn, touches])
    rw [sum_if_eq K c.For hnd, if_pos hFor]
    cases hby : c.By with
    | none =>
      rw [show K.map (fun pk => if (none : Option PubKey) = some pk then (1 : Int) else 0) =
        K.map (fun _ => (0 : Int)) from
        List.map_congr_left (fun pk _ => by simp)]
      simp
    | some b =>
      have hB : b ∈ K := hcov b (by simp [touchedIn, touches, hby])
      rw [show K.map (fun pk => if some b = some pk then (1 : Int) else 0) =
        K.map (fun pk => if b = pk then (1 : Int) else 0) from
        List.map_congr_left (fun pk _ => by
          by_cases hbp : b = pk
          · rw [if_pos (by rw [hbp]), if_pos hbp]
          · rw [if_neg (by simp [hbp]), if_neg hbp])]
      rw [sum_if_eq K b hnd, if_pos hB]
      simp

theorem netVP_reverse (L : List Consideration) : netVP L.reverse = netVP L := by
  simp [netVP, List.map_reverse, List.sum_reverse]

theorem netVP_resolved_rest (env : LedgerEnv) (db : LedgerDB) (height : Int) :
    ∀ (rest : List Consideration) (rl : List Consideration),
    (∀ c ∈ rest, c.IsViewpoint = false) →
    resolveList env db height rest = some rl → netVP rl = 0 := by
  intro rest
  induction rest with
  | nil =>
    intro rl _ h
    rw [resolveList] at h
    rw [← Option.some_inj.mp h]
    rfl
  | cons c rest2 ih =>
    intro rl hvp h
    have hc : c.IsViewpoint = false := hvp c (List.mem_cons_self c rest2)
    rw [resolveList] at h
    rw [show resolveApply env db height c = some (some c) from by
      unfold resolveApply
      rw [if_neg (by rw [hc]; simp)]] at h
    dsimp only at h
    cases hrest : resolveList env db height rest2 with
    | none => rw [hrest] at h; exact absurd h (by simp)
    | some rl2 =>
      rw [hrest] at h
      dsimp only [Option.map] at h
      rw [← Option.some_inj.mp h]
      rw [show netVP (c :: rl2) =
        (if c.By = none then (1 : Int) else 0) + netVP rl2 from by simp [netVP]]
      rw [ih rl2 (fun x hx => hvp x (List.mem_cons_of_mem c hx)) hrest]
      have hbyne : c.By ≠ none := by
        intro hn
        unfold Consideration.IsViewpoint at hc
        rw [hn] at hc
        simp at hc
      rw [if_neg hbyne]
      ring

theorem netVP_resolved (env : LedgerEnv) (db : LedgerDB) (height : Int)
    (view : View) (rl : List Consideration)
    (hst : envStoreWF env) (hwf : viewWF view)
    (hres : resolveList env db height view.Considerations = some rl) :
    netVP rl = if 0 ≤ height - VIEWPOINT_MATURITY then 1 else 0 := by
  obtain ⟨vp, rest, hcns, hvp, hrest⟩ := hwf
  rw [hcns] at hres
  rw [resolveList] at hres
  by_cases hm : 0 ≤ height - VIEWPOINT_MATURITY
  · rw [if_pos hm]
    rw [show resolveApply env db height vp =
        (match db.viewHeightIndex (height - VIEWPOINT_MATURITY) with
         | none => none
         | some oldID =>
           match env.getCons oldID 0 with
           | none => none
           | some oldTx => some (some oldTx)) from by
      unfold resolveApply
      rw [if_pos hvp, if_pos hm]] at hres
    cases hvh : db.viewHeightIndex (height - VIEWPOINT_MATURITY) with
    | none => rw [hvh] at hres; exact absurd hres (by simp)
    | some oldID =>
      rw [hvh] at hres
      dsimp only at hres
      cases hgc : env.getCons oldID 0 with
      | none => rw [hgc] at hres; exact absurd hres (by simp)
      | some oldTx =>
        rw [hgc] at hres
        dsimp only at hres
        cases hrl2 : resolveList env db height rest with
        | none => rw [hrl2] at hres; exact absurd hres (by simp)
        | some rl2 =>
          rw [hrl2] at hres
          dsimp only [Option.map] at hres
          rw [← Option.some_inj.mp hres]
          rw [show netVP (oldTx :: rl2) =
            (if oldTx.By = none then (1 : Int) else 0) + netVP rl2 from by
            simp [netVP]]
          rw [netVP_resolved_rest env db height rest rl2 hrest hrl2]
          rw [if_pos (of_decide_eq_true (hst oldID oldTx hgc))]
          ring
  · rw [if_neg hm]
    rw [show resolveApply env db height vp = some none from by
      unfold resolveApply
      rw [if_pos hvp, if_neg hm]] at hres
    dsimp only at hres
    exact netVP_resolved_rest env db height rest rl hrest hres

theorem pruneOps_shape (env : LedgerEnv) (db : LedgerDB) (ph : Int)
    (ops : List BatchOp) (h : pruneOps env db ph = some ops) :
    ∀ op ∈ ops, (∃ k, op = BatchOp.delConsIdx k) ∨ ∃ kk, op = BatchOp.delPkIdx kk := by
  unfold pruneOps at h
  cases hvh : db.viewHeightIndex ph with
  | none => rw [hvh] at h; exact absurd h (by simp)
  | some pid =>
    rw [hvh] at h
    dsimp only at h
    cases hgw : env.getView pid with
    | none => rw [hgw] at h; exact absurd h (by simp)
    | some w =>
      rw [hgw] at h
      dsimp only at h
      rw [← Option.some_inj.mp h]
      exact fun op hop => mem_pruneList env w.Header.Height w.Considerations 0 op hop

theorem restoreOps_shape (env : LedgerEnv) (db : LedgerDB) (ph : Int)
    (ops : List BatchOp) (h : restoreOps env db ph = some ops) :
    ∀ op ∈ ops, (∃ k v, op = BatchOp.putConsIdx k v) ∨ ∃ kk, op = BatchOp.putPkIdx kk := by
  unfold restoreOps at h
  cases hvh : db.viewHeightIndex ph with
  | none => rw [hvh] at h; exact absurd h (by simp)
  | some pid =>
    rw [hvh] at h
    dsimp only at h
    cases hgw : env.getView pid with
    | none => rw [hgw] at h; exact absurd h (by simp)
    | some w =>
      rw [hgw] at h
      dsimp only at h
      rw [← Option.some_inj.mp h]
      rw [restoreList_eq_connectOps]
      exact fun op hop => mem_connectOps env w.Header.Height w.Considerations 0 op hop

theorem connect_step_sum (env : LedgerEnv) (db db' : LedgerDB) (id : ViewID)
    (view : View) (hst : envStoreWF env) (hwf : viewWF view)
    (hnd : (db.pubKeyImbalance.map Prod.fst).Nodup)
    (hzf : ∀ pk v, alGet db.pubKeyImbalance pk = some v → v ≠ 0)
    (hconn : ConnectView env db id view = some db') :
    db'.pointTip = some (id, view.Header.Height) ∧
    (db'.pubKeyImbalance.map Prod.fst).Nodup ∧
    (∀ pk v, alGet db'.pubKeyImbalance pk = some v → v ≠ 0) ∧
    ImbSum db' = ImbSum db +
      (if 0 ≤ view.Header.Height - VIEWPOINT_MATURITY then 1 else 0) := by
  obtain ⟨rl0, cache1, tail1, hrl0, happ1, hhas, htail1, hdb1⟩ :=
    ConnectView_shape env db id view db' hconn
  have htail1shape : ∀ op ∈ tail1,
      (∃ k, op = BatchOp.delConsIdx k) ∨ ∃ kk, op = BatchOp.delPkIdx kk := by
    rcases htail1 with ⟨_, rfl⟩ | ⟨_, hpr⟩
    · intro op hop; exact absurd hop (List.not_mem_nil op)
    · exact pruneOps_shape env db _ tail1 hpr
  have htable : db'.pubKeyImbalance = flushTable cache1 db.pubKeyImbalance := by
    rw [hdb1, applyBatch_append, applyBatch_append, applyBatch_append]
    rw [applyBatch_imbTable _ tail1 (fun op hop => by
      rcases htail1shape op hop with ⟨a, rfl⟩ | ⟨kk, rfl⟩ <;> trivial)]
    rw [applyBatch_imbTable _ _ (fun op hop => by
      rcases List.mem_cons.mp hop with rfl | hop
      · trivial
      rcases List.mem_cons.mp hop with rfl | hop
      · trivial
      rw [List.mem_singleton] at hop
      subst hop
      trivial)]
    rw [applyBatch_flushOps_table]
    rw [applyBatch_imbTable _ _ (fun op hop => by
      rcases mem_connectOps env view.Header.Height view.Considerations 0 op hop with
        ⟨a, b, rfl⟩ | ⟨kk, rfl⟩ <;> trivial)]
  have htip2 : db'.pointTip = some (id, view.Header.Height) := by
    rw [hdb1, applyBatch_tip, lastEffect_append, lastEffect_append, lastEffect_append]
    rw [lastEffect_none tipEffect tail1 (fun op hop => by
      rcases htail1shape op hop with ⟨a, rfl⟩ | ⟨kk, rfl⟩ <;> rfl)]
    rw [show lastEffect tipEffect
        [BatchOp.putHeightIdx view.Header.Height id,
         BatchOp.putBranch id BranchType.MAIN,
         BatchOp.putTip id view.Header.Height] =
          some (some (id, view.Header.Height)) from by
      simp [lastEffect, List.foldl_cons, List.foldl_nil, tipEffect, heightEffect,
        branchEffect, Option.or]]
    rfl
  have hndc := applyAll_nodup (dbImbRead db) rl0 [] cache1 (by simp) happ1
  have hc1 := applyAll_char (dbImbRead db) rl0 [] cache1 (fun _ => none)
    (fun _ => rfl) happ1
  refine ⟨htip2, ?_, ?_, ?_⟩
  · rw [htable]
    exact flushTable_nodup cache1 _ hnd
  · rw [htable]
    exact flushTable_zero_free cache1 _ hzf
  · unfold ImbSum
    rw [htable, flushTable_sum cache1 _ hndc hnd]
    have hmap : cache1.map (fun e => e.2 - (alGet db.pubKeyImbalance e.1).getD 0) =
        cache1.map (fun e => deltaOf rl0 e.1) := by
      refine List.map_congr_left (fun e he => ?_)
      have hsome : alGet cache1 e.1 = some e.2 :=
        alGet_of_mem cache1 e.1 e.2 hndc he
      rw [hc1 e.1] at hsome
      by_cases ht : touchedIn rl0 e.1 = true
      · rw [show extendD (fun _ => none) rl0 e.1 =
            some (0 + deltaOf rl0 e.1) from by
          unfold extendD; rw [if_pos ht]; rfl] at hsome
        rw [Option.map_some'] at hsome
        have heq := (Option.some_inj.mp hsome).symm
        show e.2 - dbImbRead db e.1 = deltaOf rl0 e.1
        omega
      · rw [show extendD (fun _ => none) rl0 e.1 = none from by
          unfold extendD; rw [if_neg ht]] at hsome
        exact absurd hsome (by simp)
    rw [hmap]
    rw [show cache1.map (fun e => deltaOf rl0 e.1) =
        (cache1.map Prod.fst).map (fun pk => deltaOf rl0 pk) from by
      rw [List.map_map]; rfl]
    have hcov : ∀ pk, touchedIn rl0 pk = true → pk ∈ cache1.map Prod.fst := by
      intro pk hp
      by_contra hmem
      have h0 : alGet cache1 pk = none := alGet_eq_none_of_not_mem cache1 pk hmem
      rw [hc1 pk] at h0
      rw [show extendD (fun _ => none) rl0 pk = some (0 + deltaOf rl0 pk) from by
        unfold extendD; rw [if_pos hp]; rfl] at h0
      exact absurd h0 (by simp)
    rw [sum_deltaOf rl0 (cache1.map Prod.fst) hndc hcov]
    rw [netVP_resolved env db view.Header.Height view rl0 hst hwf hrl0]

theorem disconnect_step_sum (env : LedgerEnv) (db db' : LedgerDB) (id : ViewID)
    (view : View) (hst : envStoreWF env) (hwf : viewWF view)
    (hnd : (db.pubKeyImbalance.map Prod.fst).Nodup)
    (hzf : ∀ pk v, alGet db.pubKeyImbalance pk = some v → v ≠ 0)
    (hdisc : DisconnectView env db id view = some db') :
    db'.pointTip = some (view.Header.Previous, view.Header.Height - 1) ∧
    (db'.pubKeyImbalance.map Prod.fst).Nodup ∧
    (∀ pk v, alGet db'.pubKeyImbalance pk = some v → v ≠ 0) ∧
    ImbSum db' = ImbSum db -
      (if 0 ≤ view.Header.Height - VIEWPOINT_MATURITY then 1 else 0) := by
  obtain ⟨th, htipd, rl1, cache2, tail2, hrl1, hund2, htail2, hdb2⟩ :=
    DisconnectView_shape env db id view db' hdisc
  have htail2shape : ∀ op ∈ tail2,
      (∃ k v, op = BatchOp.putConsIdx k v) ∨ ∃ kk, op = BatchOp.putPkIdx kk := by
    rcases htail2 with ⟨_, rfl⟩ | ⟨_, hre⟩
    · intro op hop; exact absurd hop (List.not_mem_nil op)
    · exact restoreOps_shape env db _ tail2 hre
  have htable : db'.pubKeyImbalance = flushTable cache2 db.pubKeyImbalance := by
    rw [hdb2, applyBatch_append, applyBatch_append, applyBatch_append]
    rw [applyBatch_imbTable _ tail2 (fun op hop => by
      rcases htail2shape op hop with ⟨a, b, rfl⟩ | ⟨kk, rfl⟩ <;> trivial)]
    rw [applyBatch_imbTable _ _ (fun op hop => by
      rcases List.mem_cons.mp hop with rfl | hop
      · trivial
      rcases List.mem_cons.mp hop with rfl | hop
      · trivial
      rw [List.mem_singleton] at hop
      subst hop
      trivial)]
    rw [applyBatch_flushOps_table]
    rw [applyBatch_imbTable _ _ (fun op hop => by
      rcases mem_disconnectOps env view.Header.Height view.Considerations.reverse
        ((view.Considerations.length : Int) - 1) op hop with
        ⟨a, rfl⟩ | ⟨kk, rfl⟩ <;> trivial)]
  have htip2 : db'.pointTip =
      some (view.Header.Previous, view.Header.Height - 1) := by
    rw [hdb2, applyBatch_tip, lastEffect_append, lastEffect_append, lastEffect_append]
    rw [lastEffect_none tipEffect tail2 (fun op hop => by
      rcases htail2shape op hop with ⟨a, b, rfl⟩ | ⟨kk, rfl⟩ <;> rfl)]
    rw [show lastEffect tipEffect
        [BatchOp.delHeightIdx view.Header.Height,
         BatchOp.putBranch id BranchType.SIDE,
         BatchOp.putTip view.Header.Previous (view.Header.Height - 1)] =
          some (some (view.Header.Previous, view.Header.Height - 1)) from by
      simp [lastEffect, List.foldl_cons, List.foldl_nil, tipEffect, heightEffect,
        branchEffect, Option.or]]
    rfl
  obtain ⟨rlf, hrlf, hrl1v⟩ :
      ∃ rlf, resolveList env db view.Header.Height view.Considerations = some rlf ∧
        rl1 = rlf.reverse := by
    have hrev := resolveList_reverse env db view.Header.Height view.Considerations
    rw [hrl1] at hrev
    cases hX : resolveList env db view.Header.Height view.Considerations with
    | none => rw [hX] at hrev; exact absurd hrev (by simp)
    | some rlf =>
      rw [hX] at hrev
      rw [Option.map_some'] at hrev
      exact ⟨rlf, rfl, Option.some_inj.mp hrev⟩
  have hndc := undoAll_nodup (dbImbRead db) rl1 [] cache2 (by simp) hund2
  have hc2 := undoAll_char (dbImbRead db) rl1 [] cache2 (fun _ => none)
    (fun _ => rfl) hund2
  refine ⟨htip2, ?_, ?_, ?_⟩
  · rw [htable]
    exact flushTable_nodup cache2 _ hnd
  · rw [htable]
    exact flushTable_zero_free cache2 _ hzf
  · unfold ImbSum
    rw [htable, flushTable_sum cache2 _ hndc hnd]
    have hmap : cache2.map (fun e => e.2 - (alGet db.pubKeyImbalance e.1).getD 0) =
        cache2.map (fun e => 0 - deltaOf rl1 e.1) := by
      refine List.map_congr_left (fun e he => ?_)
      have hsome : alGet cache2 e.1 = some e.2 :=
        alGet_of_mem cache2 e.1 e.2 hndc he
      rw [hc2 e.1] at hsome
      by_cases ht : touchedIn rl1 e.1 = true
      · rw [show shrinkD (fun _ => none) rl1 e.1 =
            some (0 - deltaOf rl1 e.1) from by
          unfold shrinkD; rw [if_pos ht]; rfl] at hsome
        rw [Option.map_some'] at hsome
        have heq := (Option.some_inj.mp hsome).symm
        show e.2 - dbImbRead db e.1 = 0 - deltaOf rl1 e.1
        omega
      · rw [show shrinkD (fun _ => none) rl1 e.1 = none from by
          unfold shrinkD; rw [if_neg ht]] at hsome
        exact absurd hsome (by simp)
    rw [hmap]
    rw [show cache2.map (fun e => 0 - deltaOf rl1 e.1) =
        (cache2.map Prod.fst).map (fun pk => 0 - deltaOf rl1 pk) from by
      rw [List.map_map]; rfl]
    rw [sum_map_zero_sub (cache2.map Prod.fst) (fun pk => deltaOf rl1 pk)]
    have hcov : ∀ pk, touchedIn rl1 pk = true → pk ∈ cache2.map Prod.fst := by
      intro pk hp
      by_contra hmem
      have h0 : alGet cache2 pk = none := alGet_eq_none_of_not_mem cache2 pk hmem
      rw [hc2 pk] at h0
      rw [show shrinkD (fun _ => none) rl1 pk = some (0 - deltaOf rl1 pk) from by
        unfold shrinkD; rw [if_pos hp]; rfl] at h0
      exact absurd h0 (by simp)
    rw [sum_deltaOf rl1 (cache2.map Prod.fst) hndc hcov]
    rw [hrl1v, netVP_reverse,
      netVP_resolved env db view.Header.Height view rlf hst hwf hrlf]
    ring

/-- The full state invariant maintained along reachable ledger states:
imbalance keys are duplicate-free, no explicit zero is stored, and the
imbalance total tracks the tip height. -/
theorem reachable_state_invariant (env : LedgerEnv) (hst : envStoreWF env)
    {db : LedgerDB} (h : ReachableDB env db) :
    (db.pubKeyImbalance.map Prod.fst).Nodup ∧
    (∀ pk v, alGet db.pubKeyImbalance pk = some v → v ≠ 0) ∧
    ImbSum db = (match db.pointTip with
      | none => 0
      | some tp => max 0 (tp.2 - VIEWPOINT_MATURITY + 1)) := by
  induction h with
  | init =>
    exact ⟨List.nodup_nil, fun pk v hv => Option.noConfusion hv, rfl⟩
  | @connect db db1 id view hdb hwf hh hc ih =>
    obtain ⟨hnd, hzf, hsum⟩ := ih
    obtain ⟨htip2, hnd2, hzf2, hsum2⟩ := connect_step_sum env _ _ _ _ hst hwf hnd hzf hc
    refine ⟨hnd2, hzf2, ?_⟩
    rw [hsum2, hsum, htip2]
    dsimp only
    revert hh
    cases hdbt : db.pointTip with
    | none =>
      intro hh
      dsimp only
      rw [hh, max_def]
      unfold VIEWPOINT_MATURITY
      split_ifs <;> omega
    | some tp =>
      intro hh
      dsimp only at hh ⊢
      rw [hh, max_def, max_def]
      unfold VIEWPOINT_MATURITY
      split_ifs <;> omega
  | @disconnect db db1 id view hdb hwf hex hd ih =>
    obtain ⟨hnd, hzf, hsum⟩ := ih
    obtain ⟨th, htipd, hhh⟩ := hex
    obtain ⟨htip2, hnd2, hzf2, hsum2⟩ :=
      disconnect_step_sum env _ _ _ _ hst hwf hnd hzf hd
    refine ⟨hnd2, hzf2, ?_⟩
    rw [hsum2, hsum, htip2, htipd]
    dsimp only
    rw [hhh, max_def, max_def]
    unfold VIEWPOINT_MATURITY
    split_ifs <;> omega

/-- C7: in every ledger state reached from genesis by `ConnectView`
steps along the main chain — including states reached after
`DisconnectView` during reorganisations (`ReachableDB`, which carries
the processor's side conditions: checkView-shaped views, connects at
tipHeight+1, disconnects of the tip view) — the sum of all stored
public-key imbalances equals the number of mature viewpoints on MAIN,
`max 0 (tipHeight - VIEWPOINT_MATURITY + 1)` (0 before any view is
connected).  `envStoreWF` is the store fact the deferral relies on: the
consideration at index 0 of a stored view is its viewpoint. -/
theorem c7_imbalance_sum_invariant (env : LedgerEnv) (hst : envStoreWF env)
    (db : LedgerDB) (h : ReachableDB env db) :
    ImbSum db = (match db.pointTip with
      | none => 0
      | some tp => max 0 (tp.2 - VIEWPOINT_MATURITY + 1)) :=
  (reachable_state_invariant env hst h).2.2

/-- C7 witness: after connecting the genesis-shaped view (one viewpoint
at height 0) to the empty store, the imbalance total is
`max 0 (0 - 100 + 1) = 0` — the viewpoint is deferred, not yet mature. -/
theorem c7_imbalance_sum_witness : ImbSum c7db1 = 0 := by
  have h := c7_imbalance_sum_invariant c7env
    (fun vid cn hx => Option.noConfusion hx) c7db1
    (@ReachableDB.connect c7env emptyDB c7db1 [1] c7view
      ReachableDB.init
      ⟨c7cn, [], rfl, rfl, fun c hc => absurd hc (List.not_mem_nil c)⟩
      rfl rfl)
  rw [h]
  decide

/-! ### Incremental hasher: buffer algebra -/

theorem take_append_of_eq (l1 l2 : List Nat) (n : Nat) (h : n = l1.length) :
    (l1 ++ l2).take n = l1 := by
  subst h
  exact List.take_left l1 l2

theorem drop_append_of_eq (l1 l2 : List Nat) (n k : Nat)
    (h : n = l1.length + k) : (l1 ++ l2).drop n = l2.drop k := by
  subst h
  exact List.drop_append k

theorem drop_append_zero (l1 l2 : List Nat) (n : Nat) (h : n = l1.length) :
    (l1 ++ l2).drop n = l2 := by
  rw [drop_append_of_eq l1 l2 n 0 (by omega)]
  rfl

theorem writeAt_eval (P R data : List Nat) (off : Nat) (h : off = P.length) :
    writeAt (P ++ R) off data = P ++ data ++ R.drop data.length := by
  subst h
  unfold writeAt
  rw [List.take_left, drop_append_of_eq P R (P.length + data.length)
    data.length (by omega)]

theorem hexEncode_length (bs : List Nat) :
    (hexEncode bs).length = 2 * bs.length := by
  induction bs with
  | nil => rfl
  | cons b rest ih =>
    rw [show hexEncode (b :: rest) =
      [hexDigit (b / 16), hexDigit (b % 16)] ++ hexEncode rest from rfl]
    rw [List.length_append, ih, List.length_cons]
    simp
    omega

theorem marshal_decomp (hdr : ViewHeader) :
    marshal hdr = preTime hdr ++ decRender hdr.Time ++ midSeg hdr ++
      decRender hdr.Nonce ++ tailSeg hdr ++
      decRender hdr.ConsiderationCount ++ hdrEnd := by
  simp [marshal, preTime, midSeg, tailSeg]

theorem updHLR_spec (h : ViewHeaderHasher) (hdr : ViewHeader)
    (rOld : ConsiderationID) (tOld nOld cOld : Int) (junk : List Nat)
    (hl0 : rOld.length = 32) (hl1 : hdr.HashListRoot.length = 32)
    (hprev : h.previousHashListRoot = rOld)
    (hoff : h.hashListRootOffset = hdrPrevious.length +
      (hexEncode hdr.Previous).length + hdrHashListRoot.length)
    (hbuf : h.buffer = hdrPrevious ++ hexEncode hdr.Previous ++
      hdrHashListRoot ++ hexEncode rOld ++ hdrTime ++ decRender tOld ++
      midSeg hdr ++ decRender nOld ++ tailSeg hdr ++ decRender cOld ++
      hdrEnd ++ junk) :
    updHLR h hdr = { h with
      previousHashListRoot := hdr.HashListRoot,
      buffer := preTime hdr ++ decRender tOld ++ midSeg hdr ++
        decRender nOld ++ tailSeg hdr ++ decRender cOld ++ hdrEnd ++ junk } := by
  have hb2 : h.buffer =
      (hdrPrevious ++ hexEncode hdr.Previous ++ hdrHashListRoot) ++
        (hexEncode rOld ++ (hdrTime ++ decRender tOld ++ midSeg hdr ++
          decRender nOld ++ tailSeg hdr ++ decRender cOld ++ hdrEnd ++ junk)) := by
    rw [hbuf]
    simp [List.append_assoc]
  unfold updHLR
  by_cases hc : h.previousHashListRoot ≠ hdr.HashListRoot
  · rw [if_pos hc]
    have hw : writeAt h.buffer h.hashListRootOffset (hexEncode hdr.HashListRoot) =
        preTime hdr ++ decRender tOld ++ midSeg hdr ++ decRender nOld ++
          tailSeg hdr ++ decRender cOld ++ hdrEnd ++ junk := by
      rw [hb2, writeAt_eval _ _ _ _ (by simp [hoff, List.length_append]; omega)]
      rw [drop_append_zero _ _ _ (by rw [hexEncode_length, hexEncode_length, hl0, hl1])]
      simp [preTime, List.append_assoc]
    rw [hw]
  · rw [if_neg hc]
    have hr : rOld = hdr.HashListRoot := by
      rw [← hprev]
      exact not_not.mp (by simpa using hc)
    obtain ⟨f1, f2, f3, f4, f5, f6, f7, f8, f9, f10, f11, f12, f13, f14, f15⟩ := h
    simp only at hprev hbuf ⊢
    subst hprev
    rw [ViewHeaderHasher.mk.injEq]
    refine ⟨hr, rfl, rfl, rfl, rfl, rfl, rfl, rfl, rfl, rfl, rfl, rfl, rfl, ?_, rfl⟩
    rw [hbuf, hr]
    simp [preTime, List.append_assoc]

theorem updTime_spec (h : ViewHeaderHasher) (hdr : ViewHeader)
    (tOld nOld cOld : Int) (junk : List Nat)
    (hprev : h.previousTime = tOld)
    (htoff : h.timeOffset = (preTime hdr).length)
    (htlen : h.timeLen = (decRender tOld).length)
    (hbuf : h.buffer = preTime hdr ++ decRender tOld ++ midSeg hdr ++
      decRender nOld ++ tailSeg hdr ++ decRender cOld ++ hdrEnd ++ junk) :
    updTime h hdr = ({ h with
      previousTime := hdr.Time,
      timeLen := (decRender hdr.Time).length,
      buffer := preTime hdr ++ decRender hdr.Time ++ midSeg hdr ++
        ((decRender tOld ++ (midSeg hdr ++ (decRender nOld ++ (tailSeg hdr ++
          (decRender cOld ++ (hdrEnd ++ junk)))))).drop
          ((decRender hdr.Time).length + (midSeg hdr).length)) },
      ((decRender hdr.Time).length : Int) - ((decRender tOld).length : Int)) := by
  have hb2 : h.buffer = preTime hdr ++ (decRender tOld ++ (midSeg hdr ++
      (decRender nOld ++ (tailSeg hdr ++ (decRender cOld ++
        (hdrEnd ++ junk)))))) := by
    rw [hbuf]
    simp [List.append_assoc]
  have hdropmid : ∀ n, n = (decRender tOld).length →
      (decRender tOld ++ (midSeg hdr ++ (decRender nOld ++ (tailSeg hdr ++
        (decRender cOld ++ (hdrEnd ++ junk)))))).drop (n + (midSeg hdr).length) =
      decRender nOld ++ (tailSeg hdr ++ (decRender cOld ++ (hdrEnd ++ junk))) := by
    intro n hn
    rw [drop_append_of_eq _ _ _ ((midSeg hdr).length) (by omega)]
    rw [drop_append_zero _ _ _ rfl]
  unfold updTime
  by_cases hc : h.previousTime ≠ hdr.Time
  · rw [if_pos hc]
    dsimp only
    by_cases hoff : ((decRender hdr.Time).length : Int) - (h.timeLen : Int) ≠ 0
    · rw [if_pos hoff]
      have h1 : writeAt h.buffer h.timeOffset (decRender hdr.Time) =
          (preTime hdr ++ decRender hdr.Time) ++
            ((decRender tOld ++ (midSeg hdr ++ (decRender nOld ++ (tailSeg hdr ++
              (decRender cOld ++ (hdrEnd ++ junk)))))).drop
              (decRender hdr.Time).length) := by
        rw [hb2, writeAt_eval _ _ _ _ htoff]
      rw [h1]
      rw [writeAt_eval _ _ hdrTarget _
        (by simp [List.length_append, htoff]; try omega)]
      rw [show ∀ X Y : List Nat, (preTime hdr ++ decRender hdr.Time) ++ X ++ Y =
          ((preTime hdr ++ decRender hdr.Time) ++ X) ++ Y from fun X Y => by
        simp [List.append_assoc]]
      rw [writeAt_eval _ _ (hexEncode hdr.Target) _
        (by simp [List.length_append, htoff]; try omega)]
      rw [show ∀ X Y : List Nat,
          ((preTime hdr ++ decRender hdr.Time) ++ hdrTarget) ++ X ++ Y =
          (((preTime hdr ++ decRender hdr.Time) ++ hdrTarget) ++ X) ++ Y from
        fun X Y => by simp [List.append_assoc]]
      rw [writeAt_eval _ _ hdrPointWork _
        (by simp [List.length_append, htoff]; try omega)]
      rw [show ∀ X Y : List Nat,
          (((preTime hdr ++ decRender hdr.Time) ++ hdrTarget) ++
            hexEncode hdr.Target) ++ X ++ Y =
          ((((preTime hdr ++ decRender hdr.Time) ++ hdrTarget) ++
            hexEncode hdr.Target) ++ X) ++ Y from
        fun X Y => by simp [List.append_assoc]]
      rw [writeAt_eval _ _ (hexEncode hdr.PointWork) _
        (by simp [List.length_append, htoff]; try omega)]
      rw [show ∀ X Y : List Nat,
          ((((preTime hdr ++ decRender hdr.Time) ++ hdrTarget) ++
            hexEncode hdr.Target) ++ hdrPointWork) ++ X ++ Y =
          (((((preTime hdr ++ decRender hdr.Time) ++ hdrTarget) ++
            hexEncode hdr.Target) ++ hdrPointWork) ++ X) ++ Y from
        fun X Y => by simp [List.append_assoc]]
      rw [writeAt_eval _ _ hdrNonce _
        (by simp [List.length_append, htoff]; try omega)]
      have hdrops : (((((((decRender tOld ++ (midSeg hdr ++ (decRender nOld ++
          (tailSeg hdr ++ (decRender cOld ++ (hdrEnd ++ junk)))))).drop
            (decRender hdr.Time).length).drop hdrTarget.length).drop
            (hexEncode hdr.Target).length).drop hdrPointWork.length).drop
            (hexEncode hdr.PointWork).length).drop hdrNonce.length) =
          (decRender tOld ++ (midSeg hdr ++ (decRender nOld ++ (tailSeg hdr ++
            (decRender cOld ++ (hdrEnd ++ junk)))))).drop
            ((decRender hdr.Time).length + (midSeg hdr).length) := by
        simp only [List.drop_drop]
        congr 1
        simp [midSeg, List.length_append]
        omega
      rw [hdrops]
      rw [Prod.mk.injEq]
      constructor
      · obtain ⟨f1, f2, f3, f4, f5, f6, f7, f8, f9, f10, f11, f12, f13, f14, f15⟩ := h
        simp only at htlen ⊢
        subst htlen
        rw [ViewHeaderHasher.mk.injEq]
        refine ⟨rfl, rfl, rfl, rfl, rfl, rfl, rfl, rfl, rfl, rfl, rfl, rfl, rfl,
          ?_, rfl⟩
        simp [midSeg, List.append_assoc]
      · rw [htlen]
    · rw [if_neg hoff]
      have hlen : (decRender hdr.Time).length = (decRender tOld).length := by
        rw [← htlen]
        omega
      rw [Prod.mk.injEq]
      constructor
      · obtain ⟨f1, f2, f3, f4, f5, f6, f7, f8, f9, f10, f11, f12, f13, f14, f15⟩ := h
        simp only at htlen htoff hb2 ⊢
        subst htlen
        rw [ViewHeaderHasher.mk.injEq]
        refine ⟨rfl, rfl, rfl, rfl, rfl, rfl, rfl, rfl, rfl, rfl, rfl, rfl, rfl,
          ?_, rfl⟩
        rw [hb2, writeAt_eval _ _ _ _ htoff]
        rw [drop_append_zero _ _ _ (by omega)]
        rw [hdropmid ((decRender hdr.Time).length) hlen]
        simp [List.append_assoc]
      · rw [htlen]
  · rw [if_neg hc]
    have ht : tOld = hdr.Time := by
      rw [← hprev]
      exact not_not.mp (by simpa using hc)
    rw [Prod.mk.injEq]
    constructor
    · obtain ⟨f1, f2, f3, f4, f5, f6, f7, f8, f9, f10, f11, f12, f13, f14, f15⟩ := h
      simp only at htlen hprev hbuf ⊢
      rw [ViewHeaderHasher.mk.injEq]
      refine ⟨rfl, ?_, rfl, rfl, rfl, rfl, rfl, rfl, ?_, rfl, rfl, rfl, rfl,
        ?_, rfl⟩
      · rw [hprev, ht]
      · rw [htlen, ht]
      · rw [hbuf, hdropmid ((decRender hdr.Time).length) (by rw [ht])]
        simp [List.append_assoc]
        rw [ht]
    · rw [← ht]
      omega

theorem updNonce_spec (h : ViewHeaderHasher) (hdr : ViewHeader)
    (tOld nOld cOld : Int) (junk : List Nat) (off : Int)
    (hprev : h.previousNonce = nOld)
    (hnoff : h.nonceOffset = (preTime hdr).length + (decRender tOld).length +
      (midSeg hdr).length)
    (hnlen : h.nonceLen = (decRender nOld).length)
    (hoffv : off = ((decRender hdr.Time).length : Int) -
      ((decRender tOld).length : Int))
    (hbuf : h.buffer = preTime hdr ++ decRender hdr.Time ++ midSeg hdr ++
      ((decRender tOld ++ (midSeg hdr ++ (decRender nOld ++ (tailSeg hdr ++
        (decRender cOld ++ (hdrEnd ++ junk)))))).drop
        ((decRender hdr.Time).length + (midSeg hdr).length))) :
    updNonce h hdr off = ({ h with
      previousNonce := hdr.Nonce,
      nonceOffset := ((h.nonceOffset : Int) + off).toNat,
      nonceLen := (decRender hdr.Nonce).length,
      buffer := preTime hdr ++ decRender hdr.Time ++ midSeg hdr ++
        decRender hdr.Nonce ++ tailSeg hdr ++
        ((decRender tOld ++ (midSeg hdr ++ (decRender nOld ++ (tailSeg hdr ++
          (decRender cOld ++ (hdrEnd ++ junk)))))).drop
          ((decRender hdr.Time).length + (midSeg hdr).length +
            (decRender hdr.Nonce).length + (tailSeg hdr).length)) },
      off + (((decRender hdr.Nonce).length : Int) -
        ((decRender nOld).length : Int))) := by
  have hdroptail : ∀ (n m : Nat), (n : Int) + (m : Int) =
        ((decRender tOld).length : Int) + ((decRender nOld).length : Int) →
      (decRender tOld ++ (midSeg hdr ++ (decRender nOld ++ (tailSeg hdr ++
        (decRender cOld ++ (hdrEnd ++ junk)))))).drop
          (n + (midSeg hdr).length + m) =
      tailSeg hdr ++ (decRender cOld ++ (hdrEnd ++ junk)) := by
    intro n m hm
    rw [drop_append_of_eq _ _ _
      ((midSeg hdr).length + (decRender nOld).length) (by omega)]
    rw [drop_append_of_eq _ _ _ ((decRender nOld).length) (by omega)]
    rw [drop_append_zero _ _ _ rfl]
  have hdropfull : ∀ (n m : Nat), (n : Int) + (m : Int) =
        ((decRender tOld).length : Int) + ((decRender nOld).length : Int) →
      (decRender tOld ++ (midSeg hdr ++ (decRender nOld ++ (tailSeg hdr ++
        (decRender cOld ++ (hdrEnd ++ junk)))))).drop
          (n + (midSeg hdr).length + m + (tailSeg hdr).length) =
      decRender cOld ++ (hdrEnd ++ junk) := by
    intro n m hm
    rw [drop_append_of_eq _ _ _
      ((midSeg hdr).length + (decRender nOld).length + (tailSeg hdr).length)
      (by omega)]
    rw [drop_append_of_eq _ _ _
      ((decRender nOld).length + (tailSeg hdr).length) (by omega)]
    rw [drop_append_of_eq _ _ _ ((tailSeg hdr).length) (by omega)]
    rw [drop_append_zero _ _ _ rfl]
  have hb2 : h.buffer = ((preTime hdr ++ decRender hdr.Time) ++ midSeg hdr) ++
      ((decRender tOld ++ (midSeg hdr ++ (decRender nOld ++ (tailSeg hdr ++
        (decRender cOld ++ (hdrEnd ++ junk)))))).drop
        ((decRender hdr.Time).length + (midSeg hdr).length)) := by
    rw [hbuf]
  unfold updNonce
  by_cases hc : off ≠ 0 ∨ h.previousNonce ≠ hdr.Nonce
  · rw [if_pos hc]
    dsimp only
    have hwoff : ((h.nonceOffset : Int) + off).toNat =
        ((preTime hdr ++ decRender hdr.Time) ++ midSeg hdr).length := by
      simp [List.length_append, hnoff]
      omega
    rw [hb2, writeAt_eval _ _ _ _ hwoff]
    by_cases hoff2 : off + (((decRender hdr.Nonce).length : Int) -
        ((decRender nOld).length : Int)) ≠ 0
    · rw [if_pos (by rw [hnlen]; exact hoff2)]
      rw [writeAt_eval _ _ hdrHeight _
        (by simp [List.length_append, hwoff]; try omega)]
      rw [show ∀ X Y : List Nat,
          (((preTime hdr ++ decRender hdr.Time) ++ midSeg hdr) ++
            decRender hdr.Nonce) ++ X ++ Y =
          ((((preTime hdr ++ decRender hdr.Time) ++ midSeg hdr) ++
            decRender hdr.Nonce) ++ X) ++ Y from
        fun X Y => by simp [List.append_assoc]]
      rw [writeAt_eval _ _ (decRender hdr.Height) _
        (by simp [List.length_append]; try omega)]
      rw [show ∀ X Y : List Nat,
          ((((preTime hdr ++ decRender hdr.Time) ++ midSeg hdr) ++
            decRender hdr.Nonce) ++ hdrHeight) ++ X ++ Y =
          (((((preTime hdr ++ decRender hdr.Time) ++ midSeg hdr) ++
            decRender hdr.Nonce) ++ hdrHeight) ++ X) ++ Y from
        fun X Y => by simp [List.append_assoc]]
      rw [writeAt_eval _ _ hdrConsiderationCount _
        (by simp [List.length_append]; try omega)]
      have hdrops : ((((((decRender tOld ++ (midSeg hdr ++ (decRender nOld ++
          (tailSeg hdr ++ (decRender cOld ++ (hdrEnd ++ junk)))))).drop
            ((decRender hdr.Time).length + (midSeg hdr).length)).drop
            (decRender hdr.Nonce).length).drop hdrHeight.length).drop
            (decRender hdr.Height).length).drop hdrConsiderationCount.length) =
          (decRender tOld ++ (midSeg hdr ++ (decRender nOld ++ (tailSeg hdr ++
            (decRender cOld ++ (hdrEnd ++ junk)))))).drop
            ((decRender hdr.Time).length + (midSeg hdr).length +
              (decRender hdr.Nonce).length + (tailSeg hdr).length) := by
        simp only [List.drop_drop]
        congr 1
        simp [tailSeg, List.length_append]
        omega
      rw [hdrops]
      rw [Prod.mk.injEq]
      constructor
      · obtain ⟨f1, f2, f3, f4, f5, f6, f7, f8, f9, f10, f11, f12, f13, f14, f15⟩ := h
        dsimp only
        rw [ViewHeaderHasher.mk.injEq]
        refine ⟨rfl, rfl, rfl, rfl, rfl, rfl, rfl, rfl, rfl, rfl, rfl, rfl, rfl,
          ?_, rfl⟩
        simp [tailSeg, List.append_assoc]
      · rw [hnlen]
    · rw [if_neg (by rw [hnlen]; exact hoff2)]
      push_neg at hoff2
      rw [Prod.mk.injEq]
      constructor
      · obtain ⟨f1, f2, f3, f4, f5, f6, f7, f8, f9, f10, f11, f12, f13, f14, f15⟩ := h
        simp only at hnlen ⊢
        rw [ViewHeaderHasher.mk.injEq]
        refine ⟨rfl, rfl, rfl, rfl, rfl, rfl, rfl, rfl, rfl, rfl, rfl, rfl, rfl,
          ?_, rfl⟩
        rw [List.drop_drop]
        rw [show (decRender tOld ++ (midSeg hdr ++ (decRender nOld ++
            (tailSeg hdr ++ (decRender cOld ++ (hdrEnd ++ junk)))))).drop
            ((decRender hdr.Time).length + (midSeg hdr).length +
              (decRender hdr.Nonce).length) =
            tailSeg hdr ++ (decRender cOld ++ (hdrEnd ++ junk)) from
          hdroptail (decRender hdr.Time).length (decRender hdr.Nonce).length
            (by omega)]
        rw [hdropfull (decRender hdr.Time).length (decRender hdr.Nonce).length
          (by omega)]
        simp [List.append_assoc]
      · rw [hnlen]
  · rw [if_neg hc]
    push_neg at hc
    obtain ⟨hoff0, hneq⟩ := hc
    have hn : nOld = hdr.Nonce := by rw [← hprev, hneq]
    rw [Prod.mk.injEq]
    constructor
    · obtain ⟨f1, f2, f3, f4, f5, f6, f7, f8, f9, f10, f11, f12, f13, f14, f15⟩ := h
      simp only at hprev hnlen hbuf ⊢
      rw [ViewHeaderHasher.mk.injEq]
      refine ⟨rfl, rfl, ?_, rfl, rfl, rfl, ?_, rfl, rfl, ?_, rfl, rfl, rfl,
        ?_, rfl⟩
      · rw [hprev, hn]
      · rw [hoff0]
        simp
      · rw [hnlen, hn]
      · rw [hbuf]
        rw [show (decRender tOld ++ (midSeg hdr ++ (decRender nOld ++
            (tailSeg hdr ++ (decRender cOld ++ (hdrEnd ++ junk)))))).drop
            ((decRender hdr.Time).length + (midSeg hdr).length) =
            decRender nOld ++ (tailSeg hdr ++ (decRender cOld ++
              (hdrEnd ++ junk))) from by
          rw [drop_append_of_eq _ _ _ ((midSeg hdr).length) (by omega)]
          rw [drop_append_zero _ _ _ rfl]]
        rw [show (decRender tOld ++ (midSeg hdr ++ (decRender nOld ++
            (tailSeg hdr ++ (decRender cOld ++ (hdrEnd ++ junk)))))).drop
            ((decRender hdr.Time).length + (midSeg hdr).length +
              (decRender hdr.Nonce).length + (tailSeg hdr).length) =
            decRender cOld ++ (hdrEnd ++ junk) from
          hdropfull (decRender hdr.Time).length (decRender hdr.Nonce).length
            (by rw [hn]; omega)]
        rw [hn]
        simp [List.append_assoc]
    · rw [← hprev, hneq]
      omega

theorem updCC_spec (h : ViewHeaderHasher) (hdr : ViewHeader)
    (tOld nOld cOld : Int) (junk : List Nat) (off : Int)
    (hprev : h.previousConsiderationCount = cOld)
    (hcoff : h.considerationCountOffset = (preTime hdr).length +
      (decRender tOld).length + (midSeg hdr).length + (decRender nOld).length +
      (tailSeg hdr).length)
    (hclen : h.cnCountLen = (decRender cOld).length)
    (hoffv : off = (((decRender hdr.Time).length : Int) -
        ((decRender tOld).length : Int)) +
      (((decRender hdr.Nonce).length : Int) - ((decRender nOld).length : Int)))
    (hbuf : h.buffer = preTime hdr ++ decRender hdr.Time ++ midSeg hdr ++
      decRender hdr.Nonce ++ tailSeg hdr ++
      ((decRender tOld ++ (midSeg hdr ++ (decRender nOld ++ (tailSeg hdr ++
        (decRender cOld ++ (hdrEnd ++ junk)))))).drop
        ((decRender hdr.Time).length + (midSeg hdr).length +
          (decRender hdr.Nonce).length + (tailSeg hdr).length))) :
    updCC h hdr off = ({ h with
      previousConsiderationCount := hdr.ConsiderationCount,
      considerationCountOffset :=
        ((h.considerationCountOffset : Int) + off).toNat,
      cnCountLen := (decRender hdr.ConsiderationCount).length,
      buffer := marshal hdr ++
        ((decRender tOld ++ (midSeg hdr ++ (decRender nOld ++ (tailSeg hdr ++
          (decRender cOld ++ (hdrEnd ++ junk)))))).drop
          ((decRender hdr.Time).length + (midSeg hdr).length +
            (decRender hdr.Nonce).length + (tailSeg hdr).length +
            (decRender hdr.ConsiderationCount).length + hdrEnd.length)) },
      off + (((decRender hdr.ConsiderationCount).length : Int) -
        ((decRender cOld).length : Int))) := by
  have hdropCC : ∀ (n m k : Nat), (n : Int) + (m : Int) + (k : Int) =
        ((decRender tOld).length : Int) + ((decRender nOld).length : Int) +
          ((decRender cOld).length : Int) →
      (decRender tOld ++ (midSeg hdr ++ (decRender nOld ++ (tailSeg hdr ++
        (decRender cOld ++ (hdrEnd ++ junk)))))).drop
          (n + (midSeg hdr).length + m + (tailSeg hdr).length + k) =
      hdrEnd ++ junk := by
    intro n m k hm
    rw [drop_append_of_eq _ _ _ ((midSeg hdr).length + (decRender nOld).length +
      (tailSeg hdr).length + (decRender cOld).length) (by omega)]
    rw [drop_append_of_eq _ _ _ ((decRender nOld).length + (tailSeg hdr).length +
      (decRender cOld).length) (by omega)]
    rw [drop_append_of_eq _ _ _ ((tailSeg hdr).length + (decRender cOld).length)
      (by omega)]
    rw [drop_append_of_eq _ _ _ ((decRender cOld).length) (by omega)]
    rw [drop_append_zero _ _ _ rfl]
  have hdropEND : ∀ (n m k : Nat), (n : Int) + (m : Int) + (k : Int) =
        ((decRender tOld).length : Int) + ((decRender nOld).length : Int) +
          ((decRender cOld).length : Int) →
      (decRender tOld ++ (midSeg hdr ++ (decRender nOld ++ (tailSeg hdr ++
        (decRender cOld ++ (hdrEnd ++ junk)))))).drop
          (n + (midSeg hdr).length + m + (tailSeg hdr).length + k +
            hdrEnd.length) =
      junk := by
    intro n m k hm
    rw [drop_append_of_eq _ _ _ ((midSeg hdr).length + (decRender nOld).length +
      (tailSeg hdr).length + (decRender cOld).length + hdrEnd.length) (by omega)]
    rw [drop_append_of_eq _ _ _ ((decRender nOld).length + (tailSeg hdr).length +
      (decRender cOld).length + hdrEnd.length) (by omega)]
    rw [drop_append_of_eq _ _ _ ((tailSeg hdr).length + (decRender cOld).length +
      hdrEnd.length) (by omega)]
    rw [drop_append_of_eq _ _ _ ((decRender cOld).length + hdrEnd.length)
      (by omega)]
    rw [drop_append_of_eq _ _ _ (hdrEnd.length) (by omega)]
    rw [drop_append_zero _ _ _ rfl]
  have hb2 : h.buffer = ((((preTime hdr ++ decRender hdr.Time) ++ midSeg hdr) ++
      decRender hdr.Nonce) ++ tailSeg hdr) ++
      ((decRender tOld ++ (midSeg hdr ++ (decRender nOld ++ (tailSeg hdr ++
        (decRender cOld ++ (hdrEnd ++ junk)))))).drop
        ((decRender hdr.Time).length + (midSeg hdr).length +
          (decRender hdr.Nonce).length + (tailSeg hdr).length)) := by
    rw [hbuf]
  unfold updCC
  by_cases hc : off ≠ 0 ∨ h.previousConsiderationCount ≠ hdr.ConsiderationCount
  · rw [if_pos hc]
    dsimp only
    have hwoff : ((h.considerationCountOffset : Int) + off).toNat =
        ((((preTime hdr ++ decRender hdr.Time) ++ midSeg hdr) ++
          decRender hdr.Nonce) ++ tailSeg hdr).length := by
      simp [List.length_append, hcoff]
      omega
    rw [hb2, writeAt_eval _ _ _ _ hwoff]
    by_cases hoff2 : off + (((decRender hdr.ConsiderationCount).length : Int) -
        ((decRender cOld).length : Int)) ≠ 0
    · rw [if_pos (by rw [hclen]; exact hoff2)]
      rw [writeAt_eval _ _ hdrEnd _
        (by simp [List.length_append, hwoff]; try omega)]
      rw [List.drop_drop, List.drop_drop]
      rw [Prod.mk.injEq]
      constructor
      · obtain ⟨f1, f2, f3, f4, f5, f6, f7, f8, f9, f10, f11, f12, f13, f14, f15⟩ := h
        dsimp only
        rw [ViewHeaderHasher.mk.injEq]
        refine ⟨rfl, rfl, rfl, rfl, rfl, rfl, rfl, rfl, rfl, rfl, rfl, rfl, rfl,
          ?_, rfl⟩
        rw [marshal_decomp]
        simp [List.append_assoc]
        congr 1
        all_goals omega
      · rw [hclen]
    · rw [if_neg (by rw [hclen]; exact hoff2)]
      push_neg at hoff2
      rw [Prod.mk.injEq]
      constructor
      · obtain ⟨f1, f2, f3, f4, f5, f6, f7, f8, f9, f10, f11, f12, f13, f14, f15⟩ := h
        dsimp only
        rw [ViewHeaderHasher.mk.injEq]
        refine ⟨rfl, rfl, rfl, rfl, rfl, rfl, rfl, rfl, rfl, rfl, rfl, rfl, rfl,
          ?_, rfl⟩
        rw [List.drop_drop]
        rw [show (decRender tOld ++ (midSeg hdr ++ (decRender nOld ++
            (tailSeg hdr ++ (decRender cOld ++ (hdrEnd ++ junk)))))).drop
            ((decRender hdr.Time).length + (midSeg hdr).length +
              (decRender hdr.Nonce).length + (tailSeg hdr).length +
              (decRender hdr.ConsiderationCount).length) =
            hdrEnd ++ junk from
          hdropCC (decRender hdr.Time).length (decRender hdr.Nonce).length
            (decRender hdr.ConsiderationCount).length (by omega)]
        rw [hdropEND (decRender hdr.Time).length (decRender hdr.Nonce).length
          (decRender hdr.ConsiderationCount).length (by omega)]
        rw [marshal_decomp]
        simp [List.append_assoc]
      · rw [hclen]
  · rw [if_neg hc]
    push_neg at hc
    obtain ⟨hoff0, hneq⟩ := hc
    have hn : cOld = hdr.ConsiderationCount := by rw [← hprev, hneq]
    rw [Prod.mk.injEq]
    constructor
    · obtain ⟨f1, f2, f3, f4, f5, f6, f7, f8, f9, f10, f11, f12, f13, f14, f15⟩ := h
      simp only at hprev hclen hbuf ⊢
      rw [ViewHeaderHasher.mk.injEq]
      refine ⟨rfl, rfl, rfl, ?_, rfl, rfl, rfl, ?_, rfl, rfl, ?_, rfl, rfl,
        ?_, rfl⟩
      · rw [hprev, hn]
      · rw [hoff0]
        simp
      · rw [hclen, hn]
      · rw [hbuf]
        rw [show (decRender tOld ++ (midSeg hdr ++ (decRender nOld ++
            (tailSeg hdr ++ (decRender cOld ++ (hdrEnd ++ junk)))))).drop
            ((decRender hdr.Time).length + (midSeg hdr).length +
              (decRender hdr.Nonce).length + (tailSeg hdr).length) =
            decRender cOld ++ (hdrEnd ++ junk) from by
          rw [drop_append_of_eq _ _ _ ((midSeg hdr).length +
            (decRender nOld).length + (tailSeg hdr).length) (by omega)]
          rw [drop_append_of_eq _ _ _ ((decRender nOld).length +
            (tailSeg hdr).length) (by omega)]
          rw [drop_append_of_eq _ _ _ ((tailSeg hdr).length) (by omega)]
          rw [drop_append_zero _ _ _ rfl]]
        rw [hdropEND (decRender hdr.Time).length (decRender hdr.Nonce).length
          (decRender hdr.ConsiderationCount).length (by rw [hn]; omega)]
        rw [marshal_decomp, hn]
        simp [List.append_assoc]
    · rw [← hprev, hneq]
      omega

theorem writeAt_zero (buf data : List Nat) :
    writeAt buf 0 data = data ++ buf.drop data.length := by
  unfold writeAt
  rw [List.take_zero, Nat.zero_add, List.nil_append]

theorem initBuffer_good (h : ViewHeaderHasher) (hdr : ViewHeader)
    (hha : h.hashesPerAttempt = 1) :
    goodState (h.initBuffer hdr) hdr := by
  unfold ViewHeaderHasher.initBuffer goodState
  dsimp only
  rw [writeAt_zero]
  rw [writeAt_eval _ _ (hexEncode hdr.Previous) _
    (by simp [List.length_append]; try omega)]
  rw [writeAt_eval _ _ hdrHashListRoot _
    (by simp [List.length_append]; try omega)]
  rw [writeAt_eval _ _ (hexEncode hdr.HashListRoot) _
    (by simp [List.length_append]; try omega)]
  rw [writeAt_eval _ _ hdrTime _
    (by simp [List.length_append]; try omega)]
  rw [writeAt_eval _ _ (decRender hdr.Time) _
    (by simp [List.length_append]; try omega)]
  rw [writeAt_eval _ _ hdrTarget _
    (by simp [List.length_append]; try omega)]
  rw [writeAt_eval _ _ (hexEncode hdr.Target) _
    (by simp [List.length_append]; try omega)]
  rw [writeAt_eval _ _ hdrPointWork _
    (by simp [List.length_append]; try omega)]
  rw [writeAt_eval _ _ (hexEncode hdr.PointWork) _
    (by simp [List.length_append]; try omega)]
  rw [writeAt_eval _ _ hdrNonce _
    (by simp [List.length_append]; try omega)]
  rw [writeAt_eval _ _ (decRender hdr.Nonce) _
    (by simp [List.length_append]; try omega)]
  rw [writeAt_eval _ _ hdrHeight _
    (by simp [List.length_append]; try omega)]
  rw [writeAt_eval _ _ (decRender hdr.Height) _
    (by simp [List.length_append]; try omega)]
  rw [writeAt_eval _ _ hdrConsiderationCount _
    (by simp [List.length_append]; try omega)]
  rw [writeAt_eval _ _ (decRender hdr.ConsiderationCount) _
    (by simp [List.length_append]; try omega)]
  rw [writeAt_eval _ _ hdrEnd _
    (by simp [List.length_append]; try omega)]
  refine ⟨rfl, rfl, rfl, rfl, rfl, rfl, rfl, rfl, rfl, rfl, rfl, rfl, ?_,
    ?_, hha⟩
  · simp only [marshal, List.length_append]
    try omega
  · exact ⟨_, by unfold marshal; rfl⟩

theorem goodState_take (h : ViewHeaderHasher) (hdr : ViewHeader)
    (hgs : goodState h hdr) : h.buffer.take h.bufLen = marshal hdr := by
  obtain ⟨-, -, -, -, -, -, -, -, -, -, -, -, g13, ⟨junk, hj⟩, -⟩ := hgs
  rw [hj, g13, take_append_of_eq _ _ _ rfl]

theorem Update_init (H : List Nat → List Nat) (h : ViewHeaderHasher)
    (hdr : ViewHeader) (hinit : h.initialized = false)
    (hha : h.hashesPerAttempt = 1) :
    ViewHeaderHasher.Update H h hdr =
      (h.initBuffer hdr, ViewHeaderID H hdr, 1) := by
  have hgs := initBuffer_good h hdr hha
  unfold ViewHeaderHasher.Update
  rw [if_pos hinit]
  dsimp only
  rw [Prod.mk.injEq, Prod.mk.injEq]
  refine ⟨rfl, ?_, ?_⟩
  · rw [goodState_take _ _ hgs]
    rfl
  · exact hha

theorem Update_good (H : List Nat → List Nat) (h : ViewHeaderHasher)
    (a hdr : ViewHeader) (hgood : goodState h a) (himm : immutableOK a hdr)
    (h32a : a.HashListRoot.length = 32) (h32b : hdr.HashListRoot.length = 32) :
    goodState (ViewHeaderHasher.Update H h hdr).1 hdr ∧
    (ViewHeaderHasher.Update H h hdr).2.1 = ViewHeaderID H hdr ∧
    (ViewHeaderHasher.Update H h hdr).2.2 = 1 := by
  obtain ⟨g1, g2, g3, g4, g5, g6, g7, g8, g9, g10, g11, g12, g13,
    ⟨junk, hj⟩, g15⟩ := hgood
  obtain ⟨hi1, hi2, hi3, hi4⟩ := himm
  have hlen64 : (hexEncode a.HashListRoot).length =
      (hexEncode hdr.HashListRoot).length := by
    rw [hexEncode_length, hexEncode_length, h32a, h32b]
  have htoff : h.timeOffset = (preTime hdr).length := by
    rw [g7, g6]
    simp [preTime, List.length_append, hi1]
    try omega
  have hnoff : h.nonceOffset = (preTime hdr).length +
      (decRender a.Time).length + (midSeg hdr).length := by
    rw [g9, g8, htoff]
    simp [midSeg, List.length_append, hi2, hi3]
    try omega
  have hcoff : h.considerationCountOffset = (preTime hdr).length +
      (decRender a.Time).length + (midSeg hdr).length +
      (decRender a.Nonce).length + (tailSeg hdr).length := by
    rw [g11, g10, hnoff]
    simp [tailSeg, List.length_append, hi4]
    try omega
  have e1 : updHLR h hdr = { h with
      previousHashListRoot := hdr.HashListRoot,
      buffer := preTime hdr ++ decRender a.Time ++ midSeg hdr ++
        decRender a.Nonce ++ tailSeg hdr ++
        decRender a.ConsiderationCount ++ hdrEnd ++ junk } :=
    updHLR_spec h hdr a.HashListRoot a.Time a.Nonce a.ConsiderationCount junk
      h32a h32b g2 (by rw [hi1]; exact g6)
      (by rw [hj]
          simp [marshal, midSeg, tailSeg, hi1, hi2, hi3, hi4,
            List.append_assoc])
  have hbl : ((h.bufLen : Int) +
      (((decRender hdr.Time).length : Int) - ((decRender a.Time).length : Int) +
        (((decRender hdr.Nonce).length : Int) -
          ((decRender a.Nonce).length : Int)) +
        (((decRender hdr.ConsiderationCount).length : Int) -
          ((decRender a.ConsiderationCount).length : Int)))).toNat =
      (marshal hdr).length := by
    have hpre : (preTime a).length = (preTime hdr).length := by
      simp [preTime, List.length_append, hi1]
      try omega
    have hmid : (midSeg a).length = (midSeg hdr).length := by
      simp [midSeg, hi2, hi3]
    have htl : (tailSeg a).length = (tailSeg hdr).length := by
      simp [tailSeg, hi4]
    rw [g13, marshal_decomp a, marshal_decomp hdr]
    simp only [List.length_append]
    omega
  unfold ViewHeaderHasher.Update
  rw [g1]
  rw [if_neg (show ¬(true = false) from by decide)]
  dsimp only
  rw [e1]
  set R1 : ViewHeaderHasher := { h with
    previousHashListRoot := hdr.HashListRoot,
    buffer := preTime hdr ++ decRender a.Time ++ midSeg hdr ++
      decRender a.Nonce ++ tailSeg hdr ++
      decRender a.ConsiderationCount ++ hdrEnd ++ junk } with hR1
  have e2 := updTime_spec R1 hdr a.Time a.Nonce a.ConsiderationCount junk
    g3 htoff g8 rfl
  rw [e2]
  dsimp only
  set R2 : ViewHeaderHasher := { R1 with
    previousTime := hdr.Time,
    timeLen := (decRender hdr.Time).length,
    buffer := preTime hdr ++ decRender hdr.Time ++ midSeg hdr ++
      ((decRender a.Time ++ (midSeg hdr ++ (decRender a.Nonce ++
        (tailSeg hdr ++ (decRender a.ConsiderationCount ++
          (hdrEnd ++ junk)))))).drop
        ((decRender hdr.Time).length + (midSeg hdr).length)) } with hR2
  have e3 := updNonce_spec R2 hdr a.Time a.Nonce a.ConsiderationCount junk
    (((decRender hdr.Time).length : Int) - ((decRender a.Time).length : Int))
    g4 hnoff g10 rfl rfl
  rw [e3]
  dsimp only
  set R3 : ViewHeaderHasher := { R2 with
    previousNonce := hdr.Nonce,
    nonceOffset := ((R2.nonceOffset : Int) +
      (((decRender hdr.Time).length : Int) -
        ((decRender a.Time).length : Int))).toNat,
    nonceLen := (decRender hdr.Nonce).length,
    buffer := preTime hdr ++ decRender hdr.Time ++ midSeg hdr ++
      decRender hdr.Nonce ++ tailSeg hdr ++
      ((decRender a.Time ++ (midSeg hdr ++ (decRender a.Nonce ++
        (tailSeg hdr ++ (decRender a.ConsiderationCount ++
          (hdrEnd ++ junk)))))).drop
        ((decRender hdr.Time).length + (midSeg hdr).length +
          (decRender hdr.Nonce).length + (tailSeg hdr).length)) } with hR3
  have e4 := updCC_spec R3 hdr a.Time a.Nonce a.ConsiderationCount junk
    (((decRender hdr.Time).length : Int) - ((decRender a.Time).length : Int) +
      (((decRender hdr.Nonce).length : Int) -
        ((decRender a.Nonce).length : Int)))
    g5 hcoff g12 rfl rfl
  rw [e4]
  dsimp only
  refine ⟨?_, ?_, g15⟩
  · refine ⟨g1, rfl, rfl, rfl, rfl, ?_, ?_, rfl, ?_, rfl, ?_, rfl, hbl,
      ⟨_, rfl⟩, g15⟩
    · show h.hashListRootOffset = hdrPrevious.length +
        (hexEncode hdr.Previous).length + hdrHashListRoot.length
      rw [hi1]
      exact g6
    · show h.timeOffset = h.hashListRootOffset +
        (hexEncode hdr.HashListRoot).length + hdrTime.length
      rw [g7, hlen64]
    · show ((h.nonceOffset : Int) +
          (((decRender hdr.Time).length : Int) -
            ((decRender a.Time).length : Int))).toNat =
        h.timeOffset + (decRender hdr.Time).length + hdrTarget.length +
          (hexEncode hdr.Target).length + hdrPointWork.length +
          (hexEncode hdr.PointWork).length + hdrNonce.length
      rw [hnoff, htoff]
      simp [midSeg, List.length_append]
      try omega
    · show ((h.considerationCountOffset : Int) +
          (((decRender hdr.Time).length : Int) -
            ((decRender a.Time).length : Int) +
            (((decRender hdr.Nonce).length : Int) -
              ((decRender a.Nonce).length : Int)))).toNat =
        ((h.nonceOffset : Int) +
          (((decRender hdr.Time).length : Int) -
            ((decRender a.Time).length : Int))).toNat +
          (decRender hdr.Nonce).length + hdrHeight.length +
          (decRender hdr.Height).length + hdrConsiderationCount.length
      rw [hcoff, hnoff]
      simp [tailSeg, List.length_append, hi4]
      try omega
  · rw [show ((R3.bufLen : Int) +
        (((decRender hdr.Time).length : Int) -
          ((decRender a.Time).length : Int) +
          (((decRender hdr.Nonce).length : Int) -
            ((decRender a.Nonce).length : Int)) +
          (((decRender hdr.ConsiderationCount).length : Int) -
            ((decRender a.ConsiderationCount).length : Int)))).toNat =
        (marshal hdr).length from hbl,
      take_append_of_eq _ _ _ rfl]
    rfl

theorem runUpdates_spec (H : List Nat → List Nat) (hdrs : List ViewHeader) :
    ∀ (h : ViewHeaderHasher) (a : ViewHeader), goodState h a →
      chainImm a hdrs → (∀ b ∈ hdrs, b.HashListRoot.length = 32) →
      a.HashListRoot.length = 32 →
      runUpdates H h hdrs = hdrs.map (fun b => (ViewHeaderID H b, 1)) := by
  induction hdrs with
  | nil =>
    intro h a _ _ _ _
    rfl
  | cons b rest ih =>
    intro h a hgs hchain h32s h32a
    obtain ⟨himm, hchain2⟩ := hchain
    have h32b : b.HashListRoot.length = 32 :=
      h32s b (List.mem_cons_self b rest)
    have hU := Update_good H h a b hgs himm h32a h32b
    simp only [runUpdates]
    rw [hU.2.1, hU.2.2, List.map_cons,
      ih (ViewHeaderHasher.Update H h b).1 b hU.1 hchain2
        (fun c hc => h32s c (List.mem_cons_of_mem b hc)) h32b]

/-- **C3.** For every initial header (with the 32-byte ids every real
header carries) and every finite sequence of mutations to its
`hash_list_root`, `time`, `nonce` and `consideration_count` fields,
each call to `ViewHeaderHasher.Update` returns a big-integer id equal
to the naive id obtained by JSON-serializing the current header and
applying the hash oracle (`ViewHeader.ID`), and reports
`hashes_per_attempt = 1`. -/
theorem c3_incremental_hasher_agrees (H : List Nat → List Nat)
    (hdr0 : ViewHeader) (muts : List ViewHeader)
    (h320 : hdr0.HashListRoot.length = 32)
    (h32s : ∀ b ∈ muts, b.HashListRoot.length = 32)
    (hchain : chainImm hdr0 muts) :
    runUpdates H NewViewHeaderHasher (hdr0 :: muts) =
      (hdr0 :: muts).map (fun b => (ViewHeaderID H b, 1)) := by
  have hgs : goodState (NewViewHeaderHasher.initBuffer hdr0) hdr0 :=
    initBuffer_good NewViewHeaderHasher hdr0 rfl
  simp only [runUpdates]
  rw [Update_init H NewViewHeaderHasher hdr0 rfl rfl]
  dsimp only
  rw [List.map_cons,
    runUpdates_spec H muts (NewViewHeaderHasher.initBuffer hdr0) hdr0 hgs
      hchain h32s h320]

theorem c3_incremental_hasher_agrees_witness :
    runUpdates c3H NewViewHeaderHasher [c3hdr0, c3hdr1] =
      [c3hdr0, c3hdr1].map (fun b => (ViewHeaderID c3H b, 1)) :=
  c3_incremental_hasher_agrees c3H c3hdr0 [c3hdr1] rfl
    (fun b hb => by
      rw [List.mem_singleton.mp hb]
      rfl)
    ⟨⟨rfl, rfl, rfl, rfl⟩, trivial⟩

/-- C2: the claim reads the spec semantics "a non-viewpoint with nonzero
`matures` may be confirmed only at height ≥ `matures`; the view at exactly
height `matures` is the first in which it may be confirmed".  The code's
maturity gate — `Consideration.IsMature`, called by `Processor.acceptView`
at the view height and by `processConsideration` at `tipHeight+1` — is
`Matures >= height`: it ACCEPTS every height up to and including `Matures`
and REJECTS every height above it.  At the failing input (`Matures = 10`),
height 5 passes the gate though 5 < 10, and height 11 fails it though
11 ≥ 10.  This contradicts the field's own documentation ("if set
consideration can't be rendered before" that view height), so the claim
records a code bug. -/
theorem c2_ismature_contradicts_spec :
    cnMaturesTen.Matures = 10 ∧
    cnMaturesTen.IsMature 5 = true ∧ (5 : Int) < 10 ∧
    cnMaturesTen.IsMature 11 = false ∧ (11 : Int) ≥ 10 := by
  refine ⟨rfl, ?_, by norm_num, ?_, by norm_num⟩ <;> decide

/-- C6 counterexample: at `tipHeight = 1007`, `processConsideration` runs
the series check at height `tipHeight + 1 = 1008`, where the code's window
is `[1, 2]`; the claim's window — built from `high = tipHeight/1008 + 1 = 1`
— is `[1, 1]`.  A non-viewpoint consideration with series 2 is accepted by
the code and rejected by the claim. -/
theorem c6_series_window_counterexample :
    checkConsiderationSeries cnSeriesTwo (1007 + 1) = true ∧
    seriesWindowClaimed 1007 cnSeriesTwo = false := by
  constructor <;> decide

/-- C6 as amended: queue admission via `processConsideration` checks the
series at height `tipHeight + 1`, so the window is governed by
`high = (tipHeight+1)/1008 + 1`: a non-viewpoint passes iff its series
lies in `[max 1 (high-1), high]`, a viewpoint iff it equals `high`. -/
theorem c6_series_window (cn : Consideration) (tipHeight : Int)
    (h : 0 ≤ tipHeight) :
    checkConsiderationSeries cn (tipHeight + 1) =
      seriesWindowClaimed (tipHeight + 1) cn := by
  have hq : 0 ≤ Int.tdiv (tipHeight + 1) VIEWS_UNTIL_NEW_SERIES :=
    Int.tdiv_nonneg (by omega) (by norm_num [VIEWS_UNTIL_NEW_SERIES])
  unfold checkConsiderationSeries seriesWindowClaimed
  cases hvp : cn.IsViewpoint with
  | true => simp
  | false =>
    simp only [Bool.false_eq_true, if_false]
    have hlow : (if Int.tdiv (tipHeight + 1) VIEWS_UNTIL_NEW_SERIES + 1 - 1 = 0
        then (1 : Int)
        else Int.tdiv (tipHeight + 1) VIEWS_UNTIL_NEW_SERIES + 1 - 1)
        = max 1 (Int.tdiv (tipHeight + 1) VIEWS_UNTIL_NEW_SERIES + 1 - 1) := by
      split_ifs with h0 <;> omega
    rw [hlow]

/-- C6 witness: the amended window theorem applied at `tipHeight = 0`. -/
theorem c6_series_window_witness :
    (0 : Int) ≤ 0 ∧
      checkConsiderationSeries cnSeriesTwo (0 + 1) =
        seriesWindowClaimed (0 + 1) cnSeriesTwo :=
  ⟨le_refl 0, c6_series_window cnSeriesTwo 0 (le_refl 0)⟩

/-- C9: whenever `ImbalanceCache.Apply` returns `false` with no error (the
sender's imbalance is below 1), the delta map is returned exactly as it
was: the sender is not debited, the recipient is not credited, and no
entry is added. -/
theorem c9_apply_false_leaves_cache (ledger : PubKey → Int)
    (cache : ImbCache) (cn : Consideration) (cacheAfter : ImbCache)
    (h : ImbalanceCache.Apply ledger cache cn = (false, cacheAfter)) :
    cacheAfter = cache := by
  unfold ImbalanceCache.Apply at h
  cases hby : cn.By with
  | none => rw [hby] at h; simp at h
  | some fpk =>
    rw [hby] at h
    dsimp only at h
    split at h
    · simp only [Prod.mk.injEq] at h
      exact h.2.symm
    · simp at h

/-- C9 witness: the theorem applied to the empty cache over a ledger with
all imbalances zero, where `Apply` of a non-viewpoint returns `false`. -/
theorem c9_apply_false_witness :
    ImbalanceCache.Apply (fun _ => 0) [] cnSeriesTwo = (false, []) ∧
      ([] : ImbCache) = [] :=
  ⟨by decide, c9_apply_false_leaves_cache (fun _ => 0) [] cnSeriesTwo []
    (by decide)⟩

/-- C10: `Graph.IsParentDescendant` returns `false` whenever either key is
absent from the node index or maps to node index 0 (the root); in
particular a consideration whose sender or recipient key has never
appeared in the graph always passes the ancestry check performed by
`ConsiderationQueueMemory.Add` and by `LedgerDisk.ConnectView`, both of
which reject only when `IsParentDescendant` returns `true`. -/
theorem c10_isparentdescendant_absent_or_root (g : Graph) (p d : String)
    (h : g.index p = none ∨ g.index d = none ∨
         g.index p = some 0 ∨ g.index d = some 0) :
    g.IsParentDescendant p d = false := by
  unfold Graph.IsParentDescendant
  rcases hp : g.index p with _ | pi <;> rcases hd : g.index d with _ | di
  · rfl
  · rfl
  · rfl
  · rcases h with h | h | h | h
    · rw [hp] at h; cases h
    · rw [hd] at h; cases h
    · rw [hp] at h
      have : pi = 0 := by injection h
      simp [this]
    · rw [hd] at h
      have : di = 0 := by injection h
      simp [this]

/-- C10 witness: the theorem applied to the empty graph. -/
theorem c10_isparentdescendant_witness :
    Graph.IsParentDescendant ⟨fun _ => none, 0, fun _ => []⟩ "a" "b" = false :=
  c10_isparentdescendant_absent_or_root ⟨fun _ => none, 0, fun _ => []⟩
    "a" "b" (Or.inl rfl)

/-- C8 counterexample: a view whose header time equals exactly
`now + MAX_FUTURE_SECONDS` passes `checkView` (the code rejects only
`Time > now + MAX_FUTURE_SECONDS`), refuting the claim that validation
fails unless the time is strictly below `now + 7200`. -/
theorem c8_time_bound_counterexample :
    checkView hashZero cnIdZero (fun _ => none) (List.replicate 32 0)
        viewAtTimeLimit 0 = true ∧
      ¬(viewAtTimeLimit.Header.Time < 0 + MAX_FUTURE_SECONDS) := by
  constructor <;> decide

/-- C8 as amended: every view that passes `checkView` at wall-clock `now`
has `Time ≤ now + MAX_FUTURE_SECONDS` (non-strict). -/
theorem c8_time_upper_bound (H : List Nat → List Nat)
    (cnIdOf : Consideration → ConsiderationID)
    (checkpoints : Int → Option ViewID) (id : ViewID) (view : View)
    (now : Int)
    (h : checkView H cnIdOf checkpoints id view now = true) :
    view.Header.Time ≤ now + MAX_FUTURE_SECONDS := by
  rcases le_or_lt view.Header.Time (now + MAX_FUTURE_SECONDS) with hle | hgt
  · exact hle
  · exfalso
    have hfalse : checkView H cnIdOf checkpoints id view now = false := by
      unfold checkView
      by_cases h1 : view.Header.Time < 0 ∨ view.Header.Time > MAX_NUMBER
      · rw [if_pos h1]
      · rw [if_neg h1, if_pos hgt]
    rw [h] at hfalse
    exact absurd hfalse (by simp)

/-- C8 witness: the amended bound applied to the boundary view. -/
theorem c8_time_upper_bound_witness :
    checkView hashZero cnIdZero (fun _ => none) (List.replicate 32 0)
        viewAtTimeLimit 0 = true ∧
      viewAtTimeLimit.Header.Time ≤ 0 + MAX_FUTURE_SECONDS :=
  ⟨by decide, c8_time_upper_bound hashZero cnIdZero (fun _ => none)
    (List.replicate 32 0) viewAtTimeLimit 0 (by decide)⟩

/-- Following `Previous` links `n` times down a consistent chain lands on
the header `n` heights below. -/
theorem walkBack_chain (viewStore : ViewID → Option ViewHeader)
    (ids : Int → ViewID) (hdrs : Int → ViewHeader) (H : Int)
    (Hstore : ∀ h : Int, 0 ≤ h → h ≤ H → viewStore (ids h) = some (hdrs h))
    (Hprev : ∀ h : Int, 1 ≤ h → h ≤ H → (hdrs h).Previous = ids (h - 1)) :
    ∀ (n : Nat) (h : Int), (n : Int) ≤ h → h ≤ H →
      walkBack viewStore (hdrs h) n = some (hdrs (h - n)) := by
  intro n
  induction n with
  | zero => intro h _ _; simp [walkBack]
  | succ n ih =>
    intro h hn hH
    have h1 : 1 ≤ h := by push_cast at hn; omega
    rw [walkBack, Hprev h h1 hH, Hstore (h - 1) (by omega) (by omega)]
    show walkBack viewStore (hdrs (h - 1)) n = _
    rw [ih (h - 1) (by push_cast at hn ⊢; omega) (by omega)]
    congr 1
    push_cast
    ring

/-- C4: below the switch height `BITCOIN_CASH_RETARGET_ALGORITHM_HEIGHT =
28861`, `computeTarget` keeps the parent's target off retarget heights
(`(H+1) % 2016 ≠ 0`); on a retarget height it reads back to the header at
height `H - 2015` on the very first retarget (`H + 1 = 2016`) and
`H - 2016` on all later ones, clamps the timespan from the parent's time
to that header's time into `[RETARGET_TIME/4, RETARGET_TIME*4]`, and
returns `parentTarget * timespan / RETARGET_TIME` clamped above by
`INITIAL_TARGET`.  The chain hypotheses say `hdrs h` is the header at
height `h`, resolvable through the store along `Previous` links. -/
theorem c4_compute_target_legacy
    (bitcoinCashArm : ViewHeader → Option ViewID)
    (viewStore : ViewID → Option ViewHeader)
    (ids : Int → ViewID) (hdrs : Int → ViewHeader) (H : Int)
    (HH : (hdrs H).Height = H) (H0 : 0 ≤ H)
    (Hsw : H < BITCOIN_CASH_RETARGET_ALGORITHM_HEIGHT)
    (Hstore : ∀ h : Int, 0 ≤ h → h ≤ H → viewStore (ids h) = some (hdrs h))
    (Hprev : ∀ h : Int, 1 ≤ h → h ≤ H → (hdrs h).Previous = ids (h - 1)) :
    computeTarget bitcoinCashArm viewStore (hdrs H) =
      if Int.tmod (H + 1) RETARGET_INTERVAL ≠ 0 then some (hdrs H).Target
      else
        let firstHeight := if H + 1 = RETARGET_INTERVAL then H - 2015 else H - 2016
        let actualTimespan :=
          min (max ((hdrs H).Time - (hdrs firstHeight).Time)
            (Int.tdiv RETARGET_TIME 4)) (RETARGET_TIME * 4)
        some (SetBigInt (min
          (GetBigInt (hdrs H).Target * actualTimespan.toNat / RETARGET_TIME.toNat)
          (GetBigInt initialTargetBytes))) := by
  have hclamp : ∀ a : Int,
      (if (if a < Int.tdiv RETARGET_TIME 4 then Int.tdiv RETARGET_TIME 4 else a) >
          RETARGET_TIME * 4
        then RETARGET_TIME * 4
        else if a < Int.tdiv RETARGET_TIME 4 then Int.tdiv RETARGET_TIME 4 else a)
      = min (max a (Int.tdiv RETARGET_TIME 4)) (RETARGET_TIME * 4) := by
    intro a
    have : Int.tdiv RETARGET_TIME 4 = 302400 := by decide
    rw [this]
    norm_num [RETARGET_TIME]
    split_ifs <;> omega
  have hsel : ∀ n m : Nat,
      (if n > m then SetBigInt m else SetBigInt n) = SetBigInt (min n m) := by
    intro n m
    split_ifs with hnm
    · congr 1; omega
    · congr 1; omega
  unfold computeTarget
  rw [if_neg (by rw [HH]; omega)]
  unfold computeTargetBitcoin
  rw [HH]
  by_cases hmod : Int.tmod (H + 1) RETARGET_INTERVAL ≠ 0
  · rw [if_pos hmod, if_pos hmod]
  · rw [if_neg hmod, if_neg hmod]
    push_neg at hmod
    have hdvd : (RETARGET_INTERVAL : Int) ∣ (H + 1) := Int.dvd_of_tmod_eq_zero hmod
    have hge : RETARGET_INTERVAL ≤ H + 1 := by
      rcases hdvd with ⟨k, hk⟩
      have hk1 : 1 ≤ k := by
        by_contra hk1
        push_neg at hk1
        norm_num [RETARGET_INTERVAL] at hk ⊢
        omega
      norm_num [RETARGET_INTERVAL] at hk ⊢
      omega
    by_cases hfirst : H + 1 = RETARGET_INTERVAL
    · rw [if_neg (by omega), if_pos hfirst]
      dsimp only
      rw [walkBack_chain viewStore ids hdrs H Hstore Hprev 2015 H
          (by norm_num [RETARGET_INTERVAL] at hfirst; omega) (le_refl H)]
      dsimp only
      rw [hclamp, hsel]
      norm_num
    · rw [if_pos (by omega), if_neg hfirst]
      dsimp only
      rw [walkBack_chain viewStore ids hdrs H Hstore Hprev 2016 H
          (by
            rcases hdvd with ⟨k, hk⟩
            have hk1 : 2 ≤ k := by
              norm_num [RETARGET_INTERVAL] at hk hfirst hge ⊢
              omega
            norm_num [RETARGET_INTERVAL] at hk ⊢
            omega)
          (le_refl H)]
      dsimp only
      rw [hclamp, hsel]
      norm_num

/-- C4 witness: the retarget characterisation applied at the first
retarget height of the concrete witness chain (`H = 2015`, spacing 600s);
the hypotheses are discharged on the chain `c4hdr`/`c4id`/`c4store`. -/
theorem c4_compute_target_witness :
    (c4hdr 2015).Height = 2015 ∧
      computeTarget (fun _ => none) c4store (c4hdr 2015) =
        (if Int.tmod (2015 + 1) RETARGET_INTERVAL ≠ 0 then some (c4hdr 2015).Target
         else
          let firstHeight :=
            if (2015 : Int) + 1 = RETARGET_INTERVAL then 2015 - 2015 else 2015 - 2016
          let actualTimespan :=
            min (max ((c4hdr 2015).Time - (c4hdr firstHeight).Time)
              (Int.tdiv RETARGET_TIME 4)) (RETARGET_TIME * 4)
          some (SetBigInt (min
            (GetBigInt (c4hdr 2015).Target * actualTimespan.toNat / RETARGET_TIME.toNat)
            (GetBigInt initialTargetBytes)))) :=
  ⟨rfl,
    c4_compute_target_legacy (fun _ => none) c4store c4id c4hdr 2015
      rfl (by norm_num) (by norm_num [BITCOIN_CASH_RETARGET_ALGORITHM_HEIGHT])
      (fun h h0 hH => by
        simp only [c4store, c4id]
        congr 2
        omega)
      (fun h h1 hH => rfl)⟩

/-- C5: `ViewHeader.Compare(a, b, whenA, whenB)` is true iff `a` has
strictly more point work, or equal point work and a strictly earlier store
timestamp, or equal point work and timestamps and a strictly smaller
header id as a big integer. -/
theorem c5_compare_characterisation (idOf : ViewHeader → Nat)
    (a b : ViewHeader) (whenA whenB : Int) :
    ViewHeader.Compare idOf a b whenA whenB = true ↔
      (GetBigInt a.PointWork > GetBigInt b.PointWork ∨
       (GetBigInt a.PointWork = GetBigInt b.PointWork ∧ whenA < whenB) ∨
       (GetBigInt a.PointWork = GetBigInt b.PointWork ∧ whenA = whenB ∧
        idOf a < idOf b)) := by
  unfold ViewHeader.Compare
  split_ifs with h1 h2 h3 h4 <;> simp <;> omega

end Focalpoint
